import Mathlib

/-!
Verification of the DC-MST repository (degree-constrained minimum spanning
tree solvers).  The Python sources are shallowly embedded: vertices are
natural numbers, Python `set`s of vertices are `List ℕ` in the (arbitrary
but fixed) iteration order with a `Nodup` hypothesis where the code relies
on set semantics, edge weights (Python floats, integer-valued in every
instance the generator produces) are rationals, and the unbounded
`while`-loops of the searches are given explicit fuel together with proofs
that the supplied fuel is sufficient.
-/

namespace DCMST

/-- A pair edge `(u, v)` as used by `src/utils/graph.py` (weights live in a
separate lookup). -/
abbrev PEdge := ℕ × ℕ

/-- A weighted triple edge `(u, v, w)` as used by `brute_force.py` and
`local_search.py`. -/
abbrev WEdge := ℕ × ℕ × ℚ

/-- Forget the weight of a triple edge. -/
def projW (e : WEdge) : PEdge := (e.1, e.2.1)

/-- Both endpoints of every edge belong to the vertex list. -/
def EdgesOn (V : List ℕ) (E : List PEdge) : Prop :=
  ∀ e ∈ E, e.1 ∈ V ∧ e.2 ∈ V

/-- One-step adjacency induced by an edge list (symmetric by construction). -/
def adjP (E : List PEdge) (x y : ℕ) : Prop :=
  (x, y) ∈ E ∨ (y, x) ∈ E

/-- Reachability: reflexive-transitive closure of adjacency.  This is the
mathematical notion of "x and y lie in the same connected component". -/
def Reach (E : List PEdge) (x y : ℕ) : Prop :=
  Relation.ReflTransGen (adjP E) x y

/-- The graph on vertex list `V` with edge list `E` is connected. -/
def ConnectedL (V : List ℕ) (E : List PEdge) : Prop :=
  ∀ x ∈ V, ∀ y ∈ V, Reach E x y

/-- Degree of `v` in the edge list `E` (a self-loop counts twice, exactly as
the Python degree accounting `degrees[u] += 1; degrees[v] += 1` does). -/
def degCount (E : List PEdge) (v : ℕ) : ℕ :=
  E.countP (fun e => e.1 = v) + E.countP (fun e => e.2 = v)

/-- Remove the first occurrence of `e` (Python `set` difference on a list
representation; a plain-equality variant of `List.erase` used to avoid `BEq`
instance mismatches). -/
def eraseP {α : Type} [DecidableEq α] : List α → α → List α
  | [], _ => []
  | x :: xs, e => if x = e then xs else x :: eraseP xs e

/-- Occurrence count of an edge value in an edge list. -/
def countOcc (l : List PEdge) (e : PEdge) : ℕ := l.countP (fun x => x = e)

/-- The edge list is a forest: every edge is a bridge, i.e. its endpoints are
not connected by the remaining edges. -/
def Acyclic (E : List PEdge) : Prop :=
  ∀ e ∈ E, ¬ Reach (eraseP E e) e.1 e.2

theorem eraseP_subset (l : List PEdge) (e : PEdge) : eraseP l e ⊆ l := by
  induction l with
  | nil => simp [eraseP]
  | cons x xs ih =>
      by_cases hx : x = e
      · simp only [eraseP, if_pos hx]
        exact List.subset_cons_self x xs
      · simp only [eraseP, if_neg hx]
        exact List.cons_subset_cons x ih

theorem mem_eraseP_of_ne {l : List PEdge} {x e : PEdge} (hne : x ≠ e) :
    x ∈ eraseP l e ↔ x ∈ l := by
  induction l with
  | nil => simp [eraseP]
  | cons y ys ih =>
      by_cases hy : y = e
      · subst hy
        simp [eraseP, List.mem_cons, hne]
      · simp [eraseP, hy, List.mem_cons, ih]

theorem countOcc_eraseP_self (l : List PEdge) (e : PEdge) :
    countOcc (eraseP l e) e = countOcc l e - 1 := by
  induction l with
  | nil => simp [eraseP, countOcc]
  | cons x xs ih =>
      by_cases hx : x = e
      · subst hx
        simp [eraseP, countOcc, List.countP_cons]
      · simp [eraseP, hx, countOcc, List.countP_cons] at ih ⊢
        exact ih

theorem mem_iff_countOcc_pos {l : List PEdge} {e : PEdge} :
    e ∈ l ↔ 0 < countOcc l e := by
  induction l with
  | nil => simp [countOcc]
  | cons x xs ih =>
      by_cases hx : x = e
      · subst hx
        simp [countOcc, List.countP_cons]
      · have hxe : ¬ e = x := fun hc => hx hc.symm
        have hcnt : countOcc (x :: xs) e = countOcc xs e := by
          simp [countOcc, List.countP_cons, hx]
        rw [hcnt, List.mem_cons]
        constructor
        · rintro (hc | hc)
          · exact absurd hc.symm hx
          · exact ih.mp hc
        · intro hc
          exact Or.inr (ih.mpr hc)

theorem countOcc_subperm {l₁ l₂ : List PEdge} (h : List.Subperm l₁ l₂)
    (e : PEdge) : countOcc l₁ e ≤ countOcc l₂ e := by
  rcases h with ⟨l, hperm, hsub⟩
  calc countOcc l₁ e = countOcc l e := (hperm.countP_eq _).symm
    _ ≤ countOcc l₂ e := hsub.countP_le _

theorem eraseP_append_left {A : List PEdge} (B : List PEdge) {e : PEdge}
    (h : e ∈ A) : eraseP (A ++ B) e = eraseP A e ++ B := by
  induction A with
  | nil => simp at h
  | cons x xs ih =>
      by_cases hx : x = e
      · simp [eraseP, hx]
      · rcases List.mem_cons.mp h with h' | h'
        · exact absurd h'.symm hx
        · simp [eraseP, hx, ih h']

theorem eraseP_append_right (A : List PEdge) {B : List PEdge} {e : PEdge}
    (h : e ∉ A) : eraseP (A ++ B) e = A ++ eraseP B e := by
  induction A with
  | nil => simp
  | cons x xs ih =>
      have hx : x ≠ e := fun hc => h (hc ▸ List.mem_cons_self x xs)
      have h' : e ∉ xs := fun hc => h (List.mem_cons_of_mem x hc)
      simp [eraseP, hx, ih h']

theorem adjP_symm {E : List PEdge} {x y : ℕ} (h : adjP E x y) : adjP E y x := by
  rcases h with h | h
  · exact Or.inr h
  · exact Or.inl h

theorem adjP_mono {E₁ E₂ : List PEdge} (hsub : E₁ ⊆ E₂) {x y : ℕ}
    (h : adjP E₁ x y) : adjP E₂ x y := by
  rcases h with h | h
  · exact Or.inl (hsub h)
  · exact Or.inr (hsub h)

theorem Reach.symm {E : List PEdge} {x y : ℕ} (h : Reach E x y) : Reach E y x := by
  induction h with
  | refl => exact Relation.ReflTransGen.refl
  | tail _ hstep ih =>
      exact Relation.ReflTransGen.trans
        (Relation.ReflTransGen.single (adjP_symm hstep)) ih

theorem Reach.trans {E : List PEdge} {x y z : ℕ}
    (h₁ : Reach E x y) (h₂ : Reach E y z) : Reach E x z :=
  Relation.ReflTransGen.trans h₁ h₂

theorem reach_mono {E₁ E₂ : List PEdge} (hsub : E₁ ⊆ E₂) {x y : ℕ}
    (h : Reach E₁ x y) : Reach E₂ x y := by
  induction h with
  | refl => exact Relation.ReflTransGen.refl
  | tail _ hstep ih =>
      exact Relation.ReflTransGen.tail ih (adjP_mono hsub hstep)

theorem reach_of_adj {E : List PEdge} {x y : ℕ} (h : adjP E x y) : Reach E x y :=
  Relation.ReflTransGen.single h

theorem reach_of_mem {E : List PEdge} {e : PEdge} (h : e ∈ E) : Reach E e.1 e.2 :=
  reach_of_adj (Or.inl h)

/-- Decomposition of reachability after consing one more edge `e`:
either the old edges already did it, or the walk crosses `e` (in one of the
two directions). -/
theorem reach_cons_iff (e : PEdge) (E : List PEdge) (x y : ℕ) :
    Reach (e :: E) x y ↔
      Reach E x y ∨ (Reach E x e.1 ∧ Reach E e.2 y) ∨
        (Reach E x e.2 ∧ Reach E e.1 y) := by
  constructor
  · intro h
    induction h with
    | refl => exact Or.inl Relation.ReflTransGen.refl
    | tail _ hstep ih =>
        rename_i b c _
        have hstep' : adjP E b c ∨ (b = e.1 ∧ c = e.2) ∨ (b = e.2 ∧ c = e.1) := by
          rcases hstep with h | h
          · rcases List.mem_cons.mp h with h | h
            · exact Or.inr (Or.inl ⟨congrArg Prod.fst h, congrArg (fun p => p.2) h⟩)
            · exact Or.inl (Or.inl h)
          · rcases List.mem_cons.mp h with h | h
            · exact Or.inr (Or.inr ⟨congrArg (fun p => p.2) h, congrArg Prod.fst h⟩)
            · exact Or.inl (Or.inr h)
        rcases ih with hxb | ⟨hx1, h2b⟩ | ⟨hx2, h1b⟩
        · rcases hstep' with h | ⟨h1, h2⟩ | ⟨h1, h2⟩
          · exact Or.inl (Relation.ReflTransGen.tail hxb h)
          · exact Or.inr (Or.inl ⟨h1 ▸ hxb, h2 ▸ Relation.ReflTransGen.refl⟩)
          · exact Or.inr (Or.inr ⟨h1 ▸ hxb, h2 ▸ Relation.ReflTransGen.refl⟩)
        · rcases hstep' with h | ⟨h1, h2⟩ | ⟨h1, h2⟩
          · exact Or.inr (Or.inl ⟨hx1, Relation.ReflTransGen.tail h2b h⟩)
          · exact Or.inr (Or.inl ⟨hx1, h2 ▸ Relation.ReflTransGen.refl⟩)
          · -- walk went x ~ e.1, e.2 ~ b, b = e.2, c = e.1: so x ~ e.2 ... c = e.1
            exact Or.inl (h2 ▸ Relation.ReflTransGen.trans hx1 Relation.ReflTransGen.refl)
        · rcases hstep' with h | ⟨h1, h2⟩ | ⟨h1, h2⟩
          · exact Or.inr (Or.inr ⟨hx2, Relation.ReflTransGen.tail h1b h⟩)
          · exact Or.inl (h2 ▸ Relation.ReflTransGen.trans hx2 Relation.ReflTransGen.refl)
          · exact Or.inr (Or.inr ⟨hx2, h2 ▸ Relation.ReflTransGen.refl⟩)
  · have hsub : E ⊆ e :: E := List.subset_cons_self e E
    have he1 : Reach (e :: E) e.1 e.2 :=
      reach_of_adj (Or.inl (List.mem_cons_self e E))
    rintro (h | ⟨h1, h2⟩ | ⟨h1, h2⟩)
    · exact reach_mono hsub h
    · exact Reach.trans (reach_mono hsub h1)
        (Reach.trans he1 (reach_mono hsub h2))
    · exact Reach.trans (reach_mono hsub h1)
        (Reach.trans he1.symm (reach_mono hsub h2))

theorem reach_append_single_iff (E : List PEdge) (e : PEdge) (x y : ℕ) :
    Reach (E ++ [e]) x y ↔
      Reach E x y ∨ (Reach E x e.1 ∧ Reach E e.2 y) ∨
        (Reach E x e.2 ∧ Reach E e.1 y) := by
  have h₁ : Reach (E ++ [e]) x y ↔ Reach (e :: E) x y := by
    constructor
    · exact reach_mono (by intro a ha; simpa using (List.mem_append.mp ha).symm.imp id id)
    · exact reach_mono (by intro a ha; simp at ha ⊢; tauto)
  rw [h₁, reach_cons_iff]

/-- A walk that may use the edge `e` can avoid (one occurrence of) it as soon
as `e`'s endpoints stay connected without it. -/
theorem reach_detour {E : List PEdge} {e : PEdge}
    (hdet : Reach (eraseP E e) e.1 e.2) {x y : ℕ} (h : Reach E x y) :
    Reach (eraseP E e) x y := by
  induction h with
  | refl => exact Relation.ReflTransGen.refl
  | tail _ hstep ih =>
      rename_i b c _
      refine Relation.ReflTransGen.trans ih ?_
      rcases hstep with hm | hm
      · by_cases hbc : ((b, c) : PEdge) = e
        · have h1 : b = e.1 := congrArg Prod.fst hbc
          have h2 : c = e.2 := congrArg (fun p => p.2) hbc
          exact h1 ▸ h2 ▸ hdet
        · exact reach_of_adj (Or.inl ((mem_eraseP_of_ne hbc).mpr hm))
      · by_cases hbc : ((c, b) : PEdge) = e
        · have h1 : c = e.1 := congrArg Prod.fst hbc
          have h2 : b = e.2 := congrArg (fun p => p.2) hbc
          exact h1 ▸ h2 ▸ hdet.symm
        · exact reach_of_adj (Or.inr ((mem_eraseP_of_ne hbc).mpr hm))

/-- A sub-multiset of a forest is a forest. -/
theorem acyclic_subperm {E₁ E₂ : List PEdge} (hsub : List.Subperm E₁ E₂)
    (hac : Acyclic E₂) : Acyclic E₁ := by
  intro e he
  have hmem : e ∈ E₂ := hsub.subset he
  have hsube : eraseP E₁ e ⊆ eraseP E₂ e := by
    intro x hx
    by_cases hxe : x = e
    · subst hxe
      have h₁ : 0 < countOcc (eraseP E₁ x) x := mem_iff_countOcc_pos.mp hx
      rw [countOcc_eraseP_self] at h₁
      have h₂ : countOcc E₁ x ≤ countOcc E₂ x := countOcc_subperm hsub x
      refine mem_iff_countOcc_pos.mpr ?_
      rw [countOcc_eraseP_self]
      omega
    · exact (mem_eraseP_of_ne hxe).mpr
        (hsub.subset ((mem_eraseP_of_ne hxe).mp hx))
  intro hr
  exact hac e hmem (reach_mono hsube hr)

theorem acyclic_perm {E₁ E₂ : List PEdge} (hp : E₁.Perm E₂)
    (hac : Acyclic E₂) : Acyclic E₁ :=
  acyclic_subperm hp.subperm hac

/-- Adding an edge between two vertices that are not yet connected keeps the
edge list a forest. -/
theorem acyclic_append_single {E : List PEdge} {a b : ℕ}
    (hac : Acyclic E) (hnr : ¬ Reach E a b) :
    Acyclic (E ++ [(a, b)]) := by
  intro f hf
  rcases List.mem_append.mp hf with hfE | hfe
  · -- an old edge: a walk between its endpoints avoiding it would have to
    -- cross the new edge, forcing `a ~ b` with the old edges
    have hfE' : f ∈ E := hfE
    have herase : eraseP (E ++ [(a, b)]) f = eraseP E f ++ [(a, b)] :=
      eraseP_append_left _ hfE'
    rw [herase]
    intro hr
    have hesub : eraseP E f ⊆ E := eraseP_subset _ _
    rcases (reach_append_single_iff (eraseP E f) (a, b) f.1 f.2).mp hr with
      h | ⟨h1, h2⟩ | ⟨h1, h2⟩
    · exact hac f hfE' h
    · exact hnr ((reach_mono hesub h1).symm.trans
        ((reach_of_mem hfE').trans (reach_mono hesub h2).symm))
    · exact hnr ((reach_mono hesub h2).trans
        ((reach_of_mem hfE').symm.trans (reach_mono hesub h1)))
  · have hfeq : f = (a, b) := by simpa using hfe
    subst hfeq
    have hnmem : ((a, b) : PEdge) ∉ E := fun hmem => hnr (reach_of_mem hmem)
    have herase : eraseP (E ++ [(a, b)]) (a, b) = E := by
      rw [eraseP_append_right _ hnmem]
      simp [eraseP]
    rw [herase]
    exact hnr

/-- If, scanning the list left to right, no edge ever closes a cycle with the
edges before it, then the whole list is a forest. -/
theorem acyclic_of_prefixes (E : List PEdge)
    (h : ∀ A e B, E = A ++ e :: B → ¬ Reach A e.1 e.2) : Acyclic E := by
  induction E using List.reverseRecOn with
  | nil => intro e he; simp at he
  | append_singleton E' e ih =>
      have hE' : Acyclic E' := by
        refine ih ?_
        intro A f B hdec
        exact h A f (B ++ [e]) (by rw [hdec]; simp)
      have hlast : ¬ Reach E' e.1 e.2 := h E' e [] rfl
      have := acyclic_append_single hE' hlast
      simpa using this

/-! ### Union-Find

`brute_force.py` (`has_cycle`), `graph.py` (`is_tree`) and the spec's §4.1
`UnionFind` all walk a parent map until reaching a fixpoint.  The Python
`while parent[x] != x` loop is embedded with fuel; under the forest
invariant `ChainTo` a fuel of `|V|` always suffices. -/

/-- `find` loop with fuel: follow parent pointers until a fixpoint. -/
def findN (p : ℕ → ℕ) : ℕ → ℕ → ℕ
  | 0, x => x
  | k + 1, x => if p x = x then x else findN p k (p x)

/-- The representative returned by the Python `find(v)` (fuel `|V|` suffices
under the chain invariant below). -/
def rootOf (V : List ℕ) (p : ℕ → ℕ) (v : ℕ) : ℕ := findN p V.length v

/-- The parent chain starting at `v` reaches a fixpoint after exactly `k`
steps, visits pairwise-distinct vertices, and stays inside `V`. -/
def ChainTo (p : ℕ → ℕ) (V : List ℕ) (v : ℕ) (k : ℕ) : Prop :=
  p (p^[k] v) = p^[k] v ∧
  ((List.range (k + 1)).map (fun i => p^[i] v)).Nodup ∧
  ∀ i, i ≤ k → p^[i] v ∈ V

theorem iterate_fixed {p : ℕ → ℕ} {x : ℕ} (h : p x = x) :
    ∀ n, p^[n] x = x := by
  intro n
  induction n with
  | zero => rfl
  | succ n ih => rw [Function.iterate_succ_apply', ih, h]

theorem chainTo_k_lt {p : ℕ → ℕ} {V : List ℕ} {v k : ℕ}
    (h : ChainTo p V v k) : k < V.length := by
  obtain ⟨-, hnd, hmem⟩ := h
  have hlen : ((List.range (k + 1)).map (fun i => p^[i] v)).length = k + 1 := by
    simp
  have hsub : ((List.range (k + 1)).map (fun i => p^[i] v)).toFinset ⊆
      V.toFinset := by
    intro x hx
    rw [List.mem_toFinset] at hx
    rw [List.mem_toFinset]
    obtain ⟨i, hi, rfl⟩ := List.mem_map.mp hx
    exact hmem i (Nat.lt_succ_iff.mp (List.mem_range.mp hi))
  have hcard := Finset.card_le_card hsub
  rw [List.toFinset_card_of_nodup hnd] at hcard
  rw [hlen] at hcard
  have hcard2 : V.toFinset.card ≤ V.length := V.toFinset_card_le
  omega

theorem findN_eq_of_chain {p : ℕ → ℕ} {V : List ℕ} {v k : ℕ}
    (h : ChainTo p V v k) : ∀ n, k ≤ n → findN p n v = p^[k] v := by
  induction k generalizing v with
  | zero =>
      intro n _
      obtain ⟨hfix, -, -⟩ := h
      simp only [Function.iterate_zero_apply] at hfix ⊢
      cases n with
      | zero => rfl
      | succ n => simp [findN, hfix]
  | succ k ih =>
      intro n hn
      obtain ⟨hfix, hnd, hmem⟩ := h
      have hpv : p v ≠ v := by
        intro hc
        have h0 : p^[0] v = p^[1] v := by
          simp [Function.iterate_one, hc]
        have : ¬ ((List.range (k + 1 + 1)).map (fun i => p^[i] v)).Nodup := by
          intro hnd'
          have hinj := List.nodup_map_iff_inj_on (List.nodup_range _) |>.mp hnd'
          have h01 := hinj 0 (by simp only [List.mem_range]; omega) 1
            (by simp only [List.mem_range]; omega) h0
          omega
        exact this hnd
      have hchain' : ChainTo p V (p v) k := by
        refine ⟨?_, ?_, ?_⟩
        · rw [← Function.iterate_succ_apply]; exact hfix
        · have hform : (List.range (k + 1 + 1)).map (fun i => p^[i] v) =
              v :: (List.range (k + 1)).map (fun i => p^[i] (p v)) := by
            rw [List.range_succ_eq_map]
            simp only [List.map_cons, Function.iterate_zero_apply, List.map_map]
            refine congrArg (v :: ·) (List.map_congr_left ?_)
            intro i _
            simp [Function.comp, Function.iterate_succ_apply]
          rw [hform] at hnd
          exact hnd.of_cons
        · intro i hi
          rw [← Function.iterate_succ_apply]
          exact hmem (i + 1) (by omega)
      cases n with
      | zero => omega
      | succ n =>
          simp only [findN, if_neg hpv]
          rw [ih hchain' n (by omega), ← Function.iterate_succ_apply]

/-- Under the chain invariant, `rootOf` reaches the chain's fixpoint. -/
theorem rootOf_eq {p : ℕ → ℕ} {V : List ℕ} {v k : ℕ}
    (h : ChainTo p V v k) : rootOf V p v = p^[k] v :=
  findN_eq_of_chain h V.length (Nat.le_of_lt (chainTo_k_lt h))

theorem rootOf_isFix {p : ℕ → ℕ} {V : List ℕ} {v k : ℕ}
    (h : ChainTo p V v k) : p (rootOf V p v) = rootOf V p v := by
  rw [rootOf_eq h]; exact h.1

theorem rootOf_mem {p : ℕ → ℕ} {V : List ℕ} {v k : ℕ}
    (h : ChainTo p V v k) : rootOf V p v ∈ V := by
  rw [rootOf_eq h]; exact h.2.2 k (le_refl k)

theorem reach_nil_iff (x y : ℕ) : Reach [] x y ↔ x = y := by
  constructor
  · intro h
    induction h with
    | refl => rfl
    | tail _ hstep _ => rcases hstep with h | h <;> simp at h
  · rintro rfl; exact Relation.ReflTransGen.refl

/-- Invariant of the parent map after processing the edge list `P`:
every vertex has a well-formed parent chain, and two vertices share a
representative exactly when they are connected by the processed edges. -/
structure UFInv (V : List ℕ) (p : ℕ → ℕ) (P : List PEdge) : Prop where
  chain : ∀ v ∈ V, ∃ k, ChainTo p V v k
  corr : ∀ x ∈ V, ∀ y ∈ V, (rootOf V p x = rootOf V p y ↔ Reach P x y)

theorem findN_id (n x : ℕ) : findN (fun v => v) n x = x := by
  cases n <;> simp [findN]

theorem ufInv_init (V : List ℕ) : UFInv V (fun v => v) [] := by
  refine ⟨?_, ?_⟩
  · intro v hv
    refine ⟨0, ?_, ?_, ?_⟩
    · simp
    · simp
    · intro i hi
      have hi0 : i = 0 := Nat.le_zero.mp hi
      subst hi0
      simpa using hv
  · intro x _ y _
    simp [rootOf, findN_id, reach_nil_iff]

/-- A fixpoint of `p` can occur in a parent chain only as its last element. -/
theorem fix_chain_lt {p : ℕ → ℕ} {V : List ℕ} {v k : ℕ}
    (hch : ChainTo p V v k) {r : ℕ} (hfix : p r = r) :
    ∀ i, i < k → p^[i] v ≠ r := by
  intro i hik hir
  have hnext : p^[i + 1] v = p^[i] v := by
    rw [Function.iterate_succ_apply', hir, hfix]
  have hnd := hch.2.1
  have hinj := List.nodup_map_iff_inj_on (List.nodup_range _) |>.mp hnd
  have h01 := hinj (i + 1) (by simp only [List.mem_range]; omega) i
    (by simp only [List.mem_range]; omega) hnext
  omega

theorem iterate_update_eq {p : ℕ → ℕ} {rv ru w : ℕ} {k : ℕ}
    (havoid : ∀ i, i < k → p^[i] w ≠ rv) :
    ∀ i, i ≤ k → (Function.update p rv ru)^[i] w = p^[i] w := by
  intro i hik
  induction i with
  | zero => rfl
  | succ i ih =>
      rw [Function.iterate_succ_apply', Function.iterate_succ_apply',
        ih (by omega)]
      exact Function.update_noteq (havoid i (by omega)) ru p

/-- Core union step shared by `has_cycle`, `is_tree` and the spec-modelled
rank-based `UnionFind`: redirecting the representative of `v` to the
representative of `u` preserves the invariant with the edge `(u, v)`
appended, and collapses exactly those two representatives. -/
theorem ufInv_union_step {V : List ℕ} {p : ℕ → ℕ} {P : List PEdge}
    (inv : UFInv V p P) {u v : ℕ} (hu : u ∈ V) (hv : v ∈ V)
    (hne : rootOf V p u ≠ rootOf V p v) :
    UFInv V (Function.update p (rootOf V p v) (rootOf V p u)) (P ++ [(u, v)]) ∧
    (∀ x ∈ V, rootOf V (Function.update p (rootOf V p v) (rootOf V p u)) x =
       if rootOf V p x = rootOf V p v then rootOf V p u else rootOf V p x) := by
  set ru := rootOf V p u with hru_def
  set rv := rootOf V p v with hrv_def
  obtain ⟨ku, hchu⟩ := inv.chain u hu
  obtain ⟨kv, hchv⟩ := inv.chain v hv
  have hrufix : p ru = ru := rootOf_isFix hchu
  have hrvfix : p rv = rv := rootOf_isFix hchv
  have hruV : ru ∈ V := rootOf_mem hchu
  have hrvV : rv ∈ V := rootOf_mem hchv
  set p' := Function.update p rv ru with hpu_def
  -- new chains and the explicit description of the new representatives
  have hmain : ∀ x ∈ V, ∃ k', ChainTo p' V x k' ∧
      rootOf V p' x = (if rootOf V p x = rv then ru else rootOf V p x) := by
    intro x hx
    obtain ⟨k, hch⟩ := inv.chain x hx
    have hroot_eq : rootOf V p x = p^[k] x := rootOf_eq hch
    by_cases hcase : rootOf V p x = rv
    · -- the chain of x ends at rv: it gets extended by one step to ru
      have hklast : p^[k] x = rv := by rw [← hroot_eq]; exact hcase
      have havoid : ∀ i, i < k → p^[i] x ≠ rv := fix_chain_lt hch hrvfix
      have hiter : ∀ i, i ≤ k → p'^[i] x = p^[i] x :=
        iterate_update_eq havoid
      have hru_avoid : ∀ i, i ≤ k → p^[i] x ≠ ru := by
        intro i hik
        rcases Nat.lt_or_ge i k with hik' | hik'
        · exact fix_chain_lt hch hrufix i hik'
        · have : i = k := by omega
          subst this
          rw [hklast]
          exact fun hc => hne hc.symm
      have hstep : p'^[k + 1] x = ru := by
        rw [Function.iterate_succ_apply', hiter k (le_refl k), hklast]
        simp [hpu_def]
      have hch' : ChainTo p' V x (k + 1) := by
        refine ⟨?_, ?_, ?_⟩
        · rw [hstep]
          have hru_ne : ru ≠ rv := hne
          rw [hpu_def, Function.update_noteq hru_ne, hrufix]
        · have hsplit : (List.range (k + 1 + 1)).map (fun i => p'^[i] x) =
              ((List.range (k + 1)).map (fun i => p'^[i] x)) ++ [p'^[k + 1] x] := by
            rw [List.range_succ, List.map_append]
            simp
          rw [hsplit]
          have hsame : (List.range (k + 1)).map (fun i => p'^[i] x) =
              (List.range (k + 1)).map (fun i => p^[i] x) := by
            apply List.map_congr_left
            intro i hi
            exact hiter i (Nat.lt_succ_iff.mp (List.mem_range.mp hi))
          rw [hsame, hstep]
          refine List.Nodup.append hch.2.1 (List.nodup_singleton _) ?_
          intro a ha hb
          have hab : a = ru := by simpa using hb
          obtain ⟨i, hi, rfl⟩ := List.mem_map.mp ha
          exact hru_avoid i (Nat.lt_succ_iff.mp (List.mem_range.mp hi)) hab
        · intro i hi
          rcases Nat.lt_or_ge i (k + 1) with hik | hik
          · rw [hiter i (by omega)]
            exact hch.2.2 i (by omega)
          · have : i = k + 1 := by omega
            subst this
            rw [hstep]
            exact hruV
      refine ⟨k + 1, hch', ?_⟩
      rw [if_pos hcase, rootOf_eq hch', hstep]
    · -- the chain of x avoids rv entirely and is untouched
      have hklast : p^[k] x ≠ rv := by rw [← hroot_eq]; exact hcase
      have havoid : ∀ i, i < k → p^[i] x ≠ rv := fix_chain_lt hch hrvfix
      have havoid' : ∀ i, i ≤ k → p^[i] x ≠ rv := by
        intro i hik
        rcases Nat.lt_or_ge i k with h | h
        · exact havoid i h
        · have : i = k := by omega
          subst this; exact hklast
      have hiter : ∀ i, i ≤ k → p'^[i] x = p^[i] x :=
        iterate_update_eq havoid
      have hch' : ChainTo p' V x k := by
        refine ⟨?_, ?_, ?_⟩
        · rw [hiter k (le_refl k), hpu_def,
            Function.update_noteq hklast, hch.1]
        · have hsame : (List.range (k + 1)).map (fun i => p'^[i] x) =
              (List.range (k + 1)).map (fun i => p^[i] x) := by
            apply List.map_congr_left
            intro i hi
            exact hiter i (Nat.lt_succ_iff.mp (List.mem_range.mp hi))
          rw [hsame]; exact hch.2.1
        · intro i hi
          rw [hiter i hi]; exact hch.2.2 i hi
      refine ⟨k, hch', ?_⟩
      rw [if_neg hcase, rootOf_eq hch', hiter k (le_refl k), hroot_eq]
  have hroots : ∀ x ∈ V, rootOf V p' x =
      (if rootOf V p x = rv then ru else rootOf V p x) := by
    intro x hx
    exact (hmain x hx).choose_spec.2
  refine ⟨⟨?_, ?_⟩, hroots⟩
  · intro x hx
    exact ⟨(hmain x hx).choose, (hmain x hx).choose_spec.1⟩
  · intro x hx y hy
    rw [hroots x hx, hroots y hy]
    have hxy := inv.corr x hx y hy
    have hxu := inv.corr x hx u hu
    have hxv := inv.corr x hx v hv
    have huy := inv.corr u hu y hy
    have hvy := inv.corr v hv y hy
    have hreach : Reach (P ++ [(u, v)]) x y ↔
        Reach P x y ∨ (Reach P x u ∧ Reach P v y) ∨
          (Reach P x v ∧ Reach P u y) := by
      simpa using reach_append_single_iff P (u, v) x y
    have hRHS : Reach (P ++ [(u, v)]) x y ↔
        (rootOf V p x = rootOf V p y ∨
          (rootOf V p x = ru ∧ rv = rootOf V p y) ∨
          (rootOf V p x = rv ∧ ru = rootOf V p y)) := by
      rw [hreach, ← hxy, ← hxu, ← hvy, ← hxv, ← huy]
    rw [hRHS]
    have hne' : ru ≠ rv := hne
    split_ifs with h1 h2 h2 <;>
      (constructor <;> intro h <;> omega)

theorem acyclic_iff_prefixes (E : List PEdge) :
    Acyclic E ↔ ∀ A e B, E = A ++ e :: B → ¬ Reach A e.1 e.2 := by
  constructor
  · intro hac A e B hdec hr
    by_cases heA : e ∈ A
    · -- a second copy of `e` survives the erase, so `e`'s endpoints stay
      -- connected without its first occurrence
      have hcnt : 2 ≤ countOcc E e := by
        rw [hdec]
        have h₁ : 0 < countOcc A e := mem_iff_countOcc_pos.mp heA
        have h₂ : countOcc (A ++ e :: B) e =
            countOcc A e + countOcc (e :: B) e := List.countP_append _ _ _
        have h₃ : 0 < countOcc (e :: B) e := by
          simp [countOcc, List.countP_cons]
        omega
      have hmem : e ∈ eraseP E e := by
        refine mem_iff_countOcc_pos.mpr ?_
        rw [countOcc_eraseP_self]
        omega
      have hmemE : e ∈ E := by rw [hdec]; simp
      exact hac e hmemE (reach_of_mem hmem)
    · have hmemE : e ∈ E := by rw [hdec]; simp
      have herase : eraseP E e = A ++ B := by
        rw [hdec, eraseP_append_right A heA]
        simp [eraseP]
      have hsub : A ⊆ A ++ B := List.subset_append_left A B
      exact hac e hmemE (herase ▸ reach_mono hsub hr)
  · exact acyclic_of_prefixes E

/-! ### `has_cycle` from `src/brute_force.py`

The nested `find`/`union` closures over the `parent` dict are embedded as a
pure parent map (`find` has no path compression there); the `for` loop that
returns `True` at the first failing union is the recursion below. -/

/-- The `union` closure of `has_cycle`: returns `False` and leaves the state
untouched when the roots coincide, else attaches `y`'s root below `x`'s
root. -/
def hc_union (V : List ℕ) (p : ℕ → ℕ) (x y : ℕ) : Bool × (ℕ → ℕ) :=
  let rx := rootOf V p x
  let ry := rootOf V p y
  if rx = ry then (false, p) else (true, Function.update p ry rx)

/-- The edge loop of `has_cycle`. -/
def hasCycleAux (V : List ℕ) : (ℕ → ℕ) → List PEdge → Bool
  | _, [] => false
  | p, e :: es =>
      match hc_union V p e.1 e.2 with
      | (false, _) => true
      | (true, p') => hasCycleAux V p' es

/-- `has_cycle(vertices, edges)` from `brute_force.py` (the edge weight is
ignored; `parent = {v: v for v in vertices}` is the identity map). -/
def has_cycle (V : List ℕ) (E : List WEdge) : Bool :=
  hasCycleAux V (fun v => v) (E.map projW)

theorem hasCycleAux_false_iff (V : List ℕ) :
    ∀ (rest : List PEdge) (p : ℕ → ℕ) (P : List PEdge),
      UFInv V p P → EdgesOn V rest →
      (hasCycleAux V p rest = false ↔
        ∀ A e B, rest = A ++ e :: B → ¬ Reach (P ++ A) e.1 e.2) := by
  intro rest
  induction rest with
  | nil =>
      intro p P _ _
      simp only [hasCycleAux]
      constructor
      · intro _ A e B hdec
        exact absurd hdec (by simp)
      · intro _; trivial
  | cons e es ih =>
      intro p P inv hEdges
      obtain ⟨hu, hv⟩ := hEdges e (List.mem_cons_self e es)
      have hEdges' : EdgesOn V es := fun f hf =>
        hEdges f (List.mem_cons_of_mem e hf)
      have hcorr := inv.corr e.1 hu e.2 hv
      by_cases hroots : rootOf V p e.1 = rootOf V p e.2
      · -- the union fails: the loop returns True, and the prefix condition
        -- fails at the decomposition `[] ++ e :: es`
        have hreach : Reach P e.1 e.2 := hcorr.mp hroots
        have hlhs : hasCycleAux V p (e :: es) = true := by
          simp [hasCycleAux, hc_union, hroots]
        rw [hlhs]
        constructor
        · intro h; cases h
        · intro h
          exact absurd (by simpa using hreach)
            (by simpa using h [] e es rfl)
      · -- the union succeeds and the invariant advances by the edge `e`
        have hstep := ufInv_union_step inv hu hv hroots
        have hinv' : UFInv V (Function.update p (rootOf V p e.2)
            (rootOf V p e.1)) (P ++ [(e.1, e.2)]) := hstep.1
        have hinv'' : UFInv V (Function.update p (rootOf V p e.2)
            (rootOf V p e.1)) (P ++ [e]) := by
          rwa [show ((e.1, e.2) : PEdge) = e from rfl] at hinv'
        have hlhs : hasCycleAux V p (e :: es) =
            hasCycleAux V (Function.update p (rootOf V p e.2)
              (rootOf V p e.1)) es := by
          simp [hasCycleAux, hc_union, hroots]
        rw [hlhs, ih _ (P ++ [e]) hinv'' hEdges']
        constructor
        · intro h A f B hdec
          cases A with
          | nil =>
              have hf : e = f := by
                simpa using congrArg (fun l => l.headI) hdec
              intro hr
              rw [List.append_nil] at hr
              exact hroots (hcorr.mpr (hf ▸ hr))
          | cons a A' =>
              rw [List.cons_append] at hdec
              obtain ⟨hae, hes⟩ := List.cons_eq_cons.mp hdec
              have h' := h A' f B hes
              rw [show (P ++ [e]) ++ A' = P ++ e :: A' by simp] at h'
              rw [← hae]
              exact h'
        · intro h A' f B hdec
          have h' := h (e :: A') f B (by rw [hdec, List.cons_append])
          rw [show P ++ e :: A' = (P ++ [e]) ++ A' by simp] at h'
          exact h'

/-- `has_cycle` returns `False` precisely on forests. -/
theorem has_cycle_false_iff_acyclic (V : List ℕ) (E : List WEdge)
    (hE : EdgesOn V (E.map projW)) :
    has_cycle V E = false ↔ Acyclic (E.map projW) := by
  rw [has_cycle,
    hasCycleAux_false_iff V (E.map projW) _ [] (ufInv_init V) hE,
    acyclic_iff_prefixes]
  constructor
  · intro h A e B hdec
    have := h A e B hdec
    simpa using this
  · intro h A e B hdec
    have := h A e B hdec
    simpa using this

/-! ### `is_connected` from `src/brute_force.py`

The adjacency dict of Python sets becomes a deduplicated neighbour-list
function; the `while stack` loop becomes a fuel recursion (`none` = fuel
exhausted, which the chosen fuel provably never is).  Python pops from the
end of the list; the embedding keeps the stack top at the head — the visited
set produced is the same, and only it is observed. -/

/-- Neighbour list of `x`: Python `adjacency[x]` (a set, hence `dedup`). -/
def adjList (E : List PEdge) (x : ℕ) : List ℕ :=
  (((E.filter (fun e => e.1 = x)).map (fun e => e.2)) ++
    ((E.filter (fun e => e.2 = x)).map (fun e => e.1))).dedup

theorem mem_adjList {E : List PEdge} {x y : ℕ} :
    y ∈ adjList E x ↔ adjP E x y := by
  simp only [adjList, List.mem_dedup, List.mem_append, List.mem_map,
    List.mem_filter, adjP]
  constructor
  · rintro (⟨e, ⟨he, h1⟩, h2⟩ | ⟨e, ⟨he, h1⟩, h2⟩)
    · left
      have h1' : e.1 = x := by simpa using h1
      have : e = (x, y) := by
        cases e; simp_all
      exact this ▸ he
    · right
      have h1' : e.2 = x := by simpa using h1
      have : e = (y, x) := by
        cases e; simp_all
      exact this ▸ he
  · rintro (h | h)
    · exact Or.inl ⟨(x, y), ⟨h, by simp⟩, rfl⟩
    · exact Or.inr ⟨(y, x), ⟨h, by simp⟩, rfl⟩

theorem adjList_mem_right {V : List ℕ} {E : List PEdge} (hE : EdgesOn V E)
    {x y : ℕ} (h : y ∈ adjList E x) : y ∈ V := by
  rcases mem_adjList.mp h with hm | hm
  · exact (hE _ hm).2
  · exact (hE _ hm).1

/-- The `while stack:` loop of `is_connected`: pop, mark, push the unvisited
neighbours.  `none` means the fuel ran out. -/
def dfsLoop (adj : ℕ → List ℕ) : ℕ → List ℕ → Finset ℕ → Option (Finset ℕ)
  | 0, stack, visited => if stack = [] then some visited else none
  | _ + 1, [], visited => some visited
  | fuel + 1, current :: rest, visited =>
      if current ∈ visited then dfsLoop adj fuel rest visited
      else dfsLoop adj fuel (((adj current).filter (· ∉ visited)) ++ rest)
        (insert current visited)

/-- Potential bounding the number of remaining loop iterations. -/
def dfsPot (V : List ℕ) (adj : ℕ → List ℕ) (stack : List ℕ)
    (visited : Finset ℕ) : ℕ :=
  stack.length + ∑ v ∈ V.toFinset \ visited, (1 + (adj v).length)

/-- Fuel used by the embedded `is_connected`: the initial potential. -/
def dfsFuel (V : List ℕ) (E : List PEdge) : ℕ :=
  1 + ∑ v ∈ V.toFinset, (1 + (adjList E v).length)

theorem dfsLoop_total {V : List ℕ} {E : List PEdge} (hE : EdgesOn V E) :
    ∀ (fuel : ℕ) (stack : List ℕ) (visited : Finset ℕ),
      dfsPot V (adjList E) stack visited ≤ fuel → stack ⊆ V →
      (dfsLoop (adjList E) fuel stack visited).isSome := by
  intro fuel
  induction fuel with
  | zero =>
      intro stack visited hpot _
      have hlen : stack.length = 0 := by
        have := hpot
        unfold dfsPot at this
        omega
      rw [List.length_eq_zero] at hlen
      subst hlen
      simp [dfsLoop]
  | succ fuel ih =>
      intro stack visited hpot hstack
      cases stack with
      | nil => simp [dfsLoop]
      | cons current rest =>
          by_cases hcv : current ∈ visited
          · simp only [dfsLoop, if_pos hcv]
            refine ih rest visited ?_ (fun s hs => hstack (List.mem_cons_of_mem _ hs))
            unfold dfsPot at hpot ⊢
            simp only [List.length_cons] at hpot
            omega
          · simp only [dfsLoop, if_neg hcv]
            have hcV : current ∈ V := hstack (List.mem_cons_self _ _)
            refine ih _ (insert current visited) ?_ ?_
            · unfold dfsPot at hpot ⊢
              have hsd : V.toFinset \ insert current visited =
                  (V.toFinset \ visited).erase current := by
                ext a
                simp only [Finset.mem_sdiff, Finset.mem_insert,
                  Finset.mem_erase]
                tauto
              have hcmem : current ∈ V.toFinset \ visited := by
                simp only [Finset.mem_sdiff, List.mem_toFinset]
                exact ⟨hcV, hcv⟩
              have hsum : ∑ v ∈ (V.toFinset \ visited).erase current,
                    (1 + (adjList E v).length) + (1 + (adjList E current).length) =
                  ∑ v ∈ V.toFinset \ visited, (1 + (adjList E v).length) :=
                Finset.sum_erase_add _ _ hcmem
              have hflen : (((adjList E current).filter (· ∉ visited)) ++
                  rest).length ≤ (adjList E current).length + rest.length := by
                rw [List.length_append]
                have := List.length_filter_le (· ∉ visited) (adjList E current)
                omega
              rw [hsd]
              simp only [List.length_cons] at hpot
              omega
            · intro s hs
              rcases List.mem_append.mp hs with h | h
              · exact adjList_mem_right hE (List.mem_of_mem_filter h)
              · exact hstack (List.mem_cons_of_mem _ h)

/-- Everything the DFS marks is reachable from what was initially on the
stack or already marked. -/
theorem dfsLoop_sound {E : List PEdge} {v₀ : ℕ} :
    ∀ (fuel : ℕ) (stack : List ℕ) (visited : Finset ℕ) (r : Finset ℕ),
      dfsLoop (adjList E) fuel stack visited = some r →
      (∀ s ∈ stack, Reach E v₀ s) → (∀ x ∈ visited, Reach E v₀ x) →
      ∀ x ∈ r, Reach E v₀ x := by
  intro fuel
  induction fuel with
  | zero =>
      intro stack visited r hrun _ hvis
      by_cases h : stack = []
      · simp [dfsLoop, h] at hrun
        exact hrun ▸ hvis
      · simp [dfsLoop, h] at hrun
  | succ fuel ih =>
      intro stack visited r hrun hstack hvis
      cases stack with
      | nil =>
          simp only [dfsLoop, Option.some.injEq] at hrun
          exact hrun ▸ hvis
      | cons current rest =>
          by_cases hcv : current ∈ visited
          · rw [dfsLoop, if_pos hcv] at hrun
            exact ih rest visited r hrun
              (fun s hs => hstack s (List.mem_cons_of_mem _ hs)) hvis
          · rw [dfsLoop, if_neg hcv] at hrun
            have hc : Reach E v₀ current := hstack _ (List.mem_cons_self _ _)
            refine ih _ _ r hrun ?_ ?_
            · intro s hs
              rcases List.mem_append.mp hs with h | h
              · exact hc.trans
                  (reach_of_adj (mem_adjList.mp (List.mem_of_mem_filter h)))
              · exact hstack s (List.mem_cons_of_mem _ h)
            · intro x hx
              rcases Finset.mem_insert.mp hx with h | h
              · exact h ▸ hc
              · exact hvis x h

/-- At successful termination the visited set absorbs the pending stack and
is closed under adjacency. -/
theorem dfsLoop_closed {E : List PEdge} :
    ∀ (fuel : ℕ) (stack : List ℕ) (visited : Finset ℕ) (r : Finset ℕ),
      dfsLoop (adjList E) fuel stack visited = some r →
      (∀ u ∈ visited, ∀ w ∈ adjList E u, w ∈ visited ∨ w ∈ stack) →
      (∀ x ∈ visited, x ∈ r) ∧ (∀ s ∈ stack, s ∈ r) ∧
        (∀ u ∈ r, ∀ w ∈ adjList E u, w ∈ r) := by
  intro fuel
  induction fuel with
  | zero =>
      intro stack visited r hrun hinv
      by_cases h : stack = []
      · subst h
        have hrun' : visited = r := by
          simpa [dfsLoop] using hrun
        subst hrun'
        refine ⟨fun x hx => hx, by simp, ?_⟩
        intro u hu w hw
        rcases hinv u hu w hw with h | h
        · exact h
        · simp at h
      · simp [dfsLoop, h] at hrun
  | succ fuel ih =>
      intro stack visited r hrun hinv
      cases stack with
      | nil =>
          simp only [dfsLoop, Option.some.injEq] at hrun
          subst hrun
          refine ⟨fun x hx => hx, by simp, ?_⟩
          intro u hu w hw
          rcases hinv u hu w hw with h | h
          · exact h
          · simp at h
      | cons current rest =>
          by_cases hcv : current ∈ visited
          · rw [dfsLoop, if_pos hcv] at hrun
            have hinv' : ∀ u ∈ visited, ∀ w ∈ adjList E u,
                w ∈ visited ∨ w ∈ rest := by
              intro u hu w hw
              rcases hinv u hu w hw with h | h
              · exact Or.inl h
              · rcases List.mem_cons.mp h with h | h
                · exact Or.inl (h ▸ hcv)
                · exact Or.inr h
            obtain ⟨h1, h2, h3⟩ := ih rest visited r hrun hinv'
            exact ⟨h1, fun s hs => by
              rcases List.mem_cons.mp hs with h | h
              · exact h ▸ h1 current hcv
              · exact h2 s h, h3⟩
          · rw [dfsLoop, if_neg hcv] at hrun
            have hinv' : ∀ u ∈ insert current visited, ∀ w ∈ adjList E u,
                w ∈ insert current visited ∨
                  w ∈ ((adjList E current).filter (· ∉ visited)) ++ rest := by
              intro u hu w hw
              rcases Finset.mem_insert.mp hu with h | h
              · subst h
                by_cases hwv : w ∈ visited
                · exact Or.inl (Finset.mem_insert_of_mem hwv)
                · refine Or.inr (List.mem_append.mpr (Or.inl ?_))
                  exact List.mem_filter.mpr ⟨hw, by simpa using hwv⟩
              · rcases hinv u h w hw with h' | h'
                · exact Or.inl (Finset.mem_insert_of_mem h')
                · rcases List.mem_cons.mp h' with h'' | h''
                  · exact Or.inl (h'' ▸ Finset.mem_insert_self _ _)
                  · exact Or.inr (List.mem_append.mpr (Or.inr h''))
            obtain ⟨h1, h2, h3⟩ := ih _ _ r hrun hinv'
            refine ⟨fun x hx => h1 x (Finset.mem_insert_of_mem hx), ?_, h3⟩
            intro s hs
            rcases List.mem_cons.mp hs with h | h
            · exact h ▸ h1 current (Finset.mem_insert_self _ _)
            · exact h2 s (List.mem_append.mpr (Or.inr h))

/-- The visited set stays inside `V`. -/
theorem dfsLoop_subset {V : List ℕ} {E : List PEdge} (hE : EdgesOn V E) :
    ∀ (fuel : ℕ) (stack : List ℕ) (visited : Finset ℕ) (r : Finset ℕ),
      dfsLoop (adjList E) fuel stack visited = some r →
      stack ⊆ V → (∀ x ∈ visited, x ∈ V) → ∀ x ∈ r, x ∈ V := by
  intro fuel
  induction fuel with
  | zero =>
      intro stack visited r hrun _ hvis
      by_cases h : stack = []
      · simp [dfsLoop, h] at hrun
        exact hrun ▸ hvis
      · simp [dfsLoop, h] at hrun
  | succ fuel ih =>
      intro stack visited r hrun hstack hvis
      cases stack with
      | nil =>
          simp only [dfsLoop, Option.some.injEq] at hrun
          exact hrun ▸ hvis
      | cons current rest =>
          by_cases hcv : current ∈ visited
          · rw [dfsLoop, if_pos hcv] at hrun
            exact ih rest visited r hrun
              (fun s hs => hstack (List.mem_cons_of_mem _ hs)) hvis
          · rw [dfsLoop, if_neg hcv] at hrun
            refine ih _ _ r hrun ?_ ?_
            · intro s hs
              rcases List.mem_append.mp hs with h | h
              · exact adjList_mem_right hE (List.mem_of_mem_filter h)
              · exact hstack (List.mem_cons_of_mem _ h)
            · intro x hx
              rcases Finset.mem_insert.mp hx with h | h
              · exact h ▸ hstack (List.mem_cons_self _ _)
              · exact hvis x h

/-- `is_connected(vertices, edges)` from `brute_force.py`: DFS from an
arbitrary start vertex (the head of `V`; Python's `next(iter(vertices))`),
then compare the visited set with the vertex set.  Empty vertex set:
vacuously `True`. -/
def is_connected (V : List ℕ) (E : List WEdge) : Bool :=
  if h : V = [] then true
  else
    match dfsLoop (adjList (E.map projW)) (dfsFuel V (E.map projW))
        [V.head h] ∅ with
    | some visited => decide (visited = V.toFinset)
    | none => false

theorem connectedL_iff_reach_head {V : List ℕ} {E : List PEdge} (h : V ≠ []) :
    ConnectedL V E ↔ ∀ x ∈ V, Reach E (V.head h) x := by
  constructor
  · intro hc x hx
    exact hc _ (V.head_mem h) x hx
  · intro hc x hx y hy
    exact (hc x hx).symm.trans (hc y hy)

theorem is_connected_true_iff {V : List ℕ} {E : List WEdge}
    (hE : EdgesOn V (E.map projW)) :
    is_connected V E = true ↔ ConnectedL V (E.map projW) := by
  by_cases hV : V = []
  · subst hV
    simp only [is_connected, dif_pos rfl, ConnectedL]
    constructor
    · intro _ x hx
      simp at hx
    · intro _; rfl
  · set Ep := E.map projW with hEp
    set v₀ := V.head hV with hv₀
    have hv₀V : v₀ ∈ V := V.head_mem hV
    have hpot : dfsPot V (adjList Ep) [v₀] ∅ ≤ dfsFuel V Ep := by
      simp [dfsPot, dfsFuel]
    have hsome := dfsLoop_total hE (dfsFuel V Ep) [v₀] ∅ hpot
      (by intro s hs; simpa using List.mem_singleton.mp hs ▸ hv₀V)
    obtain ⟨r, hr⟩ := Option.isSome_iff_exists.mp hsome
    have hrun : dfsLoop (adjList Ep) (dfsFuel V Ep) [v₀] ∅ = some r := hr
    have hsound : ∀ x ∈ r, Reach Ep v₀ x :=
      dfsLoop_sound _ _ _ r hrun
        (fun s hs => by
          rw [List.mem_singleton.mp hs]
          exact Relation.ReflTransGen.refl)
        (by intro x hx; simp at hx)
    obtain ⟨-, hstart, hclosed⟩ := dfsLoop_closed _ _ _ r hrun
      (by intro u hu; simp at hu)
    have hv₀r : v₀ ∈ r := hstart v₀ (List.mem_singleton_self v₀)
    have hsub : ∀ x ∈ r, x ∈ V := dfsLoop_subset hE _ _ _ r hrun
      (by intro s hs; simpa using List.mem_singleton.mp hs ▸ hv₀V)
      (by intro x hx; simp at hx)
    have hres : is_connected V E = decide (r = V.toFinset) := by
      rw [is_connected, dif_neg hV]
      rw [← hEp, ← hv₀, hrun]
    rw [hres, decide_eq_true_eq, connectedL_iff_reach_head hV]
    constructor
    · intro heq x hx
      exact hsound x (heq ▸ List.mem_toFinset.mpr hx)
    · intro hreach
      apply Finset.Subset.antisymm
      · intro x hx
        exact List.mem_toFinset.mpr (hsub x hx)
      · intro x hx
        have hx' : Reach Ep v₀ x := hreach x (List.mem_toFinset.mp hx)
        clear hx
        induction hx' with
        | refl => exact hv₀r
        | tail _ hstep ih =>
            exact hclosed _ ih _ (mem_adjList.mpr hstep)

/-! ### `respects_degree_constraints` and `tree_cost` from `brute_force.py` -/

/-- One Python `degrees[v] += 1`. -/
def bump (d : ℕ → ℕ) (v : ℕ) : ℕ → ℕ :=
  fun x => if x = v then d x + 1 else d x

/-- The edge loop of `respects_degree_constraints`: increment both endpoint
degrees, fail fast as soon as a running degree exceeds its bound. -/
def respectsAux (bounds : ℕ → ℕ) : (ℕ → ℕ) → List WEdge → Bool
  | _, [] => true
  | deg, e :: es =>
      let d := bump (bump deg e.1) e.2.1
      if bounds e.1 < d e.1 ∨ bounds e.2.1 < d e.2.1 then false
      else respectsAux bounds d es

/-- `respects_degree_constraints(edges, degree_bounds)` from
`brute_force.py` (`degrees = {v: 0 for v in degree_bounds}`). -/
def respects_degree_constraints (E : List WEdge) (bounds : ℕ → ℕ) : Bool :=
  respectsAux bounds (fun _ => 0) E

theorem bump_bump_apply (d : ℕ → ℕ) (a b v : ℕ) :
    bump (bump d a) b v =
      d v + (if v = a then 1 else 0) + (if v = b then 1 else 0) := by
  simp only [bump]
  split_ifs <;> omega

theorem degCount_cons (e : PEdge) (E : List PEdge) (v : ℕ) :
    degCount (e :: E) v = degCount E v +
      ((if v = e.1 then 1 else 0) + (if v = e.2 then 1 else 0)) := by
  simp only [degCount, List.countP_cons, decide_eq_true_eq]
  split_ifs <;> omega

theorem respectsAux_true_iff (bounds : ℕ → ℕ) :
    ∀ (E : List WEdge) (deg : ℕ → ℕ),
      (∀ v, deg v ≤ bounds v) →
      (respectsAux bounds deg E = true ↔
        ∀ v, deg v + degCount (E.map projW) v ≤ bounds v) := by
  intro E
  induction E with
  | nil =>
      intro deg hinit
      simp only [respectsAux, List.map_nil]
      constructor
      · intro _ v
        have := hinit v
        simp [degCount]
        omega
      · intro _; trivial
  | cons e es ih =>
      intro deg hinit
      set d := bump (bump deg e.1) e.2.1 with hd
      have hdv : ∀ v, d v = deg v +
          ((if v = e.1 then 1 else 0) + (if v = e.2.1 then 1 else 0)) := by
        intro v
        rw [hd, bump_bump_apply]
        omega
      have hdeg' : ∀ v, deg v + degCount ((e :: es).map projW) v =
          d v + degCount (es.map projW) v := by
        intro v
        rw [List.map_cons, degCount_cons, hdv]
        simp [projW]
        omega
      by_cases hfail : bounds e.1 < d e.1 ∨ bounds e.2.1 < d e.2.1
      · have hlhs : respectsAux bounds deg (e :: es) = false := by
          simp only [respectsAux, hd]
          rw [if_pos hfail]
        rw [hlhs]
        constructor
        · intro h; cases h
        · intro h
          exfalso
          rcases hfail with h' | h'
          · have h₁ := h e.1
            rw [hdeg' e.1] at h₁
            omega
          · have h₁ := h e.2.1
            rw [hdeg' e.2.1] at h₁
            omega
      · push_neg at hfail
        have hinit' : ∀ v, d v ≤ bounds v := by
          intro v
          rw [hdv]
          by_cases h1 : v = e.1
          · subst h1
            have := hfail.1
            rw [hdv] at this
            omega
          · by_cases h2 : v = e.2.1
            · subst h2
              have := hfail.2
              rw [hdv] at this
              omega
            · simp only [if_neg h1, if_neg h2]
              have := hinit v
              omega
        have hlhs : respectsAux bounds deg (e :: es) =
            respectsAux bounds d es := by
          simp only [respectsAux, hd]
          rw [if_neg (by push_neg; exact hfail)]
        rw [hlhs, ih d hinit']
        constructor
        · intro h v
          rw [hdeg' v]
          exact h v
        · intro h v
          rw [← hdeg' v]
          exact h v

theorem respects_true_iff (E : List WEdge) (bounds : ℕ → ℕ) :
    respects_degree_constraints E bounds = true ↔
      ∀ v, degCount (E.map projW) v ≤ bounds v := by
  have h := respectsAux_true_iff bounds E (fun _ => 0) (fun v => Nat.zero_le _)
  simpa [respects_degree_constraints] using h

/-- `tree_cost(edges)` from `brute_force.py`: sum of the edge weights. -/
def tree_cost (E : List WEdge) : ℚ :=
  (E.map (fun e => e.2.2)).sum

/-! ### `itertools.combinations` and `brute_force_dc_mst` -/

/-- `itertools.combinations(l, n)` in its lexicographic enumeration order. -/
def combinations {α : Type} : ℕ → List α → List (List α)
  | 0, _ => [[]]
  | _ + 1, [] => []
  | n + 1, x :: xs => ((combinations n xs).map (x :: ·)) ++ combinations (n + 1) xs

theorem mem_combinations {α : Type} :
    ∀ (n : ℕ) (l : List α) (s : List α),
      s ∈ combinations n l ↔ s.Sublist l ∧ s.length = n := by
  intro n
  induction n with
  | zero =>
      intro l s
      simp only [combinations, List.mem_singleton]
      constructor
      · rintro rfl
        exact ⟨List.nil_sublist l, rfl⟩
      · rintro ⟨-, hlen⟩
        exact List.length_eq_zero.mp hlen
  | succ n ih =>
      intro l
      induction l with
      | nil =>
          intro s
          simp only [combinations, List.not_mem_nil, false_iff, not_and]
          intro hs
          rw [List.sublist_nil.mp hs]
          simp
      | cons x xs ihl =>
          intro s
          simp only [combinations, List.mem_append, List.mem_map]
          constructor
          · rintro (⟨t, ht, rfl⟩ | h)

            · obtain ⟨hsub, hlen⟩ := (ih xs t).mp ht
              exact ⟨List.Sublist.cons₂ x hsub, by simp [hlen]⟩
            · obtain ⟨hsub, hlen⟩ := (ihl s).mp h
              exact ⟨hsub.trans (List.sublist_cons_self x xs), hlen⟩
          · rintro ⟨hsub, hlen⟩
            rcases List.sublist_cons_iff.mp hsub with h | ⟨t, rfl, ht⟩
            · exact Or.inr ((ihl s).mpr ⟨h, hlen⟩)
            · refine Or.inl ⟨t, (ih xs t).mpr ⟨ht, ?_⟩, rfl⟩
              simpa using hlen

/-- The accumulator update of the `for candidate in combinations(...)` loop
(the three `continue` filters, then the running-minimum update). -/
def bfStep (V : List ℕ) (bounds : ℕ → ℕ)
    (best : Option (List WEdge × ℚ)) (cand : List WEdge) :
    Option (List WEdge × ℚ) :=
  if has_cycle V cand then best
  else if ¬ is_connected V cand then best
  else if ¬ respects_degree_constraints cand bounds then best
  else
    match best with
    | none => some (cand, tree_cost cand)
    | some (b, bc) =>
        if tree_cost cand < bc then some (cand, tree_cost cand)
        else some (b, bc)

/-- The three filters of the enumeration loop combined. -/
def bfAccept (V : List ℕ) (bounds : ℕ → ℕ) (cand : List WEdge) : Bool :=
  !(has_cycle V cand) && is_connected V cand &&
    respects_degree_constraints cand bounds

theorem bfStep_not_accept {V : List ℕ} {bounds : ℕ → ℕ}
    {best : Option (List WEdge × ℚ)} {cand : List WEdge}
    (h : bfAccept V bounds cand = false) : bfStep V bounds best cand = best := by
  cases hcyc : has_cycle V cand with
  | true => simp [bfStep, hcyc]
  | false =>
      cases hconn : is_connected V cand with
      | false => simp [bfStep, hcyc, hconn]
      | true =>
          cases hresp : respects_degree_constraints cand bounds with
          | false => simp [bfStep, hcyc, hconn, hresp]
          | true =>
              exfalso
              rw [bfAccept, hcyc, hconn, hresp] at h
              simp at h

theorem bfStep_accept {V : List ℕ} {bounds : ℕ → ℕ}
    {best : Option (List WEdge × ℚ)} {cand : List WEdge}
    (h : bfAccept V bounds cand = true) :
    bfStep V bounds best cand =
      match best with
      | none => some (cand, tree_cost cand)
      | some (b, bc) =>
          if tree_cost cand < bc then some (cand, tree_cost cand)
          else some (b, bc) := by
  simp only [bfAccept, Bool.and_eq_true, Bool.not_eq_true'] at h
  obtain ⟨⟨h1, h2⟩, h3⟩ := h
  simp [bfStep, h1, h2, h3]

/-- `brute_force_dc_mst(vertices, edges, degree_bounds)`.  `none` models the
`ValueError` escapes (the explicit infeasibility raise and, for an empty
vertex set, the `combinations(edges, -1)` failure). -/
def brute_force_dc_mst (V : List ℕ) (E : List WEdge) (bounds : ℕ → ℕ) :
    Option (List WEdge) :=
  if V.isEmpty then none
  else
    ((combinations (V.length - 1) E).foldl (bfStep V bounds) none).map
      Prod.fst

theorem bfStep_none_iff {V : List ℕ} {bounds : ℕ → ℕ}
    {best : Option (List WEdge × ℚ)} {cand : List WEdge} :
    bfStep V bounds best cand = none ↔
      (best = none ∧ bfAccept V bounds cand = false) := by
  cases hacc : bfAccept V bounds cand with
  | false => rw [bfStep_not_accept hacc]; simp
  | true =>
      rw [bfStep_accept hacc]
      cases best with
      | none => simp
      | some b =>
          obtain ⟨bt, bc⟩ := b
          by_cases h : tree_cost cand < bc <;> simp [h]

theorem bfFold_none_iff {V : List ℕ} {bounds : ℕ → ℕ} :
    ∀ (cands : List (List WEdge)) (init : Option (List WEdge × ℚ)),
      cands.foldl (bfStep V bounds) init = none ↔
        (init = none ∧ ∀ c ∈ cands, bfAccept V bounds c = false) := by
  intro cands
  induction cands with
  | nil => intro init; simp
  | cons c cs ih =>
      intro init
      rw [List.foldl_cons, ih]
      rw [bfStep_none_iff]
      constructor
      · rintro ⟨⟨h1, h2⟩, h3⟩
        exact ⟨h1, fun d hd => by
          rcases List.mem_cons.mp hd with h | h
          · exact h ▸ h2
          · exact h3 d h⟩
      · rintro ⟨h1, h2⟩
        exact ⟨⟨h1, h2 c (List.mem_cons_self c cs)⟩,
          fun d hd => h2 d (List.mem_cons_of_mem c hd)⟩

theorem bfFold_some_spec {V : List ℕ} {bounds : ℕ → ℕ} :
    ∀ (cands : List (List WEdge)) (init : Option (List WEdge × ℚ))
      (t : List WEdge) (tc : ℚ),
      (∀ b bc, init = some (b, bc) → bc = tree_cost b) →
      cands.foldl (bfStep V bounds) init = some (t, tc) →
      tc = tree_cost t ∧
      (init = some (t, tc) ∨ (t ∈ cands ∧ bfAccept V bounds t = true)) ∧
      (∀ c ∈ cands, bfAccept V bounds c = true → tc ≤ tree_cost c) ∧
      (∀ b bc, init = some (b, bc) → tc ≤ bc) := by
  intro cands
  induction cands with
  | nil =>
      intro init t tc hinit hrun
      simp only [List.foldl_nil] at hrun
      subst hrun
      refine ⟨hinit t tc rfl, Or.inl rfl, by simp, ?_⟩
      rintro b bc hbc
      obtain ⟨rfl, rfl⟩ : b = t ∧ bc = tc := by
        have := hbc
        simp only [Option.some.injEq, Prod.mk.injEq] at this
        exact ⟨this.1.symm, this.2.symm⟩
      exact le_refl _
  | cons c cs ih =>
      intro init t tc hinit hrun
      rw [List.foldl_cons] at hrun
      cases hacc : bfAccept V bounds c with
      | false =>
          rw [bfStep_not_accept hacc] at hrun
          obtain ⟨h1, h2, h3, h4⟩ := ih init t tc hinit hrun
          refine ⟨h1, ?_, ?_, h4⟩
          · rcases h2 with h | ⟨hm, ha⟩
            · exact Or.inl h
            · exact Or.inr ⟨List.mem_cons_of_mem c hm, ha⟩
          · intro d hd hda
            rcases List.mem_cons.mp hd with h | h
            · rw [h] at hda
              rw [hda] at hacc
              cases hacc
            · exact h3 d h hda
      | true =>
          rw [bfStep_accept hacc] at hrun
          cases init with
          | none =>
              -- the accumulator becomes `some (c, tree_cost c)`
              obtain ⟨h1, h2, h3, h4⟩ := ih (some (c, tree_cost c)) t tc
                (by
                  rintro b bc h
                  simp only [Option.some.injEq, Prod.mk.injEq] at h
                  rw [← h.1, ← h.2]) hrun
              refine ⟨h1, ?_, ?_, ?_⟩
              · rcases h2 with h | ⟨hm, ha⟩
                · simp only [Option.some.injEq, Prod.mk.injEq] at h
                  exact Or.inr ⟨h.1 ▸ List.mem_cons_self c cs, h.1 ▸ hacc⟩
                · exact Or.inr ⟨List.mem_cons_of_mem c hm, ha⟩
              · intro d hd hda
                rcases List.mem_cons.mp hd with h | h
                · subst h
                  exact h4 d (tree_cost d) rfl
                · exact h3 d h hda
              · intro b bc hbc
                exact absurd hbc (by simp)
          | some p =>
              obtain ⟨b0, bc0⟩ := p
              have hrun' : List.foldl (bfStep V bounds)
                  (if tree_cost c < bc0 then some (c, tree_cost c)
                    else some (b0, bc0)) cs = some (t, tc) := hrun
              by_cases hlt : tree_cost c < bc0
              · rw [if_pos hlt] at hrun'
                obtain ⟨h1, h2, h3, h4⟩ := ih (some (c, tree_cost c)) t tc
                  (by
                    rintro b bc h
                    simp only [Option.some.injEq, Prod.mk.injEq] at h
                    rw [← h.1, ← h.2]) hrun'
                refine ⟨h1, ?_, ?_, ?_⟩
                · rcases h2 with h | ⟨hm, ha⟩
                  · simp only [Option.some.injEq, Prod.mk.injEq] at h
                    exact Or.inr ⟨h.1 ▸ List.mem_cons_self c cs, h.1 ▸ hacc⟩
                  · exact Or.inr ⟨List.mem_cons_of_mem c hm, ha⟩
                · intro d hd hda
                  rcases List.mem_cons.mp hd with h | h
                  · subst h
                    exact h4 d (tree_cost d) rfl
                  · exact h3 d h hda
                · intro b bc hbc
                  simp only [Option.some.injEq, Prod.mk.injEq] at hbc
                  have := h4 c (tree_cost c) rfl
                  rw [← hbc.2]
                  linarith
              · rw [if_neg hlt] at hrun'
                obtain ⟨h1, h2, h3, h4⟩ := ih (some (b0, bc0)) t tc hinit hrun'
                refine ⟨h1, ?_, ?_, ?_⟩
                · rcases h2 with h | ⟨hm, ha⟩
                  · exact Or.inl h
                  · exact Or.inr ⟨List.mem_cons_of_mem c hm, ha⟩
                · intro d hd hda
                  rcases List.mem_cons.mp hd with h | h
                  · subst h
                    exact le_trans (h4 b0 bc0 rfl) (not_lt.mp hlt)
                  · exact h3 d h hda
                · intro b bc hbc
                  simp only [Option.some.injEq, Prod.mk.injEq] at hbc
                  rw [← hbc.2]
                  exact h4 b0 bc0 rfl

/-- Feasibility in the claim's terms: exactly `|V| - 1` edges, acyclic,
connected (hence a spanning tree), no degree bound exceeded.  Stated with
`+ 1` to avoid truncated subtraction on an empty vertex set. -/
def FeasibleTree (V : List ℕ) (bounds : ℕ → ℕ) (t : List WEdge) : Prop :=
  t.length + 1 = V.length ∧ Acyclic (t.map projW) ∧
    ConnectedL V (t.map projW) ∧ ∀ v, degCount (t.map projW) v ≤ bounds v

theorem edgesOn_subset {V : List ℕ} {E₁ E₂ : List PEdge}
    (hsub : E₁ ⊆ E₂) (hE : EdgesOn V E₂) : EdgesOn V E₁ :=
  fun e he => hE e (hsub he)

theorem tree_cost_perm {t₁ t₂ : List WEdge} (h : t₁.Perm t₂) :
    tree_cost t₁ = tree_cost t₂ := by
  simp only [tree_cost]
  exact (h.map (fun e => e.2.2)).sum_eq

theorem degCount_perm {t₁ t₂ : List PEdge} (h : t₁.Perm t₂) (v : ℕ) :
    degCount t₁ v = degCount t₂ v := by
  simp only [degCount, h.countP_eq]

theorem connectedL_perm {V : List ℕ} {t₁ t₂ : List PEdge} (h : t₁.Perm t₂) :
    ConnectedL V t₁ ↔ ConnectedL V t₂ :=
  ⟨fun hc x hx y hy => reach_mono (fun _ ha => h.subset ha) (hc x hx y hy),
   fun hc x hx y hy => reach_mono (fun _ ha => h.symm.subset ha) (hc x hx y hy)⟩

theorem feasibleTree_perm {V : List ℕ} {bounds : ℕ → ℕ} {t₁ t₂ : List WEdge}
    (h : t₁.Perm t₂) (hf : FeasibleTree V bounds t₂) :
    FeasibleTree V bounds t₁ := by
  obtain ⟨hlen, hac, hconn, hdeg⟩ := hf
  have hmap : (t₁.map projW).Perm (t₂.map projW) := h.map projW
  refine ⟨by rw [h.length_eq]; exact hlen, acyclic_perm hmap hac,
    (connectedL_perm hmap).mpr hconn, ?_⟩
  intro v
  rw [degCount_perm hmap v]
  exact hdeg v

/-- Under well-formed inputs, the three filters of the enumeration loop hold
exactly on the claim's feasible candidates. -/
theorem bfAccept_iff {V : List ℕ} {bounds : ℕ → ℕ} {cand : List WEdge}
    (hE : EdgesOn V (cand.map projW)) :
    bfAccept V bounds cand = true ↔
      (Acyclic (cand.map projW) ∧ ConnectedL V (cand.map projW) ∧
        ∀ v, degCount (cand.map projW) v ≤ bounds v) := by
  rw [bfAccept, Bool.and_eq_true, Bool.and_eq_true, Bool.not_eq_true']
  rw [has_cycle_false_iff_acyclic V cand hE, is_connected_true_iff hE,
    respects_true_iff]
  tauto

/-- Specification of `brute_force_dc_mst`: a returned tree is a feasible
degree-constrained spanning tree drawn from the edge list and of minimal
cost among all of them, and the error escape happens exactly when no
selection of `|V| - 1` edges from the list is feasible. -/
theorem brute_force_dc_mst_spec (V : List ℕ) (E : List WEdge)
    (bounds : ℕ → ℕ) (hV : V.Nodup) (hE : EdgesOn V (E.map projW)) :
    (∀ t, brute_force_dc_mst V E bounds = some t →
        t.Sublist E ∧ FeasibleTree V bounds t ∧
          ∀ t', List.Subperm t' E → FeasibleTree V bounds t' →
            tree_cost t ≤ tree_cost t') ∧
    (brute_force_dc_mst V E bounds = none ↔
      ¬ ∃ t', List.Subperm t' E ∧ FeasibleTree V bounds t') := by
  have hEsub : ∀ (c : List WEdge), c.Sublist E → EdgesOn V (c.map projW) :=
    fun c hc => edgesOn_subset (fun e he => (hc.map projW).subset he) hE
  -- translation between accepted combinations and feasible sub-multisets
  have hfeas_of : ∀ c ∈ combinations (V.length - 1) E, V ≠ [] →
      bfAccept V bounds c = true → FeasibleTree V bounds c := by
    intro c hc hVne hacc
    obtain ⟨hsub, hlen⟩ := (mem_combinations _ _ _).mp hc
    obtain ⟨hac, hconn, hdeg⟩ := (bfAccept_iff (hEsub c hsub)).mp hacc
    refine ⟨?_, hac, hconn, hdeg⟩
    have : 1 ≤ V.length := by
      cases V with
      | nil => exact absurd rfl hVne
      | cons _ _ => simp
    omega
  have hof_feas : ∀ t', List.Subperm t' E → FeasibleTree V bounds t' →
      ∃ s ∈ combinations (V.length - 1) E, bfAccept V bounds s = true ∧
        tree_cost s = tree_cost t' := by
    intro t' hsub hfeas
    obtain ⟨s, hperm, hsl⟩ := hsub
    have hfeas_s : FeasibleTree V bounds s := feasibleTree_perm hperm hfeas
    obtain ⟨hlen, hac, hconn, hdeg⟩ := hfeas_s
    refine ⟨s, (mem_combinations _ _ _).mpr ⟨hsl, by omega⟩, ?_, ?_⟩
    · exact (bfAccept_iff (hEsub s hsl)).mpr ⟨hac, hconn, hdeg⟩
    · exact tree_cost_perm hperm
  by_cases hVne : V = []
  · subst hVne
    constructor
    · intro t ht
      simp [brute_force_dc_mst] at ht
    · constructor
      · rintro - ⟨t', -, hfeas⟩
        have := hfeas.1
        simp at this
      · intro _
        simp [brute_force_dc_mst]
  · have hVne' : V.isEmpty = false := by
      cases V with
      | nil => exact absurd rfl hVne
      | cons _ _ => rfl
    constructor
    · intro t ht
      rw [brute_force_dc_mst, if_neg (by rw [hVne']; exact Bool.false_ne_true)]
        at ht
      obtain ⟨⟨t₀, tc₀⟩, hfold, hmap⟩ := Option.map_eq_some'.mp ht
      have ht₀ : t₀ = t := hmap
      subst ht₀
      obtain ⟨hcost, horigin, hmin, -⟩ :=
        bfFold_some_spec (combinations (V.length - 1) E) none t₀ tc₀
          (by rintro b bc ⟨⟩) hfold
      rcases horigin with h | ⟨hm, hacc⟩
      · cases h
      obtain ⟨hsl, -⟩ := (mem_combinations _ _ _).mp hm
      refine ⟨hsl, hfeas_of t₀ hm hVne hacc, ?_⟩
      intro t' hsub' hfeas'
      obtain ⟨s, hs, hsacc, hscost⟩ := hof_feas t' hsub' hfeas'
      have := hmin s hs hsacc
      rw [hscost] at this
      rw [← hcost]
      exact this
    · rw [brute_force_dc_mst, if_neg (by rw [hVne']; exact Bool.false_ne_true)]
      rw [Option.map_eq_none']
      rw [bfFold_none_iff]
      constructor
      · rintro ⟨-, hall⟩ ⟨t', hsub', hfeas'⟩
        obtain ⟨s, hs, hsacc, -⟩ := hof_feas t' hsub' hfeas'
        rw [hall s hs] at hsacc
        cases hsacc
      · intro hnone
        refine ⟨rfl, ?_⟩
        intro c hc
        cases hacc : bfAccept V bounds c with
        | false => rfl
        | true =>
            exfalso
            apply hnone
            obtain ⟨hsl, -⟩ := (mem_combinations _ _ _).mp hc
            exact ⟨c, hsl.subperm, hfeas_of c hc hVne hacc⟩

/-! ### `src/utils/graph.py` (pair edges, weights in a separate lookup)

Python `graph` dicts `{"vertices", "edges", "weights"}` become `PyGraph`.
Python sets of edges are deduplicated lists; set-iteration order is fixed to
list order (no observed result below depends on it). -/

/-- The graph dictionary used by greedy / simulated annealing / tabu search. -/
structure PyGraph where
  vertices : List ℕ
  edges : List PEdge
  weights : PEdge → ℚ

/-- `total_cost(graph, tree_edges)`: sum of `graph["weights"][(u, v)]`. -/
def total_cost (g : PyGraph) (tree_edges : List PEdge) : ℚ :=
  (tree_edges.map g.weights).sum

namespace GraphPy

/-- The edge loop of graph.py's `respects_degree_constraints` (pair edges,
`defaultdict(int)` degrees, early exit on the first violated bound). -/
def respectsAuxP (bounds : ℕ → ℕ) : (ℕ → ℕ) → List PEdge → Bool
  | _, [] => true
  | deg, e :: es =>
      let d := bump (bump deg e.1) e.2
      if bounds e.1 < d e.1 ∨ bounds e.2 < d e.2 then false
      else respectsAuxP bounds d es

/-- `respects_degree_constraints(tree_edges, degree_bounds)` from
`src/utils/graph.py`. -/
def respects_degree_constraints (tree_edges : List PEdge)
    (bounds : ℕ → ℕ) : Bool :=
  respectsAuxP bounds (fun _ => 0) tree_edges

theorem respectsAuxP_true_iff (bounds : ℕ → ℕ) :
    ∀ (E : List PEdge) (deg : ℕ → ℕ),
      (∀ v, deg v ≤ bounds v) →
      (respectsAuxP bounds deg E = true ↔
        ∀ v, deg v + degCount E v ≤ bounds v) := by
  intro E
  induction E with
  | nil =>
      intro deg hinit
      simp only [respectsAuxP]
      constructor
      · intro _ v
        have := hinit v
        simp [degCount]
        omega
      · intro _; trivial
  | cons e es ih =>
      intro deg hinit
      set d := bump (bump deg e.1) e.2 with hd
      have hdv : ∀ v, d v = deg v +
          ((if v = e.1 then 1 else 0) + (if v = e.2 then 1 else 0)) := by
        intro v
        rw [hd, bump_bump_apply]
        omega
      have hdeg' : ∀ v, deg v + degCount (e :: es) v =
          d v + degCount es v := by
        intro v
        rw [degCount_cons, hdv]
        omega
      by_cases hfail : bounds e.1 < d e.1 ∨ bounds e.2 < d e.2
      · have hlhs : respectsAuxP bounds deg (e :: es) = false := by
          simp only [respectsAuxP, hd]
          rw [if_pos hfail]
        rw [hlhs]
        constructor
        · intro h; cases h
        · intro h
          exfalso
          rcases hfail with h' | h'
          · have h₁ := h e.1
            rw [hdeg' e.1] at h₁
            omega
          · have h₁ := h e.2
            rw [hdeg' e.2] at h₁
            omega
      · push_neg at hfail
        have hinit' : ∀ v, d v ≤ bounds v := by
          intro v
          rw [hdv]
          by_cases h1 : v = e.1
          · subst h1
            have := hfail.1
            rw [hdv] at this
            omega
          · by_cases h2 : v = e.2
            · subst h2
              have := hfail.2
              rw [hdv] at this
              omega
            · simp only [if_neg h1, if_neg h2]
              have := hinit v
              omega
        have hlhs : respectsAuxP bounds deg (e :: es) =
            respectsAuxP bounds d es := by
          simp only [respectsAuxP, hd]
          rw [if_neg (by push_neg; exact hfail)]
        rw [hlhs, ih d hinit']
        constructor
        · intro h v
          rw [hdeg' v]
          exact h v
        · intro h v
          rw [← hdeg' v]
          exact h v

theorem respectsP_true_iff (E : List PEdge) (bounds : ℕ → ℕ) :
    respects_degree_constraints E bounds = true ↔
      ∀ v, degCount E v ≤ bounds v := by
  have h := respectsAuxP_true_iff bounds E (fun _ => 0) (fun v => Nat.zero_le _)
  simpa [respects_degree_constraints] using h

/-- Neighbour list with multiplicities: graph.py's `connected_components`
builds `adj = defaultdict(list)` by appending per edge occurrence. -/
def adjLD (E : List PEdge) (x : ℕ) : List ℕ :=
  ((E.filter (fun e => e.1 = x)).map (fun e => e.2)) ++
    ((E.filter (fun e => e.2 = x)).map (fun e => e.1))

theorem mem_adjLD {E : List PEdge} {x y : ℕ} :
    y ∈ adjLD E x ↔ adjP E x y := by
  simp only [adjLD, List.mem_append, List.mem_map, List.mem_filter, adjP]
  constructor
  · rintro (⟨e, ⟨he, h1⟩, h2⟩ | ⟨e, ⟨he, h1⟩, h2⟩)
    · left
      have h1' : e.1 = x := by simpa using h1
      have : e = (x, y) := by cases e; simp_all
      exact this ▸ he
    · right
      have h1' : e.2 = x := by simpa using h1
      have : e = (y, x) := by cases e; simp_all
      exact this ▸ he
  · rintro (h | h)
    · exact Or.inl ⟨(x, y), ⟨h, by simp⟩, rfl⟩
    · exact Or.inr ⟨(y, x), ⟨h, by simp⟩, rfl⟩

/-- The inner `for y in adj[x]` of `connected_components`: mark fresh
neighbours visited and push them (LIFO: most recent at the head). -/
def pushNbrs : Finset ℕ → List ℕ → List ℕ → Finset ℕ × List ℕ
  | visited, stack, [] => (visited, stack)
  | visited, stack, y :: ys =>
      if y ∈ visited then pushNbrs visited stack ys
      else pushNbrs (insert y visited) (y :: stack) ys

/-- The inner `while stack` of `connected_components` (marking happens at
push time, so popped nodes are processed unconditionally). -/
def compLoop (adj : ℕ → List ℕ) :
    ℕ → List ℕ → Finset ℕ → Finset ℕ → Option (Finset ℕ × Finset ℕ)
  | 0, stack, visited, comp =>
      if stack = [] then some (visited, comp) else none
  | _ + 1, [], visited, comp => some (visited, comp)
  | fuel + 1, x :: rest, visited, comp =>
      let vs := pushNbrs visited rest (adj x)
      compLoop adj fuel vs.2 vs.1 (insert x comp)

/-- Fuel for one component sweep (bounds the strictly decreasing potential
`|stack| + |U \ visited|`). -/
def ccFuel (V : List ℕ) (E : List PEdge) : ℕ :=
  1 + V.length + 2 * E.length

/-- The outer `for v in vertices` loop of `connected_components`. -/
def ccOuter (adj : ℕ → List ℕ) (fuel : ℕ) :
    List ℕ → Finset ℕ → List (Finset ℕ) → Option (List (Finset ℕ))
  | [], _, comps => some comps
  | v :: vs, visited, comps =>
      if v ∈ visited then ccOuter adj fuel vs visited comps
      else
        match compLoop adj fuel [v] (insert v visited) ∅ with
        | none => none
        | some (visited', comp) => ccOuter adj fuel vs visited' (comps ++ [comp])

/-- `connected_components(vertices, edges)` from `src/utils/graph.py`. -/
def connected_components (V : List ℕ) (E : List PEdge) :
    Option (List (Finset ℕ)) :=
  ccOuter (adjLD E) (ccFuel V E) V ∅ []

theorem pushNbrs_visited_mem :
    ∀ (ys : List ℕ) (visited : Finset ℕ) (stack : List ℕ) (w : ℕ),
      w ∈ (pushNbrs visited stack ys).1 ↔ w ∈ visited ∨ w ∈ ys := by
  intro ys
  induction ys with
  | nil => intro visited stack w; simp [pushNbrs]
  | cons y ys ih =>
      intro visited stack w
      by_cases hy : y ∈ visited
      · rw [pushNbrs, if_pos hy, ih]
        constructor
        · rintro (h | h)
          · exact Or.inl h
          · exact Or.inr (List.mem_cons_of_mem y h)
        · rintro (h | h)
          · exact Or.inl h
          · rcases List.mem_cons.mp h with h | h
            · exact Or.inl (h ▸ hy)
            · exact Or.inr h
      · rw [pushNbrs, if_neg hy, ih]
        simp only [Finset.mem_insert, List.mem_cons]
        tauto

theorem pushNbrs_stack_mem :
    ∀ (ys : List ℕ) (visited : Finset ℕ) (stack : List ℕ) (s : ℕ),
      s ∈ (pushNbrs visited stack ys).2 ↔
        s ∈ stack ∨ (s ∈ ys ∧ s ∉ visited) := by
  intro ys
  induction ys with
  | nil => intro visited stack s; simp [pushNbrs]
  | cons y ys ih =>
      intro visited stack s
      by_cases hy : y ∈ visited
      · rw [pushNbrs, if_pos hy, ih]
        simp only [List.mem_cons]
        constructor
        · rintro (h | ⟨h1, h2⟩)
          · exact Or.inl h
          · exact Or.inr ⟨Or.inr h1, h2⟩
        · rintro (h | ⟨h1 | h1, h2⟩)
          · exact Or.inl h
          · exact absurd (h1 ▸ hy) h2
          · exact Or.inr ⟨h1, h2⟩
      · rw [pushNbrs, if_neg hy, ih]
        simp only [List.mem_cons, Finset.mem_insert]
        by_cases hs : s = y
        · subst hs
          simp [hy]
        · constructor
          · rintro (h | ⟨h1, h2⟩)
            · rcases h with h | h
              · exact absurd h hs
              · exact Or.inl h
            · push_neg at h2
              exact Or.inr ⟨Or.inr h1, h2.2⟩
          · rintro (h | ⟨h1 | h1, h2⟩)
            · exact Or.inl (Or.inr h)
            · exact absurd h1 hs
            · exact Or.inr ⟨h1, by push_neg; exact ⟨hs, h2⟩⟩

theorem pushNbrs_pot {U : Finset ℕ} :
    ∀ (ys : List ℕ) (visited : Finset ℕ) (stack : List ℕ),
      (∀ y ∈ ys, y ∈ U) →
      (pushNbrs visited stack ys).2.length +
          (U \ (pushNbrs visited stack ys).1).card =
        stack.length + (U \ visited).card := by
  intro ys
  induction ys with
  | nil => intro visited stack _; simp [pushNbrs]
  | cons y ys ih =>
      intro visited stack hy
      have hyU : y ∈ U := hy y (List.mem_cons_self y ys)
      have hys : ∀ z ∈ ys, z ∈ U := fun z hz => hy z (List.mem_cons_of_mem y hz)
      by_cases hyv : y ∈ visited
      · rw [pushNbrs, if_pos hyv]
        exact ih visited stack hys
      · rw [pushNbrs, if_neg hyv]
        rw [ih (insert y visited) (y :: stack) hys]
        have hmem : y ∈ U \ visited := Finset.mem_sdiff.mpr ⟨hyU, hyv⟩
        have hsd : U \ insert y visited = (U \ visited).erase y := by
          ext a
          simp only [Finset.mem_sdiff, Finset.mem_insert, Finset.mem_erase]
          tauto
        rw [hsd, List.length_cons]
        have := Finset.card_erase_add_one hmem
        omega

theorem compLoop_total {adj : ℕ → List ℕ} {U : Finset ℕ}
    (hadjU : ∀ x, ∀ y ∈ adj x, y ∈ U) :
    ∀ (fuel : ℕ) (stack : List ℕ) (visited comp : Finset ℕ),
      stack.length + (U \ visited).card ≤ fuel →
      (compLoop adj fuel stack visited comp).isSome := by
  intro fuel
  induction fuel with
  | zero =>
      intro stack visited comp hpot
      have hlen : stack.length = 0 := by omega
      rw [List.length_eq_zero] at hlen
      subst hlen
      simp [compLoop]
  | succ fuel ih =>
      intro stack visited comp hpot
      cases stack with
      | nil => simp [compLoop]
      | cons x rest =>
          rw [compLoop]
          refine ih _ _ _ ?_
          have := pushNbrs_pot (adj x) visited rest (hadjU x)
          simp only [List.length_cons] at hpot
          omega

theorem compLoop_spec {adj : ℕ → List ℕ} {V₀ : Finset ℕ} :
    ∀ (fuel : ℕ) (stack : List ℕ) (visited comp : Finset ℕ)
      (v' c' : Finset ℕ),
      compLoop adj fuel stack visited comp = some (v', c') →
      (∀ s ∈ stack, s ∈ visited) →
      (∀ x ∈ comp, x ∈ visited) →
      (∀ x ∈ comp, ∀ w ∈ adj x, w ∈ visited) →
      (∀ w, w ∈ visited ↔ (w ∈ V₀ ∨ w ∈ comp ∨ w ∈ stack)) →
      (∀ s ∈ stack, s ∉ V₀) →
      (∀ x ∈ comp, x ∉ V₀) →
      (∀ x ∈ comp, x ∈ c') ∧ (∀ s ∈ stack, s ∈ c') ∧
        (∀ x ∈ c', ∀ w ∈ adj x, w ∈ v') ∧
        (∀ w, w ∈ v' ↔ (w ∈ V₀ ∨ w ∈ c')) ∧
        (∀ x ∈ c', x ∉ V₀) := by
  intro fuel
  induction fuel with
  | zero =>
      intro stack visited comp v' c' hrun hsv hcv hclosed hsplit hsV₀ hcV₀
      by_cases h : stack = []
      · subst h
        have hvc : visited = v' ∧ comp = c' := by
          simpa [compLoop] using hrun
        obtain ⟨rfl, rfl⟩ := hvc
        refine ⟨fun x hx => hx, by simp, hclosed, ?_, hcV₀⟩
        intro w
        rw [hsplit w]
        simp
      · simp [compLoop, h] at hrun
  | succ fuel ih =>
      intro stack visited comp v' c' hrun hsv hcv hclosed hsplit hsV₀ hcV₀
      cases stack with
      | nil =>
          have hvc : visited = v' ∧ comp = c' := by
            have := hrun
            simp only [compLoop, Option.some.injEq, Prod.mk.injEq] at this
            exact this
          obtain ⟨rfl, rfl⟩ := hvc
          refine ⟨fun x hx => hx, by simp, hclosed, ?_, hcV₀⟩
          intro w
          rw [hsplit w]
          simp
      | cons x rest =>
          rw [compLoop] at hrun
          set visited₁ := (pushNbrs visited rest (adj x)).1 with hv₁
          set stack₁ := (pushNbrs visited rest (adj x)).2 with hs₁
          have hvmem : ∀ w, w ∈ visited₁ ↔ w ∈ visited ∨ w ∈ adj x :=
            fun w => pushNbrs_visited_mem (adj x) visited rest w
          have hsmem : ∀ s, s ∈ stack₁ ↔ s ∈ rest ∨ (s ∈ adj x ∧ s ∉ visited) :=
            fun s => pushNbrs_stack_mem (adj x) visited rest s
          have hxv : x ∈ visited := hsv x (List.mem_cons_self x rest)
          have hV₀vis : ∀ w, w ∈ V₀ → w ∈ visited :=
            fun w hw => (hsplit w).mpr (Or.inl hw)
          obtain ⟨ih1, ih2, ih3, ih4, ih5⟩ :=
            ih stack₁ visited₁ (insert x comp) v' c' hrun
              (by
                intro s hs
                rcases (hsmem s).mp hs with h | ⟨h1, -⟩
                · exact (hvmem s).mpr
                    (Or.inl (hsv s (List.mem_cons_of_mem x h)))
                · exact (hvmem s).mpr (Or.inr h1))
              (by
                intro y hy
                rcases Finset.mem_insert.mp hy with h | h
                · exact (hvmem y).mpr (Or.inl (h ▸ hxv))
                · exact (hvmem y).mpr (Or.inl (hcv y h)))
              (by
                intro y hy w hw
                rcases Finset.mem_insert.mp hy with h | h
                · exact (hvmem w).mpr (Or.inr (h ▸ hw))
                · exact (hvmem w).mpr (Or.inl (hclosed y h w hw)))
              (by
                intro w
                rw [hvmem w]
                constructor
                · rintro (h | h)
                  · rcases (hsplit w).mp h with h' | h' | h'
                    · exact Or.inl h'
                    · exact Or.inr (Or.inl (Finset.mem_insert_of_mem h'))
                    · rcases List.mem_cons.mp h' with h'' | h''
                      · exact Or.inr (Or.inl (h'' ▸ Finset.mem_insert_self x comp))
                      · exact Or.inr (Or.inr ((hsmem w).mpr (Or.inl h'')))
                  · by_cases hwv : w ∈ visited
                    · exact Or.inl ((hvmem w).mp ((hvmem w).mpr (Or.inl hwv))) |>.elim
                        (fun h' => by
                          rcases (hsplit w).mp hwv with h₁ | h₁ | h₁
                          · exact Or.inl h₁
                          · exact Or.inr (Or.inl (Finset.mem_insert_of_mem h₁))
                          · rcases List.mem_cons.mp h₁ with h₂ | h₂
                            · exact Or.inr (Or.inl
                                (h₂ ▸ Finset.mem_insert_self x comp))
                            · exact Or.inr (Or.inr ((hsmem w).mpr (Or.inl h₂))))
                        (fun h' => h')
                    · exact Or.inr (Or.inr ((hsmem w).mpr (Or.inr ⟨h, hwv⟩)))
                · rintro (h | h | h)
                  · exact Or.inl (hV₀vis w h)
                  · rcases Finset.mem_insert.mp h with h' | h'
                    · exact Or.inl (h' ▸ hxv)
                    · exact Or.inl (hcv w h')
                  · rcases (hsmem w).mp h with h' | ⟨h', -⟩
                    · exact Or.inl (hsv w (List.mem_cons_of_mem x h'))
                    · exact Or.inr h')
              (by
                intro s hs
                rcases (hsmem s).mp hs with h | ⟨-, h2⟩
                · exact hsV₀ s (List.mem_cons_of_mem x h)
                · exact fun hc => h2 (hV₀vis s hc))
              (by
                intro y hy
                rcases Finset.mem_insert.mp hy with h | h
                · exact h ▸ hsV₀ x (List.mem_cons_self x rest)
                · exact hcV₀ y h)
          refine ⟨fun y hy => ih1 y (Finset.mem_insert_of_mem hy), ?_,
            ih3, ih4, ih5⟩
          intro s hs
          rcases List.mem_cons.mp hs with h | h
          · exact ih1 s (h ▸ Finset.mem_insert_self x comp)
          · exact ih2 s ((hsmem s).mpr (Or.inl h))

theorem compLoop_sound {E : List PEdge} {start : ℕ} :
    ∀ (fuel : ℕ) (stack : List ℕ) (visited comp : Finset ℕ)
      (v' c' : Finset ℕ),
      compLoop (adjLD E) fuel stack visited comp = some (v', c') →
      (∀ s ∈ stack, Reach E start s) →
      (∀ x ∈ comp, Reach E start x) →
      ∀ x ∈ c', Reach E start x := by
  intro fuel
  induction fuel with
  | zero =>
      intro stack visited comp v' c' hrun hss hcs
      by_cases h : stack = []
      · subst h
        have hvc : comp = c' := by
          have h' : visited = v' ∧ comp = c' := by
            simpa [compLoop] using hrun
          exact h'.2
        exact hvc ▸ hcs
      · simp [compLoop, h] at hrun
  | succ fuel ih =>
      intro stack visited comp v' c' hrun hss hcs
      cases stack with
      | nil =>
          have hvc : comp = c' := by
            have := hrun
            simp only [compLoop, Option.some.injEq, Prod.mk.injEq] at this
            exact this.2
          exact hvc ▸ hcs
      | cons x rest =>
          rw [compLoop] at hrun
          have hx : Reach E start x := hss x (List.mem_cons_self x rest)
          refine ih _ _ _ v' c' hrun ?_ ?_
          · intro s hs
            rcases (pushNbrs_stack_mem (adjLD E x) visited rest s).mp hs with
              h | ⟨h1, -⟩
            · exact hss s (List.mem_cons_of_mem x h)
            · exact hx.trans (reach_of_adj (mem_adjLD.mp h1))
          · intro y hy
            rcases Finset.mem_insert.mp hy with h | h
            · exact h ▸ hx
            · exact hcs y h

end GraphPy

section AcyclicCount
open Classical

/-- `v` is the least element of its reachability class inside `V`. -/
def IsRep (V : List ℕ) (E : List PEdge) (v : ℕ) : Prop :=
  ∀ w ∈ V.toFinset, Reach E v w → v ≤ w

theorem card_le_reps_add_length (V : List ℕ) :
    ∀ (E : List PEdge),
      V.toFinset.card ≤ (V.toFinset.filter (IsRep V E)).card + E.length := by
  intro E
  induction E with
  | nil =>
      have hfil : V.toFinset.filter (IsRep V []) = V.toFinset := by
        apply Finset.filter_true_of_mem
        intro v _ w _ hr
        rw [(reach_nil_iff v w).mp hr]
      rw [hfil]
      simp
  | cons e E ih =>
      -- at most one representative can stop being one when `e` is added
      have hsub : V.toFinset.filter (IsRep V E) ⊆
          V.toFinset.filter (IsRep V (e :: E)) ∪
            (V.toFinset.filter (IsRep V E) \
              V.toFinset.filter (IsRep V (e :: E))) := by
        intro v hv
        by_cases h : v ∈ V.toFinset.filter (IsRep V (e :: E))
        · exact Finset.mem_union_left _ h
        · exact Finset.mem_union_right _ (Finset.mem_sdiff.mpr ⟨hv, h⟩)
      have hDcard : (V.toFinset.filter (IsRep V E) \
          V.toFinset.filter (IsRep V (e :: E))).card ≤ 1 := by
        rw [Finset.card_le_one]
        intro v₁ hv₁ v₂ hv₂
        obtain ⟨hv₁f, hv₁n⟩ := Finset.mem_sdiff.mp hv₁
        obtain ⟨hv₂f, hv₂n⟩ := Finset.mem_sdiff.mp hv₂
        obtain ⟨hv₁V, hv₁rep⟩ := Finset.mem_filter.mp hv₁f
        obtain ⟨hv₂V, hv₂rep⟩ := Finset.mem_filter.mp hv₂f
        have hwit : ∀ v ∈ V.toFinset, IsRep V E v →
            v ∉ V.toFinset.filter (IsRep V (e :: E)) →
            (Reach E v e.1 ∧ ∃ w ∈ V.toFinset, Reach E e.2 w ∧ w < v) ∨
            (Reach E v e.2 ∧ ∃ w ∈ V.toFinset, Reach E e.1 w ∧ w < v) := by
          intro v hvV hvrep hvn
          rw [Finset.mem_filter, not_and] at hvn
          have hnot := hvn hvV
          rw [IsRep] at hnot
          push_neg at hnot
          obtain ⟨w, hwV, hwr, hwlt⟩ := hnot
          rcases (reach_cons_iff e E v w).mp hwr with h | ⟨h1, h2⟩ | ⟨h1, h2⟩
          · exact absurd (hvrep w hwV h) (by omega)
          · exact Or.inl ⟨h1, w, hwV, h2, by omega⟩
          · exact Or.inr ⟨h1, w, hwV, h2, by omega⟩
        have h₁ := hwit v₁ hv₁V hv₁rep hv₁n
        have h₂ := hwit v₂ hv₂V hv₂rep hv₂n
        -- same side of `e`: the two representatives are connected in `E`
        have hsame : ∀ {a : ℕ}, Reach E v₁ a → Reach E v₂ a → v₁ = v₂ := by
          intro a h1 h2
          have h12 : Reach E v₁ v₂ := h1.trans h2.symm
          have := hv₁rep v₂ hv₂V h12
          have := hv₂rep v₁ hv₁V h12.symm
          omega
        rcases h₁ with ⟨h1a, w₁, hw₁V, hw₁r, hw₁lt⟩ | ⟨h1a, w₁, hw₁V, hw₁r, hw₁lt⟩ <;>
          rcases h₂ with ⟨h2a, w₂, hw₂V, hw₂r, hw₂lt⟩ | ⟨h2a, w₂, hw₂V, hw₂r, hw₂lt⟩
        · exact hsame h1a h2a
        · -- v₁ on the e.1 side, v₂ on the e.2 side: mutual strict bounds
          exfalso
          have hv₂w₁ : Reach E v₂ w₁ := h2a.trans hw₁r
          have hv₁w₂ : Reach E v₁ w₂ := h1a.trans hw₂r
          have := hv₂rep w₁ hw₁V hv₂w₁
          have := hv₁rep w₂ hw₂V hv₁w₂
          omega
        · exfalso
          have hv₂w₁ : Reach E v₂ w₁ := h2a.trans hw₁r
          have hv₁w₂ : Reach E v₁ w₂ := h1a.trans hw₂r
          have := hv₂rep w₁ hw₁V hv₂w₁
          have := hv₁rep w₂ hw₂V hv₁w₂
          omega
        · exact hsame h1a h2a
      have hcard₁ : (V.toFinset.filter (IsRep V E)).card ≤
          (V.toFinset.filter (IsRep V (e :: E))).card + 1 := by
        calc (V.toFinset.filter (IsRep V E)).card
            ≤ (V.toFinset.filter (IsRep V (e :: E)) ∪
                (V.toFinset.filter (IsRep V E) \
                  V.toFinset.filter (IsRep V (e :: E)))).card :=
              Finset.card_le_card hsub
          _ ≤ (V.toFinset.filter (IsRep V (e :: E))).card +
              (V.toFinset.filter (IsRep V E) \
                V.toFinset.filter (IsRep V (e :: E))).card :=
              Finset.card_union_le _ _
          _ ≤ (V.toFinset.filter (IsRep V (e :: E))).card + 1 := by omega
      simp only [List.length_cons]
      omega

theorem reps_card_le_one {V : List ℕ} {E : List PEdge}
    (hconn : ConnectedL V E) :
    (V.toFinset.filter (IsRep V E)).card ≤ 1 := by
  rw [Finset.card_le_one]
  intro v₁ hv₁ v₂ hv₂
  obtain ⟨hv₁V, hv₁rep⟩ := Finset.mem_filter.mp hv₁
  obtain ⟨hv₂V, hv₂rep⟩ := Finset.mem_filter.mp hv₂
  have h12 : Reach E v₁ v₂ :=
    hconn v₁ (List.mem_toFinset.mp hv₁V) v₂ (List.mem_toFinset.mp hv₂V)
  have := hv₁rep v₂ hv₂V h12
  have := hv₂rep v₁ hv₁V h12.symm
  omega

/-- A connected graph on `V` needs at least `|V| - 1` edges. -/
theorem connected_length_lower_bound {V : List ℕ} {E : List PEdge}
    (hconn : ConnectedL V E) : V.toFinset.card ≤ E.length + 1 := by
  have h₁ := card_le_reps_add_length V E
  have h₂ := reps_card_le_one hconn
  omega

end AcyclicCount

theorem length_eraseP_of_mem {E : List PEdge} {e : PEdge} (h : e ∈ E) :
    (eraseP E e).length + 1 = E.length := by
  induction E with
  | nil => simp at h
  | cons x xs ih =>
      by_cases hx : x = e
      · simp [eraseP, hx]
      · rcases List.mem_cons.mp h with h' | h'
        · exact absurd h'.symm hx
        · simp only [eraseP, if_neg hx, List.length_cons]
          rw [← ih h']

/-- A connected edge set on `V` with exactly `|V| - 1` edges is a forest. -/
theorem acyclic_of_connected_count {V : List ℕ} {E : List PEdge}
    (hconn : ConnectedL V E) (hcount : E.length + 1 = V.toFinset.card) :
    Acyclic E := by
  intro e he hr
  have hconn' : ConnectedL V (eraseP E e) := by
    intro x hx y hy
    exact reach_detour hr (hconn x hx y hy)
  have hlb := connected_length_lower_bound hconn'
  have hlen := length_eraseP_of_mem he
  omega
theorem reach_mem_V {V : List ℕ} {E : List PEdge} (hE : EdgesOn V E)
    {s w : ℕ} (h : Reach E s w) (hs : s ∈ V) : w ∈ V := by
  induction h with
  | refl => exact hs
  | tail _ hstep ih =>
      rcases hstep with h' | h'
      · exact (hE _ h').2
      · exact (hE _ h').1

namespace GraphPy

theorem ccOuter_spec {E : List PEdge} {U : Finset ℕ} {Vfull : List ℕ}
    (hadjU : ∀ x, ∀ y ∈ adjLD E x, y ∈ U) {fuel : ℕ}
    (hfuel : 1 + U.card ≤ fuel) :
    ∀ (vs : List ℕ) (visited : Finset ℕ) (comps : List (Finset ℕ)),
      (∀ v ∈ vs, v ∈ Vfull) →
      (∀ w, w ∈ visited ↔ ∃ C ∈ comps, w ∈ C) →
      (∀ C ∈ comps, ∃ s ∈ Vfull, ∀ w, w ∈ C ↔ Reach E s w) →
      List.Pairwise (fun X Y => ∀ w ∈ X, w ∉ Y) comps →
      ∃ comps', ccOuter (adjLD E) fuel vs visited comps = some comps' ∧
        (∀ C ∈ comps', ∃ s ∈ Vfull, ∀ w, w ∈ C ↔ Reach E s w) ∧
        (∀ v ∈ vs, ∃ C ∈ comps', v ∈ C) ∧
        (∀ C ∈ comps, C ∈ comps') ∧
        List.Pairwise (fun X Y => ∀ w ∈ X, w ∉ Y) comps' := by
  intro vs
  induction vs with
  | nil =>
      intro visited comps _ hA hB hC
      exact ⟨comps, rfl, hB, by simp, fun C hC' => hC', hC⟩
  | cons v vs ih =>
      intro visited comps hvs hA hB hC
      have hvs' : ∀ u ∈ vs, u ∈ Vfull :=
        fun u hu => hvs u (List.mem_cons_of_mem v hu)
      by_cases hv : v ∈ visited
      · obtain ⟨comps', hrun, h1, h2, h3, h4⟩ :=
          ih visited comps hvs' hA hB hC
        refine ⟨comps', by rw [ccOuter, if_pos hv]; exact hrun, h1, ?_, h3, h4⟩
        intro u hu
        rcases List.mem_cons.mp hu with h | h
        · obtain ⟨C, hCmem, hwC⟩ := (hA v).mp hv
          exact ⟨C, h3 C hCmem, h ▸ hwC⟩
        · exact h2 u h
      · -- run one component sweep from v
        have hpot : ([v] : List ℕ).length + (U \ insert v visited).card ≤
            fuel := by
          have h₁ : (U \ insert v visited).card ≤ U.card :=
            Finset.card_le_card (Finset.sdiff_subset)
          simp only [List.length_singleton]
          omega
        have hsome := compLoop_total hadjU fuel [v] (insert v visited) ∅ hpot
        obtain ⟨⟨v₁, c₁⟩, hrun₁⟩ := Option.isSome_iff_exists.mp hsome
        obtain ⟨-, hstk, hclosed, hsplit₁, hdisj₁⟩ :=
          @compLoop_spec _ visited fuel [v] (insert v visited) ∅ v₁ c₁
            hrun₁
            (by intro s hs; rw [List.mem_singleton.mp hs]; exact
              Finset.mem_insert_self v visited)
            (by simp)
            (by simp)
            (by
              intro w
              simp only [Finset.mem_insert, Finset.not_mem_empty, false_or,
                List.mem_singleton]
              tauto)
            (by intro s hs; rw [List.mem_singleton.mp hs]; exact hv)
            (by simp)
        have hvc₁ : v ∈ c₁ := hstk v (List.mem_singleton_self v)
        have hsound : ∀ x ∈ c₁, Reach E v x :=
          compLoop_sound fuel [v] (insert v visited) ∅ v₁ c₁ hrun₁
            (by
              intro s hs
              rw [List.mem_singleton.mp hs]
              exact Relation.ReflTransGen.refl)
            (by simp)
        -- the collected component is exactly the reachability class of v
        have hclass : ∀ w, w ∈ c₁ ↔ Reach E v w := by
          intro w
          constructor
          · exact hsound w
          · intro hr
            induction hr with
            | refl => exact hvc₁
            | tail hpath hstep ihw =>
                rename_i b c
                have hb : b ∈ c₁ := ihw
                have hcv₁ : c ∈ v₁ :=
                  hclosed b hb c (mem_adjLD.mpr hstep)
                rcases (hsplit₁ c).mp hcv₁ with h | h
                · -- c was visited before this sweep: then b would be too
                  exfalso
                  obtain ⟨C, hCmem, hcC⟩ := (hA c).mp h
                  obtain ⟨s, -, hs⟩ := hB C hCmem
                  have hsb : Reach E s b :=
                    ((hs c).mp hcC).trans (reach_of_adj (adjP_symm hstep))
                  have hbvis : b ∈ visited :=
                    (hA b).mpr ⟨C, hCmem, (hs b).mpr hsb⟩
                  exact hdisj₁ b hb hbvis
                · exact h
        have hA' : ∀ w, w ∈ v₁ ↔ ∃ C ∈ comps ++ [c₁], w ∈ C := by
          intro w
          rw [hsplit₁ w]
          constructor
          · rintro (h | h)
            · obtain ⟨C, hCmem, hwC⟩ := (hA w).mp h
              exact ⟨C, List.mem_append.mpr (Or.inl hCmem), hwC⟩
            · exact ⟨c₁, List.mem_append.mpr (Or.inr (List.mem_singleton_self _)), h⟩
          · rintro ⟨C, hCmem, hwC⟩
            rcases List.mem_append.mp hCmem with h | h
            · exact Or.inl ((hA w).mpr ⟨C, h, hwC⟩)
            · exact Or.inr (List.mem_singleton.mp h ▸ hwC)
        have hB' : ∀ C ∈ comps ++ [c₁], ∃ s ∈ Vfull, ∀ w, w ∈ C ↔ Reach E s w := by
          intro C hCmem
          rcases List.mem_append.mp hCmem with h | h
          · exact hB C h
          · exact List.mem_singleton.mp h ▸
              ⟨v, hvs v (List.mem_cons_self v vs), hclass⟩
        have hC' : List.Pairwise (fun X Y => ∀ w ∈ X, w ∉ Y)
            (comps ++ [c₁]) := by
          rw [List.pairwise_append]
          refine ⟨hC, List.pairwise_singleton _ _, ?_⟩
          intro X hX Y hY w hwX hwY
          have hwvis : w ∈ visited := (hA w).mpr ⟨X, hX, hwX⟩
          rw [List.mem_singleton.mp hY] at hwY
          exact hdisj₁ w hwY hwvis
        obtain ⟨comps', hrun, h1, h2, h3, h4⟩ :=
          ih v₁ (comps ++ [c₁]) hvs' hA' hB' hC'
        refine ⟨comps', ?_, h1, ?_, ?_, h4⟩
        · rw [ccOuter, if_neg hv, hrun₁]
          exact hrun
        · intro u hu
          rcases List.mem_cons.mp hu with h | h
          · exact ⟨c₁, h3 c₁ (List.mem_append.mpr
              (Or.inr (List.mem_singleton_self _))), h ▸ hvc₁⟩
          · exact h2 u h
        · intro C hCmem
          exact h3 C (List.mem_append.mpr (Or.inl hCmem))

/-- Full specification of `connected_components`: it succeeds at the chosen
fuel, and returns pairwise-disjoint reachability classes of start vertices
in `V` that cover `V`. -/
theorem connected_components_spec (V : List ℕ) (E : List PEdge) :
    ∃ comps, connected_components V E = some comps ∧
      (∀ C ∈ comps, ∃ s ∈ V, ∀ w, w ∈ C ↔ Reach E s w) ∧
      (∀ v ∈ V, ∃ C ∈ comps, v ∈ C) ∧
      List.Pairwise (fun X Y => ∀ w ∈ X, w ∉ Y) comps := by
  set U : Finset ℕ := V.toFinset ∪ ((E.map Prod.fst).toFinset ∪
    (E.map (fun e => e.2)).toFinset) with hU
  have hadjU : ∀ x, ∀ y ∈ adjLD E x, y ∈ U := by
    intro x y hy
    rcases List.mem_append.mp hy with h | h
    · obtain ⟨e, hef, h2⟩ := List.mem_map.mp h
      have he : e ∈ E := (List.mem_filter.mp hef).1
      refine Finset.mem_union_right _ (Finset.mem_union_right _ ?_)
      rw [List.mem_toFinset]
      exact h2 ▸ List.mem_map.mpr ⟨e, he, rfl⟩
    · obtain ⟨e, hef, h2⟩ := List.mem_map.mp h
      have he : e ∈ E := (List.mem_filter.mp hef).1
      refine Finset.mem_union_right _ (Finset.mem_union_left _ ?_)
      rw [List.mem_toFinset]
      exact h2 ▸ List.mem_map.mpr ⟨e, he, rfl⟩
  have hfuel : 1 + U.card ≤ ccFuel V E := by
    have h₁ : U.card ≤ V.toFinset.card +
        ((E.map Prod.fst).toFinset.card + (E.map (fun e => e.2)).toFinset.card) := by
      refine le_trans (Finset.card_union_le _ _) ?_
      have := Finset.card_union_le ((E.map Prod.fst).toFinset)
        ((E.map (fun e => e.2)).toFinset)
      omega
    have h₂ : V.toFinset.card ≤ V.length := V.toFinset_card_le
    have h₃ : (E.map Prod.fst).toFinset.card ≤ E.length := by
      have := (E.map Prod.fst).toFinset_card_le
      simpa using this
    have h₄ : (E.map (fun e => e.2)).toFinset.card ≤ E.length := by
      have := (E.map (fun e => e.2)).toFinset_card_le
      simpa using this
    rw [ccFuel]
    omega
  obtain ⟨comps, hrun, h1, h2, -, h4⟩ :=
    @ccOuter_spec E U V hadjU (ccFuel V E) hfuel V ∅ []
      (fun v hv => hv)
      (by simp)
      (by simp)
      (by simp)
  exact ⟨comps, hrun, h1, h2, h4⟩

end GraphPy

namespace GraphPy

/-- `generate_neighbor(graph, tree_edges)` from `src/utils/graph.py`.
The two `random.choice` draws become the index parameters `ri`/`ai`
(reduced mod the candidate count, so every possible draw is covered);
Python's `IndexError` on an empty tree and the (provably unreachable) fuel
exhaustion of `connected_components` are modelled as `none`. -/
def generate_neighbor (g : PyGraph) (tree_edges : List PEdge) (ri ai : ℕ) :
    Option (List PEdge) :=
  let all_edges := g.edges.dedup
  let te := tree_edges.dedup
  match te[ri % te.length]? with
  | none => none
  | some removed =>
    let new_tree := te.filter (fun e => e ≠ removed)
    match connected_components g.vertices new_tree with
    | none => none
    | some comps =>
        if h2 : comps.length = 2 then
          let compA := comps.get ⟨0, by omega⟩
          let compB := comps.get ⟨1, by omega⟩
          let candidate_edges := all_edges.filter (fun e =>
            (e.1 ∈ compA ∧ e.2 ∈ compB) ∨ (e.1 ∈ compB ∧ e.2 ∈ compA))
          if candidate_edges.isEmpty then none
          else
            match candidate_edges[ai % candidate_edges.length]? with
            | none => none
            | some added => some (List.insert added new_tree)
        else none

/-- `generate_neighbor_with_move(graph, tree_edges)`: the generator's
yields, in order. -/
def generate_neighbor_with_move (g : PyGraph) (tree_edges : List PEdge) :
    List (List PEdge × (PEdge × PEdge)) :=
  let all_edges := g.edges.dedup
  let te := tree_edges.dedup
  te.flatMap (fun removed =>
    let partialTree := te.filter (fun e => e ≠ removed)
    match connected_components g.vertices partialTree with
    | none => []
    | some comps =>
        if h2 : comps.length = 2 then
          let compA := comps.get ⟨0, by omega⟩
          let compB := comps.get ⟨1, by omega⟩
          (all_edges.filter (fun e =>
              (e.1 ∈ compA ∧ e.2 ∈ compB) ∨ (e.1 ∈ compB ∧ e.2 ∈ compA))).map
            (fun e => (List.insert e partialTree, (removed, e)))
        else [])

end GraphPy

theorem length_filter_ne_of_nodup :
    ∀ {T : List PEdge} {removed : PEdge}, T.Nodup → removed ∈ T →
      (T.filter (fun e => e ≠ removed)).length + 1 = T.length := by
  intro T
  induction T with
  | nil => intro removed _ h; simp at h
  | cons x xs ih =>
      intro removed hnd hmem
      by_cases hx : x = removed
      · subst hx
        have hxnot : x ∉ xs := (List.nodup_cons.mp hnd).1
        have hfil : xs.filter (fun e => e ≠ x) = xs := by
          apply List.filter_eq_self.mpr
          intro a ha
          simp only [ne_eq, decide_eq_true_eq]
          exact fun hc => hxnot (hc ▸ ha)
        rw [List.filter_cons_of_neg (by simp), hfil, List.length_cons]
      · have hrec := ih (List.nodup_cons.mp hnd).2 (by
          rcases List.mem_cons.mp hmem with h | h
          · exact absurd h.symm hx
          · exact h)
        rw [List.filter_cons_of_pos (by simp [hx]), List.length_cons,
          List.length_cons, ← hrec]

/-- Core of the neighbourhood invariant: removing a tree edge and inserting
an edge that crosses the two resulting components yields a spanning tree
again. -/
theorem neighbor_core {V : List ℕ} {T : List PEdge} {removed added : PEdge}
    {comps : List (Finset ℕ)} {A B : Finset ℕ}
    (hV : V.Nodup) (hT : T.Nodup) (hTE : EdgesOn V T)
    (hlen : T.length + 1 = V.length) (hconn : ConnectedL V T)
    (hrem : removed ∈ T)
    (hcc : GraphPy.connected_components V (T.filter (fun e => e ≠ removed)) =
      some comps)
    (hcomps : comps = [A, B])
    (hcross : (added.1 ∈ A ∧ added.2 ∈ B) ∨ (added.1 ∈ B ∧ added.2 ∈ A)) :
    (List.insert added (T.filter (fun e => e ≠ removed))).Nodup ∧
    (List.insert added (T.filter (fun e => e ≠ removed))).length + 1 =
      V.length ∧
    ConnectedL V (List.insert added (T.filter (fun e => e ≠ removed))) ∧
    Acyclic (List.insert added (T.filter (fun e => e ≠ removed))) ∧
    EdgesOn V (List.insert added (T.filter (fun e => e ≠ removed))) := by
  set P := T.filter (fun e => e ≠ removed) with hP
  have hPsubT : P ⊆ T := fun e he => List.mem_of_mem_filter he
  have hPE : EdgesOn V P := edgesOn_subset hPsubT hTE
  obtain ⟨comps', hcc', hcl, hcov, hpw⟩ :=
    GraphPy.connected_components_spec V P
  have hceq : comps' = comps := by
    have h := hcc'.symm.trans hcc
    exact Option.some_injective _ h
  subst hceq
  subst hcomps
  obtain ⟨sA, hsAV, hsA⟩ := hcl A (by simp)
  obtain ⟨sB, hsBV, hsB⟩ := hcl B (by simp)
  have hABdisj : ∀ w ∈ A, w ∉ B := by
    have := List.pairwise_cons.mp hpw
    exact this.1 B (by simp)
  have hAV : ∀ w ∈ A, w ∈ V :=
    fun w hw => reach_mem_V hPE ((hsA w).mp hw) hsAV
  have hBV : ∀ w ∈ B, w ∈ V :=
    fun w hw => reach_mem_V hPE ((hsB w).mp hw) hsBV
  have hwA : ∀ p q, p ∈ A → q ∈ A → Reach P p q :=
    fun p q hp hq => ((hsA p).mp hp).symm.trans ((hsA q).mp hq)
  have hwB : ∀ p q, p ∈ B → q ∈ B → Reach P p q :=
    fun p q hp hq => ((hsB p).mp hp).symm.trans ((hsB q).mp hq)
  -- the crossing edge's endpoints are not yet connected
  have hnr : ¬ Reach P added.1 added.2 := by
    intro hr
    rcases hcross with ⟨h1, h2⟩ | ⟨h1, h2⟩
    · have : added.2 ∈ A := (hsA added.2).mpr (((hsA added.1).mp h1).trans hr)
      exact hABdisj added.2 this h2
    · have : added.2 ∈ B := (hsB added.2).mpr (((hsB added.1).mp h1).trans hr)
      exact hABdisj added.2 h2 this
  have haddnot : added ∉ P := fun hmem => hnr (reach_of_mem hmem)
  have hnt : List.insert added P = added :: P := List.insert_of_not_mem haddnot
  have hPnodup : P.Nodup := hT.filter _
  have hPlen : P.length + 1 = T.length := length_filter_ne_of_nodup hT hrem
  have hVpos : 1 ≤ V.length := by omega
  refine ⟨?_, ?_, ?_, ?_, ?_⟩
  · rw [hnt]
    exact List.nodup_cons.mpr ⟨haddnot, hPnodup⟩
  · rw [hnt, List.length_cons]
    omega
  · -- connectivity: within each component via `P`, across via `added`
    rw [hnt]
    have hsubnt : P ⊆ added :: P := List.subset_cons_self added P
    have hadd : Reach (added :: P) added.1 added.2 :=
      reach_of_adj (Or.inl (List.mem_cons_self added P))
    have hcoverAB : ∀ v ∈ V, v ∈ A ∨ v ∈ B := by
      intro v hv
      obtain ⟨C, hCmem, hvC⟩ := hcov v hv
      rcases List.mem_cons.mp hCmem with h | h
      · exact Or.inl (h ▸ hvC)
      · rcases List.mem_cons.mp h with h' | h'
        · exact Or.inr (h' ▸ hvC)
        · simp at h'
    have hmain : ∀ a b, a ∈ A → b ∈ B → Reach (added :: P) a b →
        ConnectedL V (added :: P) := by
      intro a b haA hbB hab x hx y hy
      rcases hcoverAB x hx with hxc | hxc <;> rcases hcoverAB y hy with hyc | hyc
      · exact reach_mono hsubnt (hwA x y hxc hyc)
      · exact (reach_mono hsubnt (hwA x a hxc haA)).trans
          (hab.trans (reach_mono hsubnt (hwB b y hbB hyc)))
      · exact ((reach_mono hsubnt (hwA y a hyc haA)).trans
          (hab.trans (reach_mono hsubnt (hwB b x hbB hxc)))).symm
      · exact reach_mono hsubnt (hwB x y hxc hyc)
    rcases hcross with ⟨h1, h2⟩ | ⟨h1, h2⟩
    · exact hmain added.1 added.2 h1 h2 hadd
    · exact hmain added.2 added.1 h2 h1 hadd.symm
  · -- acyclicity: `P` is a sub-forest of the input tree; the new edge joins
    -- two distinct components
    have hTacyclic : Acyclic T := by
      apply acyclic_of_connected_count hconn
      rw [List.toFinset_card_of_nodup hV]
      exact hlen
    have hPacyclic : Acyclic P :=
      acyclic_subperm (List.Sublist.subperm (List.filter_sublist T)) hTacyclic
    have hext : Acyclic (P ++ [(added.1, added.2)]) :=
      acyclic_append_single hPacyclic hnr
    have heta : ((added.1, added.2) : PEdge) = added := rfl
    rw [heta] at hext
    rw [hnt]
    exact acyclic_perm (List.perm_append_singleton added P).symm hext
  · rw [hnt]
    intro e he
    rcases List.mem_cons.mp he with h | h
    · subst h
      rcases hcross with ⟨h1, h2⟩ | ⟨h1, h2⟩
      · exact ⟨hAV _ h1, hBV _ h2⟩
      · exact ⟨hBV _ h1, hAV _ h2⟩
    · exact hPE e h

theorem eq_pair_of_length_two {α : Type} {l : List α} (h : l.length = 2) :
    l = [l.get ⟨0, by omega⟩, l.get ⟨1, by omega⟩] := by
  obtain ⟨a, b, rfl⟩ := List.length_eq_two.mp h
  rfl

/-- Every `some` result of `generate_neighbor` on a spanning tree is again a
spanning tree. -/
theorem generate_neighbor_spanning (g : PyGraph) (T : List PEdge)
    (ri ai : ℕ) (hV : g.vertices.Nodup) (hT : T.Nodup)
    (hTE : EdgesOn g.vertices T)
    (hlen : T.length + 1 = g.vertices.length)
    (hconn : ConnectedL g.vertices T) :
    ∀ nt, GraphPy.generate_neighbor g T ri ai = some nt →
      nt.Nodup ∧ nt.length + 1 = g.vertices.length ∧
        ConnectedL g.vertices nt ∧ Acyclic nt := by
  intro nt hrun
  have hd : T.dedup = T := List.dedup_eq_self.mpr hT
  have hT' : T.dedup.Nodup := T.nodup_dedup
  have hTE' : EdgesOn g.vertices T.dedup := by rw [hd]; exact hTE
  have hlen' : T.dedup.length + 1 = g.vertices.length := by
    rw [hd]; exact hlen
  have hconn' : ConnectedL g.vertices T.dedup := by rw [hd]; exact hconn
  simp only [GraphPy.generate_neighbor] at hrun
  split at hrun
  · exact absurd hrun (by simp)
  · rename_i removed hget
    have hremT : removed ∈ T.dedup := List.getElem?_mem hget
    split at hrun
    · exact absurd hrun (by simp)
    · rename_i comps hcc
      split at hrun
      · rename_i h2
        have hcomps := eq_pair_of_length_two h2
        split at hrun
        · exact absurd hrun (by simp)
        · split at hrun
          · exact absurd hrun (by simp)
          · rename_i added hadd
            have haddc := List.getElem?_mem hadd
            have hcross := (List.mem_filter.mp haddc).2
            simp only [decide_eq_true_eq] at hcross
            obtain ⟨c1, c2, c3, c4, -⟩ :=
              neighbor_core hV hT' hTE' hlen' hconn' hremT hcc hcomps hcross
            have hntEq := Option.some_injective _ hrun
            rw [hntEq] at c1 c2 c3 c4
            exact ⟨c1, c2, c3, c4⟩
      · exact absurd hrun (by simp)

/-- Every neighbour yielded by `generate_neighbor_with_move` on a spanning
tree is again a spanning tree. -/
theorem generate_neighbor_with_move_spanning (g : PyGraph) (T : List PEdge)
    (hV : g.vertices.Nodup) (hT : T.Nodup) (hTE : EdgesOn g.vertices T)
    (hlen : T.length + 1 = g.vertices.length)
    (hconn : ConnectedL g.vertices T) :
    ∀ nt mv, (nt, mv) ∈ GraphPy.generate_neighbor_with_move g T →
      nt.Nodup ∧ nt.length + 1 = g.vertices.length ∧
        ConnectedL g.vertices nt ∧ Acyclic nt := by
  intro nt mv hmem
  have hd : T.dedup = T := List.dedup_eq_self.mpr hT
  have hT' : T.dedup.Nodup := T.nodup_dedup
  have hTE' : EdgesOn g.vertices T.dedup := by rw [hd]; exact hTE
  have hlen' : T.dedup.length + 1 = g.vertices.length := by
    rw [hd]; exact hlen
  have hconn' : ConnectedL g.vertices T.dedup := by rw [hd]; exact hconn
  simp only [GraphPy.generate_neighbor_with_move] at hmem
  rw [List.mem_flatMap] at hmem
  obtain ⟨removed, hremT, hmem⟩ := hmem
  revert hmem
  split
  · intro hmem; simp at hmem
  · rename_i comps hcc
    split
    · rename_i h2
      intro hmem
      have hcomps := eq_pair_of_length_two h2
      rw [List.mem_map] at hmem
      obtain ⟨added, haddc, heq⟩ := hmem
      have hcross := (List.mem_filter.mp haddc).2
      simp only [decide_eq_true_eq] at hcross
      obtain ⟨c1, c2, c3, c4, -⟩ :=
        neighbor_core hV hT' hTE' hlen' hconn' hremT hcc hcomps hcross
      have hntEq : List.insert added
          (T.dedup.filter (fun e => e ≠ removed)) = nt :=
        congrArg Prod.fst heq
      rw [hntEq] at c1 c2 c3 c4
      exact ⟨c1, c2, c3, c4⟩
    · intro hmem; simp at hmem

/-! ### `src/greedy.py` -/

theorem reach_congr {E₁ E₂ : List PEdge}
    (h : ∀ x y, adjP E₁ x y ↔ adjP E₂ x y) {x y : ℕ} :
    Reach E₁ x y ↔ Reach E₂ x y := by
  constructor <;> intro hr
  · induction hr with
    | refl => exact Relation.ReflTransGen.refl
    | tail _ hstep ih =>
        exact Relation.ReflTransGen.tail ih ((h _ _).mp hstep)
  · induction hr with
    | refl => exact Relation.ReflTransGen.refl
    | tail _ hstep ih =>
        exact Relation.ReflTransGen.tail ih ((h _ _).mpr hstep)

theorem adjP_append_flip (P : List PEdge) (a b x y : ℕ) :
    adjP (P ++ [(a, b)]) x y ↔ adjP (P ++ [(b, a)]) x y := by
  simp only [adjP, List.mem_append, List.mem_singleton, Prod.mk.injEq]
  tauto

theorem ufInv_congr {V : List ℕ} {p : ℕ → ℕ} {P₁ P₂ : List PEdge}
    (h : ∀ x y, adjP P₁ x y ↔ adjP P₂ x y) (inv : UFInv V p P₁) :
    UFInv V p P₂ := by
  refine ⟨inv.chain, ?_⟩
  intro x hx y hy
  rw [inv.corr x hx y hy]
  exact reach_congr h

/-- Stable insertion used to model Python's stable `sorted(..., key=...)`:
an element is placed before the first existing element with a strictly
larger key, hence after all earlier elements with an equal key. -/
def insortStable {α β : Type} [LinearOrder β] (key : α → β) (x : α) :
    List α → List α
  | [] => [x]
  | y :: ys =>
      if key y < key x then y :: insortStable key x ys else x :: y :: ys

/-- Python `sorted(l, key=key)` (stable). -/
def pySorted {α β : Type} [LinearOrder β] (key : α → β) : List α → List α
  | [] => []
  | x :: xs => insortStable key x (pySorted key xs)

theorem insortStable_perm {α β : Type} [LinearOrder β] (key : α → β)
    (x : α) : ∀ (l : List α), (insortStable key x l).Perm (x :: l) := by
  intro l
  induction l with
  | nil => simp [insortStable]
  | cons y ys ih =>
      by_cases h : key y < key x
      · rw [insortStable, if_pos h]
        exact (ih.cons y).trans (List.Perm.swap x y ys)
      · rw [insortStable, if_neg h]

theorem pySorted_perm {α β : Type} [LinearOrder β] (key : α → β) :
    ∀ (l : List α), (pySorted key l).Perm l := by
  intro l
  induction l with
  | nil => simp [pySorted]
  | cons x xs ih =>
      exact (insortStable_perm key x (pySorted key xs)).trans (ih.cons x)

/-- Modelled from the spec: the `UnionFind` class that `src/greedy.py`
imports from `src.utils.union_find` is missing from the repository (that
module instead holds a stale copy of the triple-edge graph utilities), so
it is reconstructed from spec §4.1: `find` returns the canonical
representative of its argument (path compression is a performance detail
that never changes any representative, so the model keeps the parent map
pure), and `union` attaches the lower-rank root under the higher-rank
root, breaking ties by incrementing the surviving root's rank, returning
`false` without merging when the two representatives already coincide. -/
structure UnionFind where
  vertices : List ℕ
  parent : ℕ → ℕ
  rank : ℕ → ℕ

/-- `UnionFind(vertices)`: every vertex is its own parent, all ranks 0. -/
def UnionFind.init (V : List ℕ) : UnionFind :=
  ⟨V, fun v => v, fun _ => 0⟩

/-- `find(v)`: the canonical representative. -/
def UnionFind.find (uf : UnionFind) (x : ℕ) : ℕ :=
  rootOf uf.vertices uf.parent x

/-- `union(a, b)` by rank. -/
def UnionFind.union (uf : UnionFind) (a b : ℕ) : Bool × UnionFind :=
  let ra := uf.find a
  let rb := uf.find b
  if ra = rb then (false, uf)
  else if uf.rank ra < uf.rank rb then
    (true, { uf with parent := Function.update uf.parent ra rb })
  else if uf.rank rb < uf.rank ra then
    (true, { uf with parent := Function.update uf.parent rb ra })
  else
    (true, { uf with parent := Function.update uf.parent rb ra,
                     rank := Function.update uf.rank ra (uf.rank ra + 1) })

/-- The `for u, v in sorted_edges` loop of `greedy_dc_mst`, including the
`break` once `len(tree) == len(vertices) - 1`. -/
def greedyLoop (V : List ℕ) (db : ℕ → ℕ) :
    List PEdge → UnionFind → (ℕ → ℕ) → List PEdge → List PEdge
  | [], _, _, tree => tree
  | e :: rest, uf, degree, tree =>
      let st :=
        if uf.find e.1 ≠ uf.find e.2 then
          if degree e.1 < db e.1 ∧ degree e.2 < db e.2 then
            ((uf.union e.1 e.2).2, bump (bump degree e.1) e.2, tree ++ [e])
          else (uf, degree, tree)
        else (uf, degree, tree)
      if st.2.2.length = V.length - 1 then st.2.2
      else greedyLoop V db rest st.1 st.2.1 st.2.2

/-- `greedy_dc_mst(graph, degree_bounds)` from `src/greedy.py`.  Note the
sort key: the code sorts by `e[1]`, the second endpoint of the pair edge,
not by weight. -/
def greedy_dc_mst (g : PyGraph) (degree_bounds : ℕ → ℕ) :
    List PEdge × ℚ :=
  let sorted_edges := pySorted (fun e => e.2) g.edges
  let tree := greedyLoop g.vertices degree_bounds sorted_edges
    (UnionFind.init g.vertices) (fun _ => 0) []
  (tree, total_cost g tree)

theorem degCount_append (A B : List PEdge) (v : ℕ) :
    degCount (A ++ B) v = degCount A v + degCount B v := by
  simp only [degCount, List.countP_append]
  omega

/-- Loop invariant of the greedy construction: the accumulated tree stays a
forest and never violates a degree bound. -/
theorem greedyLoop_spec (V : List ℕ) (db : ℕ → ℕ) :
    ∀ (rest : List PEdge) (uf : UnionFind) (degree : ℕ → ℕ)
      (tree : List PEdge),
      uf.vertices = V →
      EdgesOn V rest → EdgesOn V tree →
      UFInv V uf.parent tree →
      Acyclic tree →
      (∀ v, degree v = degCount tree v) →
      (∀ v, degCount tree v ≤ db v) →
      Acyclic (greedyLoop V db rest uf degree tree) ∧
        (∀ v, degCount (greedyLoop V db rest uf degree tree) v ≤ db v) ∧
        EdgesOn V (greedyLoop V db rest uf degree tree) := by
  intro rest
  induction rest with
  | nil =>
      intro uf degree tree _ _ hTreeE hinv hac hdeg hdb
      exact ⟨hac, hdb, hTreeE⟩
  | cons e rest ih =>
      intro uf degree tree huf hrestE hTreeE hinv hac hdeg hdb
      obtain ⟨he1, he2⟩ := hrestE e (List.mem_cons_self e rest)
      have hrestE' : EdgesOn V rest :=
        fun f hf => hrestE f (List.mem_cons_of_mem e hf)
      by_cases hroots : uf.find e.1 ≠ uf.find e.2
      · by_cases hguard : degree e.1 < db e.1 ∧ degree e.2 < db e.2
        · -- the edge is accepted
          have hfind : ∀ x, uf.find x = rootOf V uf.parent x := by
            intro x
            rw [UnionFind.find, huf]
          have hne : rootOf V uf.parent e.1 ≠ rootOf V uf.parent e.2 := by
            rw [← hfind e.1, ← hfind e.2]
            exact hroots
          have hnr : ¬ Reach tree e.1 e.2 := by
            intro hr
            exact hne ((hinv.corr e.1 he1 e.2 he2).mpr hr)
          have heta : ((e.1, e.2) : PEdge) = e := rfl
          have hac' : Acyclic (tree ++ [e]) := by
            have := acyclic_append_single hac hnr
            rwa [heta] at this
          have hinv' : UFInv V (uf.union e.1 e.2).2.parent (tree ++ [e]) := by
            rw [UnionFind.union]
            simp only [hfind]
            rw [if_neg hne]
            by_cases hr1 : uf.rank (rootOf V uf.parent e.1) <
                uf.rank (rootOf V uf.parent e.2)
            · rw [if_pos hr1]
              have hstep := (ufInv_union_step hinv he2 he1 hne.symm).1
              refine ufInv_congr (fun x y => ?_) hstep
              exact adjP_append_flip tree e.2 e.1 x y
            · rw [if_neg hr1]
              by_cases hr2 : uf.rank (rootOf V uf.parent e.2) <
                  uf.rank (rootOf V uf.parent e.1)
              · rw [if_pos hr2]
                have hstep := (ufInv_union_step hinv he1 he2 hne).1
                rwa [heta] at hstep
              · rw [if_neg hr2]
                have hstep := (ufInv_union_step hinv he1 he2 hne).1
                rwa [heta] at hstep
          have hvert' : (uf.union e.1 e.2).2.vertices = V := by
            rw [UnionFind.union]
            split_ifs <;> simpa using huf
          have hdeg' : ∀ v, bump (bump degree e.1) e.2 v =
              degCount (tree ++ [e]) v := by
            intro v
            rw [bump_bump_apply, degCount_append, hdeg v]
            have : degCount [e] v =
                (if v = e.1 then 1 else 0) + (if v = e.2 then 1 else 0) := by
              have := degCount_cons e [] v
              simpa [degCount] using this
            omega
          have hne12 : e.1 ≠ e.2 := by
            intro hc
            exact hne (by rw [hc])
          have hdb' : ∀ v, degCount (tree ++ [e]) v ≤ db v := by
            intro v
            rw [degCount_append]
            have hsingle : degCount [e] v =
                (if v = e.1 then 1 else 0) + (if v = e.2 then 1 else 0) := by
              have := degCount_cons e [] v
              simpa [degCount] using this
            rw [hsingle]
            have h1 := hdb v
            have hg1 : degCount tree e.1 < db e.1 := by
              rw [← hdeg e.1]; exact hguard.1
            have hg2 : degCount tree e.2 < db e.2 := by
              rw [← hdeg e.2]; exact hguard.2
            by_cases hv1 : v = e.1
            · rw [if_pos hv1, if_neg (by rw [hv1]; exact hne12), hv1]
              omega
            · rw [if_neg hv1]
              by_cases hv2 : v = e.2
              · rw [if_pos hv2, hv2]
                omega
              · rw [if_neg hv2]
                omega
          have hTreeE' : EdgesOn V (tree ++ [e]) := by
            intro f hf
            rcases List.mem_append.mp hf with h | h
            · exact hTreeE f h
            · rw [List.mem_singleton.mp h]
              exact ⟨he1, he2⟩
          have hloop : greedyLoop V db (e :: rest) uf degree tree =
              if (tree ++ [e]).length = V.length - 1 then tree ++ [e]
              else greedyLoop V db rest (uf.union e.1 e.2).2
                (bump (bump degree e.1) e.2) (tree ++ [e]) := by
            simp only [greedyLoop, if_pos hguard, if_pos hroots]
          rw [hloop]
          by_cases hbreak : (tree ++ [e]).length = V.length - 1
          · rw [if_pos hbreak]
            exact ⟨hac', hdb', hTreeE'⟩
          · rw [if_neg hbreak]
            exact ih _ _ _ hvert' hrestE' hTreeE' hinv' hac'
              (fun v => hdeg' v) hdb'
        · have hloop : greedyLoop V db (e :: rest) uf degree tree =
              if tree.length = V.length - 1 then tree
              else greedyLoop V db rest uf degree tree := by
            simp only [greedyLoop, if_pos hroots, if_neg hguard]
          rw [hloop]
          by_cases hbreak : tree.length = V.length - 1
          · rw [if_pos hbreak]
            exact ⟨hac, hdb, hTreeE⟩
          · rw [if_neg hbreak]
            exact ih _ _ _ huf hrestE' hTreeE hinv hac hdeg hdb
      · have hloop : greedyLoop V db (e :: rest) uf degree tree =
            if tree.length = V.length - 1 then tree
            else greedyLoop V db rest uf degree tree := by
          simp only [greedyLoop, if_neg hroots]
        rw [hloop]
        by_cases hbreak : tree.length = V.length - 1
        · rw [if_pos hbreak]
          exact ⟨hac, hdb, hTreeE⟩
        · rw [if_neg hbreak]
          exact ih _ _ _ huf hrestE' hTreeE hinv hac hdeg hdb

/-- The greedy result is always a degree-respecting forest (C10's content),
whatever the input graph. -/
theorem greedy_dc_mst_invariant (g : PyGraph) (db : ℕ → ℕ)
    (hE : EdgesOn g.vertices g.edges) :
    Acyclic (greedy_dc_mst g db).1 ∧
      (∀ v, degCount (greedy_dc_mst g db).1 v ≤ db v) := by
  have hperm := pySorted_perm (fun e : PEdge => e.2) g.edges
  have hsorted : EdgesOn g.vertices (pySorted (fun e : PEdge => e.2) g.edges) :=
    fun e he => hE e (hperm.subset he)
  have h := greedyLoop_spec g.vertices db
    (pySorted (fun e : PEdge => e.2) g.edges)
    (UnionFind.init g.vertices) (fun _ => 0) []
    rfl hsorted (by intro e he; simp at he) (ufInv_init g.vertices)
    (by intro e he; simp at he)
    (by intro v; simp [degCount])
    (by intro v; simp [degCount])
  exact ⟨h.1, h.2.1⟩

/-! ### `src/local_search.py`

`local_search.py` imports `tree_cost`, `build_adjacency` and
`respects_degree_constraints` from `src.utils.graph`, but works on triple
edges `(u, v, weight)`; the triple-edge versions of those utilities live
(under the stale module name) in `src/utils/union_find.py` and are embedded
here.  The unbounded `while improved` loop gets explicit fuel — C7 below is
proved for every fuel value. -/

namespace GraphV1

/-- `compute_degrees(tree)` from `src/utils/union_find.py` (triple edges):
the resulting degree table, as a function. -/
def compute_degrees (tree : List WEdge) (v : ℕ) : ℕ :=
  degCount (tree.map projW) v

/-- `respects_degree_constraints(tree, degree_bounds)` from
`src/utils/union_find.py`: full degree table first, then one check per
table entry (the table's keys are the tree's endpoints). -/
def respects_degree_constraints (tree : List WEdge) (bounds : ℕ → ℕ) : Bool :=
  (tree.flatMap (fun e => [e.1, e.2.1])).all
    (fun v => compute_degrees tree v ≤ bounds v)

end GraphV1

/-- Inner BFS of `connected_components_after_removal` (deque, marking at
pop time), with fuel. -/
def ccarInner (adj : ℕ → List ℕ) :
    ℕ → List ℕ → Finset ℕ → Finset ℕ → Option (Finset ℕ × Finset ℕ)
  | 0, queue, visited, comp =>
      if queue = [] then some (visited, comp) else none
  | _ + 1, [], visited, comp => some (visited, comp)
  | fuel + 1, current :: rest, visited, comp =>
      if current ∈ visited then ccarInner adj fuel rest visited comp
      else ccarInner adj fuel (rest ++ (adj current).filter (· ∉ visited))
        (insert current visited) (insert current comp)

/-- Outer `for start in vertices` of `connected_components_after_removal`. -/
def ccarOuter (adj : ℕ → List ℕ) (fuel : ℕ) :
    List ℕ → Finset ℕ → List (Finset ℕ) → Option (List (Finset ℕ))
  | [], _, comps => some comps
  | v :: vs, visited, comps =>
      if v ∈ visited then ccarOuter adj fuel vs visited comps
      else
        match ccarInner adj fuel [v] visited ∅ with
        | none => none
        | some (visited', comp) =>
            ccarOuter adj fuel vs visited' (comps ++ [comp])

/-- `connected_components_after_removal(vertices, tree, removed_edge)` from
`src/local_search.py` (`none` = fuel exhausted, which the chosen fuel never
is on the runs the claims touch). -/
def connected_components_after_removal (V : List ℕ) (tree : List WEdge)
    (removed_edge : WEdge) : Option (List (Finset ℕ)) :=
  let remaining := (tree.filter (fun e => e ≠ removed_edge)).map projW
  ccarOuter (adjList remaining) (1 + V.length + 2 * remaining.length)
    V ∅ []

/-- Scan of the non-tree crossing edges for the current removed edge: the
first strictly improving, degree-feasible swap is returned. -/
def lsScanCands (bounds : ℕ → ℕ) (current : List WEdge) (ccost : ℚ)
    (edge_in : WEdge) (A B : Finset ℕ) : List WEdge → Option (List WEdge)
  | [] => none
  | e :: rest =>
      if (e.1 ∈ A ∧ e.2.1 ∈ B) ∨ (e.1 ∈ B ∧ e.2.1 ∈ A) then
        if e ∈ current ∨ ((e.2.1, e.1, e.2.2) : WEdge) ∈ current then
          lsScanCands bounds current ccost edge_in A B rest
        else
          let candidate := eraseP current edge_in ++ [e]
          if ¬ GraphV1.respects_degree_constraints candidate bounds then
            lsScanCands bounds current ccost edge_in A B rest
          else if tree_cost candidate < ccost then some candidate
          else lsScanCands bounds current ccost edge_in A B rest
      else lsScanCands bounds current ccost edge_in A B rest

/-- Scan of the tree edges (`for edge_in in list(current_tree)`): first
improvement wins. -/
def lsScanEdges (V : List ℕ) (edges : List WEdge) (bounds : ℕ → ℕ)
    (current : List WEdge) (ccost : ℚ) : List WEdge → Option (List WEdge)
  | [] => none
  | edge_in :: rest =>
      match connected_components_after_removal V current edge_in with
      | none => lsScanEdges V edges bounds current ccost rest
      | some comps =>
          if h : comps.length = 2 then
            match lsScanCands bounds current ccost edge_in
                (comps.get ⟨0, by omega⟩) (comps.get ⟨1, by omega⟩) edges with
            | some cand => some cand
            | none => lsScanEdges V edges bounds current ccost rest
          else lsScanEdges V edges bounds current ccost rest

/-- The `while improved` loop of `local_search_dc_mst`, with fuel. -/
def lsLoop (V : List ℕ) (edges : List WEdge) (bounds : ℕ → ℕ) :
    ℕ → List WEdge → List WEdge
  | 0, current => current
  | fuel + 1, current =>
      match lsScanEdges V edges bounds current (tree_cost current) current with
      | none => current
      | some cand => lsLoop V edges bounds fuel cand

/-- `local_search_dc_mst(vertices, edges, initial_tree, degree_bounds)`.
The Python loop terminates because every committed swap strictly lowers the
cost; the embedding makes the iteration count an explicit parameter. -/
def local_search_dc_mst (V : List ℕ) (edges : List WEdge)
    (initial_tree : List WEdge) (bounds : ℕ → ℕ) (fuel : ℕ) : List WEdge :=
  lsLoop V edges bounds fuel initial_tree

theorem lsScanCands_lt (bounds : ℕ → ℕ) (current : List WEdge) (ccost : ℚ)
    (edge_in : WEdge) (A B : Finset ℕ) :
    ∀ (elist : List WEdge) (cand : List WEdge),
      lsScanCands bounds current ccost edge_in A B elist = some cand →
      tree_cost cand < ccost := by
  intro elist
  induction elist with
  | nil => intro cand h; cases h
  | cons e rest ih =>
      intro cand h
      rw [lsScanCands] at h
      by_cases h1 : (e.1 ∈ A ∧ e.2.1 ∈ B) ∨ (e.1 ∈ B ∧ e.2.1 ∈ A)
      · rw [if_pos h1] at h
        by_cases h2 : e ∈ current ∨ ((e.2.1, e.1, e.2.2) : WEdge) ∈ current
        · rw [if_pos h2] at h
          exact ih cand h
        · rw [if_neg h2] at h
          by_cases h3 : GraphV1.respects_degree_constraints
              (eraseP current edge_in ++ [e]) bounds = true
          · have h' : (if tree_cost (eraseP current edge_in ++ [e]) < ccost
                then some (eraseP current edge_in ++ [e])
                else lsScanCands bounds current ccost edge_in A B rest) =
                some cand := by
              simpa [h3] using h
            by_cases h4 : tree_cost (eraseP current edge_in ++ [e]) < ccost
            · rw [if_pos h4] at h'
              rw [← Option.some_injective _ h']
              exact h4
            · rw [if_neg h4] at h'
              exact ih cand h'
          · have h' : lsScanCands bounds current ccost edge_in A B rest =
                some cand := by
              simpa [h3] using h
            exact ih cand h'
      · rw [if_neg h1] at h
        exact ih cand h

theorem lsScanEdges_lt (V : List ℕ) (edges : List WEdge) (bounds : ℕ → ℕ)
    (current : List WEdge) (ccost : ℚ) :
    ∀ (tlist : List WEdge) (cand : List WEdge),
      lsScanEdges V edges bounds current ccost tlist = some cand →
      tree_cost cand < ccost := by
  intro tlist
  induction tlist with
  | nil => intro cand h; cases h
  | cons edge_in rest ih =>
      intro cand h
      rw [lsScanEdges] at h
      split at h
      · exact ih cand h
      · split at h
        · split at h
          · rename_i hsome
            exact lsScanCands_lt bounds current ccost edge_in _ _ edges cand
              (hsome.trans h)
          · exact ih cand h
        · exact ih cand h

/-- The local search never returns a tree costing more than its seed. -/
theorem lsLoop_le (V : List ℕ) (edges : List WEdge) (bounds : ℕ → ℕ) :
    ∀ (fuel : ℕ) (current : List WEdge),
      tree_cost (lsLoop V edges bounds fuel current) ≤ tree_cost current := by
  intro fuel
  induction fuel with
  | zero => intro current; exact le_refl _
  | succ fuel ih =>
      intro current
      rw [lsLoop]
      split
      · exact le_refl _
      · rename_i cand hsome
        exact le_trans (ih cand)
          (le_of_lt (lsScanEdges_lt V edges bounds current
            (tree_cost current) current cand hsome))

/-! ### `src/simulated_annealing.py`

The module draws from Python's process-global `random` generator (it takes
no seed parameter).  The embedding makes the per-iteration random inputs an
explicit oracle `rng`: the two `random.choice` draws inside
`generate_neighbor` become indices, and the Metropolis test
`random.random() < math.exp(-delta / temperature)` (a real-valued Bernoulli
draw) is recorded as its Boolean outcome, so every possible draw sequence
is covered by quantifying over `rng`. -/

/-- Modelled from the spec: `respects_degree_constraints_v2` is imported by
`simulated_annealing.py` from `utils.graph` but absent from `graph.py`;
per spec §4.2 the check streams through the edges accumulating degree
counts and fails fast the moment any running degree exceeds its bound. -/
def respects_degree_constraints_v2 (tree_edges : List PEdge)
    (bounds : ℕ → ℕ) : Bool :=
  GraphPy.respectsAuxP bounds (fun _ => 0) tree_edges

/-- The `while` loop of `simulated_annealing` (fuel = remaining iterations,
`it` = the iteration counter used to index the random oracle). -/
def saLoop (g : PyGraph) (bounds : ℕ → ℕ) (min_temperature cooling_rate : ℚ)
    (rng : ℕ → ℕ × ℕ × Bool) :
    ℕ → ℕ → ℚ → List PEdge → ℚ → List PEdge → ℚ → List PEdge × ℚ
  | 0, _, _, _, _, best, bcost => (best, bcost)
  | rem + 1, it, temp, current, ccost, best, bcost =>
      if ¬ (min_temperature < temp) then (best, bcost)
      else
        match GraphPy.generate_neighbor g current (rng it).1 (rng it).2.1 with
        | none =>
            saLoop g bounds min_temperature cooling_rate rng rem (it + 1)
              (temp * cooling_rate) current ccost best bcost
        | some neighbor =>
            if ¬ respects_degree_constraints_v2 neighbor bounds then
              saLoop g bounds min_temperature cooling_rate rng rem (it + 1)
                (temp * cooling_rate) current ccost best bcost
            else
              let ncost := total_cost g neighbor
              let accept : Bool :=
                if ncost - ccost < 0 then true else (rng it).2.2
              let current' := if accept then neighbor else current
              let ccost' := if accept then ncost else ccost
              let best' := if ccost' < bcost then current' else best
              let bcost' := if ccost' < bcost then ccost' else bcost
              saLoop g bounds min_temperature cooling_rate rng rem (it + 1)
                (temp * cooling_rate) current' ccost' best' bcost'

/-- `simulated_annealing(graph, degree_bounds, initial_solution, ...)`. -/
def simulated_annealing (g : PyGraph) (bounds : ℕ → ℕ)
    (initial_solution : List PEdge) (initial_temperature : ℚ)
    (cooling_rate : ℚ) (min_temperature : ℚ) (max_iterations : ℕ)
    (rng : ℕ → ℕ × ℕ × Bool) : List PEdge × ℚ :=
  saLoop g bounds min_temperature cooling_rate rng max_iterations 0
    initial_temperature initial_solution (total_cost g initial_solution)
    initial_solution (total_cost g initial_solution)

/-- The returned cost always belongs to the returned tree. -/
theorem saLoop_cost_inv (g : PyGraph) (bounds : ℕ → ℕ)
    (min_temperature cooling_rate : ℚ) (rng : ℕ → ℕ × ℕ × Bool) :
    ∀ (rem it : ℕ) (temp : ℚ) (current : List PEdge) (ccost : ℚ)
      (best : List PEdge) (bcost : ℚ),
      ccost = total_cost g current → bcost = total_cost g best →
      (saLoop g bounds min_temperature cooling_rate rng rem it temp current
          ccost best bcost).2 =
        total_cost g (saLoop g bounds min_temperature cooling_rate rng rem it
          temp current ccost best bcost).1 := by
  intro rem
  induction rem with
  | zero => intro it temp current ccost best bcost _ hb; exact hb
  | succ rem ih =>
      intro it temp current ccost best bcost hc hb
      rw [saLoop]
      by_cases htemp : ¬ (min_temperature < temp)
      · rw [if_pos htemp]
        exact hb
      · rw [if_neg htemp]
        split
        · exact ih _ _ _ _ _ _ hc hb
        · rename_i neighbor hnb
          by_cases hresp : ¬ respects_degree_constraints_v2 neighbor bounds = true
          · rw [if_pos hresp]
            exact ih _ _ _ _ _ _ hc hb
          · rw [if_neg hresp]
            apply ih
            · by_cases hacc : (if total_cost g neighbor - ccost < 0 then true
                  else (rng it).2.2) = true
              · rw [if_pos hacc, if_pos hacc]
              · rw [if_neg hacc, if_neg hacc]
                exact hc
            · by_cases hlt : (if (if total_cost g neighbor - ccost < 0 then true
                  else (rng it).2.2) = true then total_cost g neighbor
                  else ccost) < bcost
              · rw [if_pos hlt, if_pos hlt]
                by_cases hacc : (if total_cost g neighbor - ccost < 0 then true
                    else (rng it).2.2) = true
                · rw [if_pos hacc, if_pos hacc]
                · rw [if_neg hacc, if_neg hacc]
                  exact hc
              · rw [if_neg hlt, if_neg hlt]
                exact hb

/-! ### `src/tabu_search.py` -/

/-- One step of the best-candidate selection fold inside the iteration loop
of `tabu_search` (the running state is `(best_candidate,
best_candidate_cost, best_move)`, `none` standing for the initial
`None` / `inf` pair). -/
def tabuSelectStep (g : PyGraph) (bounds : ℕ → ℕ)
    (tabu_list : List (PEdge × PEdge))
    (acc : Option (List PEdge × ℚ × (PEdge × PEdge)))
    (cand : List PEdge × (PEdge × PEdge)) :
    Option (List PEdge × ℚ × (PEdge × PEdge)) :=
  if cand.2 ∈ tabu_list then acc
  else if ¬ GraphPy.respects_degree_constraints cand.1 bounds then acc
  else
    let cost := total_cost g cand.1
    match acc with
    | none => some (cand.1, cost, cand.2)
    | some (b, bc, bm) =>
        if cost < bc then some (cand.1, cost, cand.2) else some (b, bc, bm)

/-- The entire candidate scan of one tabu iteration. -/
def tabuSelect (g : PyGraph) (bounds : ℕ → ℕ)
    (tabu_list : List (PEdge × PEdge)) (current : List PEdge) :
    Option (List PEdge × ℚ × (PEdge × PEdge)) :=
  (GraphPy.generate_neighbor_with_move g current).foldl
    (tabuSelectStep g bounds tabu_list) none

/-- `deque(maxlen=tenure).append(move)`: keep the last `tenure` entries. -/
def pushTabu (tabu_list : List (PEdge × PEdge)) (mv : PEdge × PEdge)
    (tenure : ℕ) : List (PEdge × PEdge) :=
  (tabu_list ++ [mv]).drop ((tabu_list.length + 1) - tenure)

/-- The `for _ in range(max_iterations)` loop of `tabu_search`. -/
def tabuLoop (g : PyGraph) (bounds : ℕ → ℕ) (tenure : ℕ) :
    ℕ → List PEdge → ℚ → List PEdge → ℚ → List (PEdge × PEdge) →
      List PEdge × ℚ
  | 0, _, _, best, bcost, _ => (best, bcost)
  | rem + 1, current, _ccost, best, bcost, tabu_list =>
      match tabuSelect g bounds tabu_list current with
      | none => (best, bcost)
      | some (cand, ccost', mv) =>
          let tabu' := pushTabu tabu_list mv tenure
          let best' := if ccost' < bcost then cand else best
          let bcost' := if ccost' < bcost then ccost' else bcost
          tabuLoop g bounds tenure rem cand ccost' best' bcost' tabu'

/-- `tabu_search(graph, degree_bounds, initial_solution, tabu_tenure,
max_iterations)`. -/
def tabu_search (g : PyGraph) (bounds : ℕ → ℕ)
    (initial_solution : List PEdge) (tabu_tenure : ℕ)
    (max_iterations : ℕ) : List PEdge × ℚ :=
  tabuLoop g bounds tabu_tenure max_iterations initial_solution
    (total_cost g initial_solution) initial_solution
    (total_cost g initial_solution) []

theorem tabuSelectStep_cost (g : PyGraph) (bounds : ℕ → ℕ)
    (tabu_list : List (PEdge × PEdge)) :
    ∀ (acc : Option (List PEdge × ℚ × (PEdge × PEdge)))
      (cand : List PEdge × (PEdge × PEdge)),
      (∀ b bc bm, acc = some (b, bc, bm) → bc = total_cost g b) →
      ∀ b bc bm, tabuSelectStep g bounds tabu_list acc cand = some (b, bc, bm) →
        bc = total_cost g b := by
  intro acc cand hacc b bc bm h
  rw [tabuSelectStep] at h
  by_cases h1 : cand.2 ∈ tabu_list
  · rw [if_pos h1] at h
    exact hacc b bc bm h
  · rw [if_neg h1] at h
    by_cases h2 : ¬ GraphPy.respects_degree_constraints cand.1 bounds = true
    · rw [if_pos h2] at h
      exact hacc b bc bm h
    · rw [if_neg h2] at h
      revert h
      cases acc with
      | none =>
          intro h
          have h' : some (cand.1, total_cost g cand.1, cand.2) =
              some (b, bc, bm) := h
          simp only [Option.some.injEq, Prod.mk.injEq] at h'
          rw [← h'.1, ← h'.2.1]
      | some p =>
          obtain ⟨b0, bc0, bm0⟩ := p
          intro h
          have h' : (if total_cost g cand.1 < bc0 then
              some (cand.1, total_cost g cand.1, cand.2)
              else some (b0, bc0, bm0)) = some (b, bc, bm) := h
          by_cases hlt : total_cost g cand.1 < bc0
          · rw [if_pos hlt] at h'
            simp only [Option.some.injEq, Prod.mk.injEq] at h'
            rw [← h'.1, ← h'.2.1]
          · rw [if_neg hlt] at h'
            simp only [Option.some.injEq, Prod.mk.injEq] at h'
            rw [← h'.1, ← h'.2.1]
            exact hacc b0 bc0 bm0 rfl

theorem tabuSelect_cost (g : PyGraph) (bounds : ℕ → ℕ)
    (tabu_list : List (PEdge × PEdge)) (current : List PEdge) :
    ∀ b bc bm, tabuSelect g bounds tabu_list current = some (b, bc, bm) →
      bc = total_cost g b := by
  rw [tabuSelect]
  generalize GraphPy.generate_neighbor_with_move g current = cands
  have hgen : ∀ (cs : List (List PEdge × (PEdge × PEdge)))
      (acc : Option (List PEdge × ℚ × (PEdge × PEdge))),
      (∀ b bc bm, acc = some (b, bc, bm) → bc = total_cost g b) →
      ∀ b bc bm, cs.foldl (tabuSelectStep g bounds tabu_list) acc =
          some (b, bc, bm) → bc = total_cost g b := by
    intro cs
    induction cs with
    | nil => intro acc hacc b bc bm h; exact hacc b bc bm h
    | cons c cs ih =>
        intro acc hacc b bc bm h
        rw [List.foldl_cons] at h
        exact ih _ (fun b' bc' bm' h' =>
          tabuSelectStep_cost g bounds tabu_list acc c hacc b' bc' bm' h')
          b bc bm h
  exact hgen cands none (by rintro b bc bm ⟨⟩)

theorem tabuLoop_cost_inv (g : PyGraph) (bounds : ℕ → ℕ) (tenure : ℕ) :
    ∀ (rem : ℕ) (current : List PEdge) (ccost : ℚ) (best : List PEdge)
      (bcost : ℚ) (tabu_list : List (PEdge × PEdge)),
      bcost = total_cost g best →
      (tabuLoop g bounds tenure rem current ccost best bcost tabu_list).2 =
        total_cost g
          (tabuLoop g bounds tenure rem current ccost best bcost tabu_list).1 := by
  intro rem
  induction rem with
  | zero => intro current ccost best bcost tabu_list hb; exact hb
  | succ rem ih =>
      intro current ccost best bcost tabu_list hb
      rw [tabuLoop]
      split
      · exact hb
      · rename_i cand ccost' mv hsel
        simp only []
        apply ih
        by_cases hlt : ccost' < bcost
        · simp only [if_pos hlt]
          exact tabuSelect_cost g bounds tabu_list current cand ccost' mv hsel
        · simp only [if_neg hlt]
          exact hb

/-! ### `instances/generator.py`

`generate_graph` declares `**seed: int`, so a caller's `seed=...` argument
arrives as the kwargs dict `{'seed': ...}`, and `random.seed(**seed)`
forwards it to `random.seed`, whose parameters are named `a` and `version`:
any seeded call raises `TypeError`.  With no seed argument the dict is
empty (never `None`), so `random.seed()` runs and reseeds the global
generator from OS entropy; the embedding surfaces that entropy as an
explicit stream indexed by the vertex-pair position (acceptance draw and
weight draw). -/

/-- `generate_graph(num_vertices, edge_probability, weight_range,
degree_bound, **seed)`. -/
def generate_graph (num_vertices : ℕ) (edge_probability : ℚ)
    (weight_range : ℤ × ℤ) (degree_bound : ℕ) (seed : Option ℤ)
    (entropy : ℕ → ℚ × ℤ) :
    Except String (List ℕ × List WEdge × (ℕ → ℕ)) :=
  match seed with
  | some _ =>
      Except.error "TypeError: seed() got an unexpected keyword argument"
  | none =>
      let prs := (List.range num_vertices).flatMap (fun i =>
        ((List.range num_vertices).filter (fun j => i < j)).map
          (fun j => (i, j)))
      let edges := prs.enum.filterMap (fun ke =>
        if (entropy ke.1).1 < edge_probability then
          some (ke.2.1, ke.2.2,
            ((weight_range.1 + (entropy ke.1).2 %
              (weight_range.2 - weight_range.1 + 1) : ℤ) : ℚ))
        else none)
      Except.ok (List.range num_vertices, edges, fun _ => degree_bound)

/-- `generate_feasible_instance(...)`: retries `generate_graph` until the
edge list has at least `n - 1` edges; a seeded call dies with the same
`TypeError` on its first attempt. -/
def generate_feasible_instance (num_vertices : ℕ) (edge_probability : ℚ)
    (weight_range : ℤ × ℤ) (degree_bound : ℕ) (seed : Option ℤ)
    (entropy : ℕ → ℕ → ℚ × ℤ) :
    ℕ → Except String (List ℕ × List WEdge × (ℕ → ℕ))
  | 0 => Except.error "RuntimeError: Failed to generate a feasible instance."
  | attempts + 1 =>
      match generate_graph num_vertices edge_probability weight_range
          degree_bound seed (entropy attempts) with
      | Except.error e => Except.error e
      | Except.ok (vertices, edges, db) =>
          if num_vertices ≤ edges.length + 1 then
            Except.ok (vertices, edges, db)
          else
            generate_feasible_instance num_vertices edge_probability
              weight_range degree_bound seed entropy attempts

/-! ### Shared lemmas for the tabu selection fold -/

theorem tabuSelectStep_skip (g : PyGraph) (bounds : ℕ → ℕ)
    (tabu : List (PEdge × PEdge))
    (acc : Option (List PEdge × ℚ × (PEdge × PEdge)))
    (c : List PEdge × (PEdge × PEdge))
    (h : c.2 ∈ tabu ∨ GraphPy.respects_degree_constraints c.1 bounds = false) :
    tabuSelectStep g bounds tabu acc c = acc := by
  by_cases h1 : c.2 ∈ tabu
  · rw [tabuSelectStep, if_pos h1]
  · have h2 : GraphPy.respects_degree_constraints c.1 bounds = false := by
      rcases h with h | h
      · exact absurd h h1
      · exact h
    rw [tabuSelectStep, if_neg h1, if_pos (by simp [h2])]

theorem tabuSelectStep_keep_none (g : PyGraph) (bounds : ℕ → ℕ)
    (tabu : List (PEdge × PEdge)) (c : List PEdge × (PEdge × PEdge))
    (h1 : c.2 ∉ tabu)
    (h2 : GraphPy.respects_degree_constraints c.1 bounds = true) :
    tabuSelectStep g bounds tabu none c = some (c.1, total_cost g c.1, c.2) := by
  rw [tabuSelectStep, if_neg h1, if_neg (by simp [h2])]

theorem tabuSelectStep_keep_some (g : PyGraph) (bounds : ℕ → ℕ)
    (tabu : List (PEdge × PEdge)) (c : List PEdge × (PEdge × PEdge))
    (h1 : c.2 ∉ tabu)
    (h2 : GraphPy.respects_degree_constraints c.1 bounds = true)
    (b0 : List PEdge) (bc0 : ℚ) (bm0 : PEdge × PEdge) :
    tabuSelectStep g bounds tabu (some (b0, bc0, bm0)) c =
      if total_cost g c.1 < bc0 then some (c.1, total_cost g c.1, c.2)
      else some (b0, bc0, bm0) := by
  rw [tabuSelectStep, if_neg h1, if_neg (by simp [h2])]

/-- Full characterization of the candidate-selection fold: a `none` result
means every candidate was filtered out, a `some` result carries a surviving
candidate of minimal cost (the incumbent is only ever replaced on strictly
smaller cost). -/
theorem tabuSelectFold_spec (g : PyGraph) (bounds : ℕ → ℕ)
    (tabu : List (PEdge × PEdge)) :
    ∀ (cs : List (List PEdge × (PEdge × PEdge)))
      (acc : Option (List PEdge × ℚ × (PEdge × PEdge))),
      (cs.foldl (tabuSelectStep g bounds tabu) acc = none ↔
        acc = none ∧ ∀ c ∈ cs, c.2 ∈ tabu ∨
          GraphPy.respects_degree_constraints c.1 bounds = false) ∧
      (∀ b bc bm, cs.foldl (tabuSelectStep g bounds tabu) acc = some (b, bc, bm) →
        (acc = some (b, bc, bm) ∨
          ((b, bm) ∈ cs ∧ bm ∉ tabu ∧
            GraphPy.respects_degree_constraints b bounds = true ∧
            bc = total_cost g b)) ∧
        (∀ c ∈ cs, c.2 ∉ tabu →
          GraphPy.respects_degree_constraints c.1 bounds = true →
          bc ≤ total_cost g c.1) ∧
        (∀ b0 bc0 bm0, acc = some (b0, bc0, bm0) → bc ≤ bc0)) := by
  intro cs
  induction cs with
  | nil =>
      intro acc
      constructor
      · simp
      · intro b bc bm h
        simp only [List.foldl_nil] at h
        refine ⟨Or.inl h, by simp, ?_⟩
        intro b0 bc0 bm0 h0
        rw [h0] at h
        simp only [Option.some.injEq, Prod.mk.injEq] at h
        exact le_of_eq h.2.1.symm
  | cons c cs ih =>
      intro acc
      rw [List.foldl_cons]
      by_cases hsur : c.2 ∉ tabu ∧
          GraphPy.respects_degree_constraints c.1 bounds = true
      · obtain ⟨h1, h2⟩ := hsur
        cases acc with
        | none =>
            rw [tabuSelectStep_keep_none g bounds tabu c h1 h2]
            obtain ⟨ihn, ihs⟩ := ih (some (c.1, total_cost g c.1, c.2))
            constructor
            · rw [ihn]
              constructor
              · rintro ⟨h, -⟩; cases h
              · rintro ⟨-, hall⟩
                rcases hall c (List.mem_cons_self c cs) with h | h
                · exact absurd h h1
                · rw [h2] at h; cases h
            · intro b bc bm h
              obtain ⟨hprov, hmin, haccb⟩ := ihs b bc bm h
              have hbc : bc ≤ total_cost g c.1 := haccb _ _ _ rfl
              refine ⟨?_, ?_, ?_⟩
              · rcases hprov with h' | ⟨hm, hrest⟩
                · simp only [Option.some.injEq, Prod.mk.injEq] at h'
                  refine Or.inr ⟨?_, ?_, ?_, ?_⟩
                  · rw [← h'.1, ← h'.2.2]
                    exact List.mem_cons_self c cs
                  · rw [← h'.2.2]; exact h1
                  · rw [← h'.1]; exact h2
                  · rw [← h'.1, ← h'.2.1]
                · exact Or.inr ⟨List.mem_cons_of_mem c hm, hrest⟩
              · intro c' hc' hnt hresp
                rcases List.mem_cons.mp hc' with rfl | h'
                · exact hbc
                · exact hmin c' h' hnt hresp
              · intro b0 bc0 bm0 h0
                cases h0
        | some p =>
            obtain ⟨b0, bc0, bm0⟩ := p
            rw [tabuSelectStep_keep_some g bounds tabu c h1 h2 b0 bc0 bm0]
            by_cases hlt : total_cost g c.1 < bc0
            · rw [if_pos hlt]
              obtain ⟨ihn, ihs⟩ := ih (some (c.1, total_cost g c.1, c.2))
              constructor
              · rw [ihn]
                constructor
                · rintro ⟨h, -⟩; cases h
                · rintro ⟨h, -⟩; cases h
              · intro b bc bm h
                obtain ⟨hprov, hmin, haccb⟩ := ihs b bc bm h
                have hbc : bc ≤ total_cost g c.1 := haccb _ _ _ rfl
                refine ⟨?_, ?_, ?_⟩
                · rcases hprov with h' | ⟨hm, hrest⟩
                  · simp only [Option.some.injEq, Prod.mk.injEq] at h'
                    refine Or.inr ⟨?_, ?_, ?_, ?_⟩
                    · rw [← h'.1, ← h'.2.2]
                      exact List.mem_cons_self c cs
                    · rw [← h'.2.2]; exact h1
                    · rw [← h'.1]; exact h2
                    · rw [← h'.1, ← h'.2.1]
                  · exact Or.inr ⟨List.mem_cons_of_mem c hm, hrest⟩
                · intro c' hc' hnt hresp
                  rcases List.mem_cons.mp hc' with rfl | h'
                  · exact hbc
                  · exact hmin c' h' hnt hresp
                · intro b0' bc0' bm0' h0
                  simp only [Option.some.injEq, Prod.mk.injEq] at h0
                  rw [← h0.2.1]
                  exact le_trans hbc (le_of_lt hlt)
            · rw [if_neg hlt]
              obtain ⟨ihn, ihs⟩ := ih (some (b0, bc0, bm0))
              constructor
              · rw [ihn]
                constructor
                · rintro ⟨h, -⟩; cases h
                · rintro ⟨h, -⟩; cases h
              · intro b bc bm h
                obtain ⟨hprov, hmin, haccb⟩ := ihs b bc bm h
                have hbc0 : bc ≤ bc0 := haccb _ _ _ rfl
                refine ⟨?_, ?_, ?_⟩
                · rcases hprov with h' | ⟨hm, hrest⟩
                  · exact Or.inl h'
                  · exact Or.inr ⟨List.mem_cons_of_mem c hm, hrest⟩
                · intro c' hc' hnt hresp
                  rcases List.mem_cons.mp hc' with rfl | h'
                  · exact le_trans hbc0 (not_lt.mp hlt)
                  · exact hmin c' h' hnt hresp
                · intro b0' bc0' bm0' h0
                  simp only [Option.some.injEq, Prod.mk.injEq] at h0
                  rw [← h0.2.1]
                  exact hbc0
      · have hsk : c.2 ∈ tabu ∨
            GraphPy.respects_degree_constraints c.1 bounds = false := by
          rcases not_and_or.mp hsur with h | h
          · exact Or.inl (not_not.mp h)
          · cases hb : GraphPy.respects_degree_constraints c.1 bounds with
            | false => exact Or.inr rfl
            | true => exact absurd hb h
        rw [tabuSelectStep_skip g bounds tabu acc c hsk]
        obtain ⟨ihn, ihs⟩ := ih acc
        constructor
        · rw [ihn]
          constructor
          · rintro ⟨ha, hall⟩
            refine ⟨ha, ?_⟩
            intro c' hc'
            rcases List.mem_cons.mp hc' with rfl | h'
            · exact hsk
            · exact hall c' h'
          · rintro ⟨ha, hall⟩
            exact ⟨ha, fun c' hc' => hall c' (List.mem_cons_of_mem c hc')⟩
        · intro b bc bm h
          obtain ⟨hprov, hmin, haccb⟩ := ihs b bc bm h
          refine ⟨?_, ?_, haccb⟩
          · rcases hprov with h' | ⟨hm, hrest⟩
            · exact Or.inl h'
            · exact Or.inr ⟨List.mem_cons_of_mem c hm, hrest⟩
          · intro c' hc' hnt hresp
            rcases List.mem_cons.mp hc' with rfl | h'
            · rcases hsk with h' | h'
              · exact absurd h' hnt
              · rw [h'] at hresp; cases hresp
            · exact hmin c' h' hnt hresp

/-- The candidate scan of one tabu iteration, characterized: `none` exactly
when every generated neighbour is tabu or degree-infeasible; a `some` result
is a surviving candidate of minimal total cost, with the cost recorded
correctly. -/
theorem tabuSelect_char (g : PyGraph) (bounds : ℕ → ℕ)
    (tabu : List (PEdge × PEdge)) (current : List PEdge) :
    (tabuSelect g bounds tabu current = none ↔
      ∀ nt mv, (nt, mv) ∈ GraphPy.generate_neighbor_with_move g current →
        mv ∈ tabu ∨ GraphPy.respects_degree_constraints nt bounds = false) ∧
    (∀ b bc bm, tabuSelect g bounds tabu current = some (b, bc, bm) →
      (b, bm) ∈ GraphPy.generate_neighbor_with_move g current ∧
      bm ∉ tabu ∧ GraphPy.respects_degree_constraints b bounds = true ∧
      bc = total_cost g b ∧
      ∀ nt mv, (nt, mv) ∈ GraphPy.generate_neighbor_with_move g current →
        mv ∉ tabu → GraphPy.respects_degree_constraints nt bounds = true →
        bc ≤ total_cost g nt) := by
  obtain ⟨hn, hs⟩ := tabuSelectFold_spec g bounds tabu
    (GraphPy.generate_neighbor_with_move g current) none
  constructor
  · rw [tabuSelect, hn]
    constructor
    · rintro ⟨-, hall⟩ nt mv hm
      exact hall (nt, mv) hm
    · intro hall
      exact ⟨rfl, fun c hc => hall c.1 c.2 hc⟩
  · intro b bc bm h
    obtain ⟨hprov, hmin, -⟩ := hs b bc bm h
    rcases hprov with h' | ⟨hm, hnt, hresp, hcost⟩
    · cases h'
    · exact ⟨hm, hnt, hresp, hcost,
        fun nt mv hmem hnt' hresp' => hmin (nt, mv) hmem hnt' hresp'⟩

/-! ### `experiments/run_experiment.py`

The harness unpacks every solver result with `solution, cost =
algorithm(...)`; Python's two-target unpacking of a list succeeds only on a
two-element list. -/

/-- Python's `a, b = l` on a list: `ValueError` unless the list has exactly
two elements. -/
def pyUnpack2 {α : Type} (l : List α) : Except String (α × α) :=
  match l with
  | [a, b] => Except.ok (a, b)
  | _ => Except.error "ValueError: not enough values to unpack"

end DCMST

namespace DCMST

/-! ## The claims -/

/-- C1: for every finite graph and total degree-bound map, a tree returned
by `brute_force_dc_mst` is drawn from the edge list, is a feasible
degree-constrained spanning tree (|V|-1 edges, acyclic, connected, degrees
within bounds), and has minimal cost among all feasible spanning trees
drawn from the edge list; the error escape (`none`, the `ValueError`)
happens exactly when no such tree exists. -/
theorem C1_brute_force_optimal (V : List ℕ) (E : List WEdge)
    (bounds : ℕ → ℕ) (hV : V.Nodup) (hE : EdgesOn V (E.map projW)) :
    (∀ t, brute_force_dc_mst V E bounds = some t →
        t.Sublist E ∧ FeasibleTree V bounds t ∧
          ∀ t', List.Subperm t' E → FeasibleTree V bounds t' →
            tree_cost t ≤ tree_cost t') ∧
    (brute_force_dc_mst V E bounds = none ↔
      ¬ ∃ t', List.Subperm t' E ∧ FeasibleTree V bounds t') :=
  brute_force_dc_mst_spec V E bounds hV hE

/-- Witness for C1 on the one-edge graph `0 — 1`. -/
theorem C1_brute_force_optimal_witness :
    (([0, 1] : List ℕ).Nodup ∧
      EdgesOn [0, 1] (([(0, 1, 1)] : List WEdge).map projW)) ∧
    ((∀ t, brute_force_dc_mst [0, 1] [(0, 1, 1)] (fun _ => 2) = some t →
        t.Sublist [(0, 1, 1)] ∧ FeasibleTree [0, 1] (fun _ => 2) t ∧
          ∀ t', List.Subperm t' [(0, 1, 1)] →
            FeasibleTree [0, 1] (fun _ => 2) t' →
            tree_cost t ≤ tree_cost t') ∧
      (brute_force_dc_mst [0, 1] [(0, 1, 1)] (fun _ => 2) = none ↔
        ¬ ∃ t', List.Subperm t' [(0, 1, 1)] ∧
          FeasibleTree [0, 1] (fun _ => 2) t')) :=
  ⟨⟨by decide, by unfold EdgesOn; decide⟩,
    C1_brute_force_optimal [0, 1] [(0, 1, 1)] (fun _ => 2) (by decide)
      (by unfold EdgesOn; decide)⟩

/-- C2: the greedy constructor does NOT examine edges by non-decreasing
weight — `greedy.py` sorts with `key=lambda e: e[1]`, the second endpoint
of the pair edge.  On the triangle with weights w(0,1)=1, w(1,2)=1,
w(0,2)=10 the examination order (stable sort by second endpoint) is
(0,1), (0,2), (1,2) while the weight order is (0,1), (1,2), (0,2); the
greedy run then takes (0,1) and (0,2) for a tree of cost 11 where the
weight-ordered scan would pick the cost-2 tree (0,1), (1,2). -/
theorem C2_greedy_sort_key_divergence :
    pySorted (fun e : PEdge => e.2) [(0, 1), (0, 2), (1, 2)] =
      [(0, 1), (0, 2), (1, 2)] ∧
    pySorted (fun e : PEdge =>
        (if e = (0, 1) then 1 else if e = (1, 2) then 1 else 10 : ℚ))
      [(0, 1), (0, 2), (1, 2)] = [(0, 1), (1, 2), (0, 2)] ∧
    (greedy_dc_mst ⟨[0, 1, 2], [(0, 1), (0, 2), (1, 2)],
        fun e => if e = (0, 1) then 1 else if e = (1, 2) then 1 else 10⟩
      (fun _ => 2)).1 = [(0, 1), (0, 2)] ∧
    total_cost ⟨[0, 1, 2], [(0, 1), (0, 2), (1, 2)],
        fun e => if e = (0, 1) then 1 else if e = (1, 2) then 1 else 10⟩
      [(0, 1), (0, 2)] = 11 ∧
    total_cost ⟨[0, 1, 2], [(0, 1), (0, 2), (1, 2)],
        fun e => if e = (0, 1) then 1 else if e = (1, 2) then 1 else 10⟩
      [(0, 1), (1, 2)] = 2 := by
  refine ⟨by decide, by decide, by decide, ?_, ?_⟩
  · norm_num [total_cost]
  · norm_num [total_cost]

/-- C3 (amended): the union operation of `has_cycle`'s Disjoint-Set does
return `false` and leave the parent map untouched when the two arguments
share a representative, but the merge is NOT union-by-rank: it
unconditionally attaches `y`'s root below `x`'s root, with no rank
bookkeeping at all. -/
theorem C3_union_semantics (V : List ℕ) (p : ℕ → ℕ) (x y : ℕ) :
    hc_union V p x y =
      if rootOf V p x = rootOf V p y then (false, p)
      else (true, Function.update p (rootOf V p y) (rootOf V p x)) := rfl

/-- Counterexample to C3's union-by-rank half: after union(0,1) then
union(2,0) on vertices {0,1,2}, the code's representative of 0 is 2 (the
rank-0 root 2 absorbed the rank-1 tree), while genuine union-by-rank — the
spec-modelled `UnionFind` — keeps 0 as the representative. -/
theorem C3_counterexample :
    rootOf [0, 1, 2]
      (hc_union [0, 1, 2] (hc_union [0, 1, 2] (fun v => v) 0 1).2 2 0).2 0 = 2 ∧
    (((UnionFind.init [0, 1, 2]).union 0 1).2.union 2 0).2.find 0 = 0 ∧
    rootOf [0, 1, 2]
        (hc_union [0, 1, 2] (hc_union [0, 1, 2] (fun v => v) 0 1).2 2 0).2 0 ≠
      (((UnionFind.init [0, 1, 2]).union 0 1).2.union 2 0).2.find 0 := by
  refine ⟨by decide, by decide, by decide⟩

/-- C4: seeding is broken, so seed-determinism fails.  `generate_graph`
declares `**seed: int`: a call with `seed=s` forwards the kwargs dict to
`random.seed(**seed)`, which raises `TypeError` (`seed` is not a parameter
of `random.seed`), and `generate_feasible_instance` dies the same way on
its first attempt; Simulated Annealing accepts no seed at all and draws
from the process-global generator — two runs on identical inputs whose
hidden draws differ return different trees and costs. -/
theorem C4_seed_not_reproducible :
    (∀ (n : ℕ) (p : ℚ) (wr : ℤ × ℤ) (db : ℕ) (s : ℤ)
        (entropy : ℕ → ℚ × ℤ),
      generate_graph n p wr db (some s) entropy =
        Except.error "TypeError: seed() got an unexpected keyword argument") ∧
    (∀ (n : ℕ) (p : ℚ) (wr : ℤ × ℤ) (db : ℕ) (s : ℤ)
        (entropy : ℕ → ℕ → ℚ × ℤ) (attempts : ℕ),
      generate_feasible_instance n p wr db (some s) entropy (attempts + 1) =
        Except.error "TypeError: seed() got an unexpected keyword argument") ∧
    simulated_annealing ⟨[0, 1, 2], [(0, 1), (1, 2), (0, 2)],
        fun e => if e = (0, 1) then 1 else if e = (1, 2) then 5 else 1⟩
        (fun _ => 2) [(0, 1), (1, 2)] 1 (1/2) (1/100) 1
        (fun _ => (1, 1, false)) ≠
      simulated_annealing ⟨[0, 1, 2], [(0, 1), (1, 2), (0, 2)],
        fun e => if e = (0, 1) then 1 else if e = (1, 2) then 5 else 1⟩
        (fun _ => 2) [(0, 1), (1, 2)] 1 (1/2) (1/100) 1
        (fun _ => (0, 0, false)) := by
  refine ⟨fun _ _ _ _ _ _ => rfl, fun _ _ _ _ _ _ _ => rfl, ?_⟩
  set gS : PyGraph := ⟨[0, 1, 2], [(0, 1), (1, 2), (0, 2)],
    fun e => if e = (0, 1) then 1 else if e = (1, 2) then 5 else 1⟩ with hgS
  have hco : total_cost gS [(0, 1), (1, 2)] = 6 := by
    norm_num [total_cost, hgS]
  have hcn : total_cost gS [(0, 2), (0, 1)] = 2 := by
    norm_num [total_cost, hgS]
  have h1 : simulated_annealing gS (fun _ => 2) [(0, 1), (1, 2)] 1 (1/2)
      (1/100) 1 (fun _ => (1, 1, false)) = ([(0, 2), (0, 1)], 2) := by
    rw [simulated_annealing, hco, saLoop, if_neg (by norm_num)]
    simp only []
    rw [show GraphPy.generate_neighbor gS [(0, 1), (1, 2)] 1 1 =
        some [(0, 2), (0, 1)] from by rw [hgS]; decide]
    simp only []
    rw [if_neg (by decide)]
    rw [hcn]
    simp only [saLoop]
    norm_num
  have h2 : simulated_annealing gS (fun _ => 2) [(0, 1), (1, 2)] 1 (1/2)
      (1/100) 1 (fun _ => (0, 0, false)) = ([(0, 1), (1, 2)], 6) := by
    rw [simulated_annealing, hco, saLoop, if_neg (by norm_num)]
    simp only []
    rw [show GraphPy.generate_neighbor gS [(0, 1), (1, 2)] 0 0 =
        some [(0, 1), (1, 2)] from by rw [hgS]; decide]
    simp only []
    rw [if_neg (by decide)]
    rw [hco]
    simp only [saLoop]
    norm_num
  rw [h1, h2]
  decide

/-- C5: on the reference instance (vertices {0,1,2,3}, edges (0,1,1),
(1,2,1), (2,3,1), (0,3,10), (0,2,5), all degree bounds 2) the exact solver
returns the path tree of cost 3, and the greedy constructor returns the
same tree, as pairs, with the same cost 3. -/
theorem C5_reference_instance :
    brute_force_dc_mst [0, 1, 2, 3]
      [(0, 1, 1), (1, 2, 1), (2, 3, 1), (0, 3, 10), (0, 2, 5)] (fun _ => 2) =
      some [(0, 1, 1), (1, 2, 1), (2, 3, 1)] ∧
    tree_cost [(0, 1, 1), (1, 2, 1), (2, 3, 1)] = 3 ∧
    (greedy_dc_mst ⟨[0, 1, 2, 3], [(0, 1), (1, 2), (2, 3), (0, 3), (0, 2)],
        fun e => if e = (0, 1) then 1 else if e = (1, 2) then 1
          else if e = (2, 3) then 1 else if e = (0, 3) then 10 else 5⟩
      (fun _ => 2)).1 = [(0, 1), (1, 2), (2, 3)] ∧
    (greedy_dc_mst ⟨[0, 1, 2, 3], [(0, 1), (1, 2), (2, 3), (0, 3), (0, 2)],
        fun e => if e = (0, 1) then 1 else if e = (1, 2) then 1
          else if e = (2, 3) then 1 else if e = (0, 3) then 10 else 5⟩
      (fun _ => 2)).2 = 3 := by
  have hbf : brute_force_dc_mst [0, 1, 2, 3]
      [(0, 1, 1), (1, 2, 1), (2, 3, 1), (0, 3, 10), (0, 2, 5)] (fun _ => 2) =
      some [(0, 1, 1), (1, 2, 1), (2, 3, 1)] := by
    have h1 : bfStep [0,1,2,3] (fun _ => 2) none [(0,1,1),(1,2,1),(2,3,1)] =
        some ([(0,1,1),(1,2,1),(2,3,1)], 3) := by
      rw [bfStep_accept (by decide)]; norm_num [tree_cost]
    have h2 : bfStep [0,1,2,3] (fun _ => 2) (some ([(0,1,1),(1,2,1),(2,3,1)], 3))
        [(0,1,1),(1,2,1),(0,3,10)] = some ([(0,1,1),(1,2,1),(2,3,1)], 3) := by
      rw [bfStep_accept (by decide)]; norm_num [tree_cost]
    have h3 : bfStep [0,1,2,3] (fun _ => 2) (some ([(0,1,1),(1,2,1),(2,3,1)], 3))
        [(0,1,1),(1,2,1),(0,2,5)] = some ([(0,1,1),(1,2,1),(2,3,1)], 3) :=
      bfStep_not_accept (by decide)
    have h4 : bfStep [0,1,2,3] (fun _ => 2) (some ([(0,1,1),(1,2,1),(2,3,1)], 3))
        [(0,1,1),(2,3,1),(0,3,10)] = some ([(0,1,1),(1,2,1),(2,3,1)], 3) := by
      rw [bfStep_accept (by decide)]; norm_num [tree_cost]
    have h5 : bfStep [0,1,2,3] (fun _ => 2) (some ([(0,1,1),(1,2,1),(2,3,1)], 3))
        [(0,1,1),(2,3,1),(0,2,5)] = some ([(0,1,1),(1,2,1),(2,3,1)], 3) := by
      rw [bfStep_accept (by decide)]; norm_num [tree_cost]
    have h6 : bfStep [0,1,2,3] (fun _ => 2) (some ([(0,1,1),(1,2,1),(2,3,1)], 3))
        [(0,1,1),(0,3,10),(0,2,5)] = some ([(0,1,1),(1,2,1),(2,3,1)], 3) :=
      bfStep_not_accept (by decide)
    have h7 : bfStep [0,1,2,3] (fun _ => 2) (some ([(0,1,1),(1,2,1),(2,3,1)], 3))
        [(1,2,1),(2,3,1),(0,3,10)] = some ([(0,1,1),(1,2,1),(2,3,1)], 3) := by
      rw [bfStep_accept (by decide)]; norm_num [tree_cost]
    have h8 : bfStep [0,1,2,3] (fun _ => 2) (some ([(0,1,1),(1,2,1),(2,3,1)], 3))
        [(1,2,1),(2,3,1),(0,2,5)] = some ([(0,1,1),(1,2,1),(2,3,1)], 3) :=
      bfStep_not_accept (by decide)
    have h9 : bfStep [0,1,2,3] (fun _ => 2) (some ([(0,1,1),(1,2,1),(2,3,1)], 3))
        [(1,2,1),(0,3,10),(0,2,5)] = some ([(0,1,1),(1,2,1),(2,3,1)], 3) := by
      rw [bfStep_accept (by decide)]; norm_num [tree_cost]
    have h10 : bfStep [0,1,2,3] (fun _ => 2) (some ([(0,1,1),(1,2,1),(2,3,1)], 3))
        [(2,3,1),(0,3,10),(0,2,5)] = some ([(0,1,1),(1,2,1),(2,3,1)], 3) :=
      bfStep_not_accept (by decide)
    rw [brute_force_dc_mst, if_neg (by decide),
      show (([0,1,2,3] : List ℕ).length - 1) = 3 from rfl,
      show combinations 3
          ([(0,1,1),(1,2,1),(2,3,1),(0,3,10),(0,2,5)] : List WEdge) =
        [[(0,1,1),(1,2,1),(2,3,1)], [(0,1,1),(1,2,1),(0,3,10)],
         [(0,1,1),(1,2,1),(0,2,5)], [(0,1,1),(2,3,1),(0,3,10)],
         [(0,1,1),(2,3,1),(0,2,5)], [(0,1,1),(0,3,10),(0,2,5)],
         [(1,2,1),(2,3,1),(0,3,10)], [(1,2,1),(2,3,1),(0,2,5)],
         [(1,2,1),(0,3,10),(0,2,5)], [(2,3,1),(0,3,10),(0,2,5)]] from by decide]
    simp only [List.foldl_cons, List.foldl_nil, h1, h2, h3, h4, h5, h6, h7,
      h8, h9, h10]
    rfl
  have htree :
      (greedy_dc_mst ⟨[0, 1, 2, 3], [(0, 1), (1, 2), (2, 3), (0, 3), (0, 2)],
        fun e => if e = (0, 1) then 1 else if e = (1, 2) then 1
          else if e = (2, 3) then 1 else if e = (0, 3) then 10 else 5⟩
      (fun _ => 2)).1 = [(0, 1), (1, 2), (2, 3)] := by decide
  refine ⟨hbf, by norm_num [tree_cost], htree, ?_⟩
  have hc : (greedy_dc_mst ⟨[0, 1, 2, 3],
      [(0, 1), (1, 2), (2, 3), (0, 3), (0, 2)],
      fun e => if e = (0, 1) then 1 else if e = (1, 2) then 1
        else if e = (2, 3) then 1 else if e = (0, 3) then 10 else 5⟩
      (fun _ => 2)).2 =
    total_cost ⟨[0, 1, 2, 3], [(0, 1), (1, 2), (2, 3), (0, 3), (0, 2)],
      fun e => if e = (0, 1) then 1 else if e = (1, 2) then 1
        else if e = (2, 3) then 1 else if e = (0, 3) then 10 else 5⟩
      (greedy_dc_mst ⟨[0, 1, 2, 3], [(0, 1), (1, 2), (2, 3), (0, 3), (0, 2)],
        fun e => if e = (0, 1) then 1 else if e = (1, 2) then 1
          else if e = (2, 3) then 1 else if e = (0, 3) then 10 else 5⟩
        (fun _ => 2)).1 := rfl
  rw [hc, htree]
  norm_num [total_cost]

/-- C6 (amended): one iteration of `tabu_search` scans the candidates that
`generate_neighbor_with_move` enumerates — a list that also contains
identity moves (`removed = added`, reproducing the current tree), so it is
not the strict single-edge-swap neighbourhood — keeps a non-tabu,
degree-feasible candidate of minimal total cost (the incumbent is replaced
only on strictly smaller cost, so the earliest minimum survives), commits
it unconditionally even when it worsens the current cost, appends the move
with `deque(maxlen=tenure)` eviction, and terminates exactly when no
candidate survives the two filters. -/
theorem C6_tabu_iteration (g : PyGraph) (db : ℕ → ℕ) (tenure rem : ℕ)
    (current best : List PEdge) (ccost bcost : ℚ)
    (tabu : List (PEdge × PEdge)) :
    (tabuSelect g db tabu current = none →
      tabuLoop g db tenure (rem + 1) current ccost best bcost tabu =
        (best, bcost)) ∧
    (∀ cand c mv, tabuSelect g db tabu current = some (cand, c, mv) →
      tabuLoop g db tenure (rem + 1) current ccost best bcost tabu =
        tabuLoop g db tenure rem cand c
          (if c < bcost then cand else best)
          (if c < bcost then c else bcost)
          (pushTabu tabu mv tenure)) ∧
    (∀ cand c mv, tabuSelect g db tabu current = some (cand, c, mv) →
      (cand, mv) ∈ GraphPy.generate_neighbor_with_move g current ∧
      mv ∉ tabu ∧ GraphPy.respects_degree_constraints cand db = true ∧
      c = total_cost g cand ∧
      ∀ nt nmv, (nt, nmv) ∈ GraphPy.generate_neighbor_with_move g current →
        nmv ∉ tabu → GraphPy.respects_degree_constraints nt db = true →
        c ≤ total_cost g nt) ∧
    (tabuSelect g db tabu current = none ↔
      ∀ nt nmv, (nt, nmv) ∈ GraphPy.generate_neighbor_with_move g current →
        nmv ∈ tabu ∨ GraphPy.respects_degree_constraints nt db = false) := by
  obtain ⟨hnone, hsome⟩ := tabuSelect_char g db tabu current
  refine ⟨?_, ?_, ?_, hnone⟩
  · intro hsel
    rw [tabuLoop, hsel]
  · intro cand c mv hsel
    rw [tabuLoop, hsel]
  · intro cand c mv hsel
    exact hsome cand c mv hsel

/-- Counterexample to C6 as stated: on the triangle (weights 1, 1, 5) with
current tree {(0,1),(1,2)}, the iteration selects the identity move
((0,1),(0,1)) — the current tree itself, cost 2 — while every candidate
whose move genuinely swaps two distinct edges costs 6; the selected
"neighbour" is not an element of the strict single-edge-swap
neighbourhood. -/
theorem C6_counterexample :
    tabuSelect ⟨[0, 1, 2], [(0, 1), (1, 2), (0, 2)],
        fun e => if e = (0, 1) then 1 else if e = (1, 2) then 1 else 5⟩
      (fun _ => 2) [] [(0, 1), (1, 2)] =
      some ([(0, 1), (1, 2)], 2, ((0, 1), (0, 1))) ∧
    (∀ nt mv, (nt, mv) ∈ GraphPy.generate_neighbor_with_move
        ⟨[0, 1, 2], [(0, 1), (1, 2), (0, 2)],
          fun e => if e = (0, 1) then 1 else if e = (1, 2) then 1 else 5⟩
        [(0, 1), (1, 2)] → mv.1 ≠ mv.2 →
      total_cost ⟨[0, 1, 2], [(0, 1), (1, 2), (0, 2)],
        fun e => if e = (0, 1) then 1 else if e = (1, 2) then 1 else 5⟩
        nt = 6) := by
  set g6 : PyGraph := ⟨[0, 1, 2], [(0, 1), (1, 2), (0, 2)],
    fun e => if e = (0, 1) then 1 else if e = (1, 2) then 1 else 5⟩ with hg6
  have hc1 : total_cost g6 [(0, 1), (1, 2)] = 2 := by
    norm_num [total_cost, hg6]
  have hc2 : total_cost g6 [(0, 2), (1, 2)] = 6 := by
    norm_num [total_cost, hg6]
  have hc3 : total_cost g6 [(1, 2), (0, 1)] = 2 := by
    norm_num [total_cost, hg6]
  have hc4 : total_cost g6 [(0, 2), (0, 1)] = 6 := by
    norm_num [total_cost, hg6]
  have hgen : GraphPy.generate_neighbor_with_move g6 [(0, 1), (1, 2)] =
      [([(0, 1), (1, 2)], ((0, 1), (0, 1))),
       ([(0, 2), (1, 2)], ((0, 1), (0, 2))),
       ([(1, 2), (0, 1)], ((1, 2), (1, 2))),
       ([(0, 2), (0, 1)], ((1, 2), (0, 2)))] := by
    rw [hg6]; decide
  constructor
  · have s1 : tabuSelectStep g6 (fun _ => 2) [] none
        ([(0, 1), (1, 2)], ((0, 1), (0, 1))) =
        some ([(0, 1), (1, 2)], 2, ((0, 1), (0, 1))) := by
      rw [tabuSelectStep, if_neg (by simp), if_neg (by decide)]
      show some ([(0, 1), (1, 2)], total_cost g6 [(0, 1), (1, 2)],
        ((0, 1), (0, 1))) = _
      rw [hc1]
    have s2 : tabuSelectStep g6 (fun _ => 2) []
        (some ([(0, 1), (1, 2)], 2, ((0, 1), (0, 1))))
        ([(0, 2), (1, 2)], ((0, 1), (0, 2))) =
        some ([(0, 1), (1, 2)], 2, ((0, 1), (0, 1))) := by
      rw [tabuSelectStep, if_neg (by simp), if_neg (by decide)]
      show (if total_cost g6 [(0, 2), (1, 2)] < 2 then _ else _) = _
      rw [hc2]
      norm_num
    have s3 : tabuSelectStep g6 (fun _ => 2) []
        (some ([(0, 1), (1, 2)], 2, ((0, 1), (0, 1))))
        ([(1, 2), (0, 1)], ((1, 2), (1, 2))) =
        some ([(0, 1), (1, 2)], 2, ((0, 1), (0, 1))) := by
      rw [tabuSelectStep, if_neg (by simp), if_neg (by decide)]
      show (if total_cost g6 [(1, 2), (0, 1)] < 2 then _ else _) = _
      rw [hc3]
      norm_num
    have s4 : tabuSelectStep g6 (fun _ => 2) []
        (some ([(0, 1), (1, 2)], 2, ((0, 1), (0, 1))))
        ([(0, 2), (0, 1)], ((1, 2), (0, 2))) =
        some ([(0, 1), (1, 2)], 2, ((0, 1), (0, 1))) := by
      rw [tabuSelectStep, if_neg (by simp), if_neg (by decide)]
      show (if total_cost g6 [(0, 2), (0, 1)] < 2 then _ else _) = _
      rw [hc4]
      norm_num
    rw [tabuSelect, hgen]
    simp only [List.foldl_cons, List.foldl_nil, s1, s2, s3, s4]
  · intro nt mv hm hne
    rw [hgen] at hm
    simp only [List.mem_cons, List.not_mem_nil, or_false,
      Prod.mk.injEq] at hm
    rcases hm with ⟨h1, h2⟩ | ⟨h1, h2⟩ | ⟨h1, h2⟩ | ⟨h1, h2⟩
    · exact absurd (by rw [h2]) hne
    · rw [h1]; exact hc2
    · exact absurd (by rw [h2]) hne
    · rw [h1]; exact hc4

/-- C7: for every vertex set, edge list, degree-bound map, seed tree and
iteration allowance, the tree `local_search_dc_mst` returns costs no more
than the seed tree (only strictly improving swaps are ever committed). -/
theorem C7_local_search_monotone (V : List ℕ) (edges : List WEdge)
    (initial_tree : List WEdge) (bounds : ℕ → ℕ) (fuel : ℕ) :
    tree_cost (local_search_dc_mst V edges initial_tree bounds fuel) ≤
      tree_cost initial_tree :=
  lsLoop_le V edges bounds fuel initial_tree

/-- C8 (amended): greedy, simulated annealing and tabu search return
`(tree, cost)` pairs whose second component is the total cost of the
first; the exact solver and local search return bare trees (see the
counterexample). -/
theorem C8_solver_pairs (g : PyGraph) (db : ℕ → ℕ)
    (initial_solution : List PEdge) (it cr mt : ℚ) (mi tenure : ℕ)
    (rng : ℕ → ℕ × ℕ × Bool) :
    (greedy_dc_mst g db).2 = total_cost g (greedy_dc_mst g db).1 ∧
    (simulated_annealing g db initial_solution it cr mt mi rng).2 =
      total_cost g (simulated_annealing g db initial_solution it cr mt mi rng).1 ∧
    (tabu_search g db initial_solution tenure mi).2 =
      total_cost g (tabu_search g db initial_solution tenure mi).1 :=
  ⟨rfl,
   saLoop_cost_inv g db mt cr rng mi 0 it initial_solution
     (total_cost g initial_solution) initial_solution
     (total_cost g initial_solution) rfl rfl,
   tabuLoop_cost_inv g db tenure mi initial_solution
     (total_cost g initial_solution) initial_solution
     (total_cost g initial_solution) [] rfl⟩

/-- Counterexample to C8 as stated: the exact solver and local search
return bare edge lists, not `(tree, cost)` pairs — on the one-edge graph
both outputs are the single-edge tree, and the experiment harness's
two-target unpacking (`solution, cost = algorithm(...)`) raises
`ValueError` on it. -/
theorem C8_counterexample :
    brute_force_dc_mst [0, 1] [(0, 1, 1)] (fun _ => 2) = some [(0, 1, 1)] ∧
    pyUnpack2 ([(0, 1, 1)] : List WEdge) =
      Except.error "ValueError: not enough values to unpack" ∧
    local_search_dc_mst [0, 1] [(0, 1, 1)] [(0, 1, 1)] (fun _ => 2) 1 =
      [(0, 1, 1)] ∧
    pyUnpack2 (local_search_dc_mst [0, 1] [(0, 1, 1)] [(0, 1, 1)]
        (fun _ => 2) 1) =
      Except.error "ValueError: not enough values to unpack" :=
  ⟨rfl, rfl, rfl, rfl⟩

/-- C9: on a spanning tree of the graph's vertex set, every `some` result
of `generate_neighbor` and every neighbour yielded by
`generate_neighbor_with_move` is again a spanning tree — duplicate-free,
|V|-1 edges, connected and acyclic. -/
theorem C9_neighbor_spanning (g : PyGraph) (T : List PEdge) (ri ai : ℕ)
    (hV : g.vertices.Nodup) (hT : T.Nodup) (hTE : EdgesOn g.vertices T)
    (hlen : T.length + 1 = g.vertices.length)
    (hconn : ConnectedL g.vertices T) :
    (∀ nt, GraphPy.generate_neighbor g T ri ai = some nt →
      nt.Nodup ∧ nt.length + 1 = g.vertices.length ∧
        ConnectedL g.vertices nt ∧ Acyclic nt) ∧
    (∀ nt mv, (nt, mv) ∈ GraphPy.generate_neighbor_with_move g T →
      nt.Nodup ∧ nt.length + 1 = g.vertices.length ∧
        ConnectedL g.vertices nt ∧ Acyclic nt) :=
  ⟨generate_neighbor_spanning g T ri ai hV hT hTE hlen hconn,
   generate_neighbor_with_move_spanning g T hV hT hTE hlen hconn⟩

/-- Witness for C9 on the one-edge spanning tree of `0 — 1`. -/
theorem C9_neighbor_spanning_witness :
    ((([0, 1] : List ℕ).Nodup ∧ ([(0, 1)] : List PEdge).Nodup ∧
      EdgesOn [0, 1] [(0, 1)] ∧
      ([(0, 1)] : List PEdge).length + 1 = ([0, 1] : List ℕ).length ∧
      ConnectedL [0, 1] [(0, 1)]) ∧
     ((∀ nt, GraphPy.generate_neighbor ⟨[0, 1], [(0, 1)], fun _ => 1⟩
          [(0, 1)] 0 0 = some nt →
        nt.Nodup ∧ nt.length + 1 = ([0, 1] : List ℕ).length ∧
          ConnectedL [0, 1] nt ∧ Acyclic nt) ∧
      (∀ nt mv, (nt, mv) ∈ GraphPy.generate_neighbor_with_move
          ⟨[0, 1], [(0, 1)], fun _ => 1⟩ [(0, 1)] →
        nt.Nodup ∧ nt.length + 1 = ([0, 1] : List ℕ).length ∧
          ConnectedL [0, 1] nt ∧ Acyclic nt))) := by
  have hconn : ConnectedL [0, 1] [(0, 1)] :=
    (@is_connected_true_iff [0, 1] [(0, 1, 0)]
      (by unfold EdgesOn; decide)).mp (by decide)
  exact ⟨⟨by decide, by decide, by unfold EdgesOn; decide, by decide, hconn⟩,
    C9_neighbor_spanning ⟨[0, 1], [(0, 1)], fun _ => 1⟩ [(0, 1)] 0 0
      (by decide) (by decide) (by unfold EdgesOn; decide) (by decide) hconn⟩

/-- C10: whatever the input graph and bounds, the edge list
`greedy_dc_mst` returns is acyclic and keeps every vertex's degree within
its bound, even when it stops short of |V|-1 edges. -/
theorem C10_greedy_invariant (g : PyGraph) (db : ℕ → ℕ)
    (hE : EdgesOn g.vertices g.edges) :
    Acyclic (greedy_dc_mst g db).1 ∧
      (∀ v, degCount (greedy_dc_mst g db).1 v ≤ db v) :=
  greedy_dc_mst_invariant g db hE

/-- Witness for C10 on the one-edge graph `0 — 1`. -/
theorem C10_greedy_invariant_witness :
    EdgesOn ([0, 1] : List ℕ) ([(0, 1)] : List PEdge) ∧
    (Acyclic (greedy_dc_mst ⟨[0, 1], [(0, 1)], fun _ => 1⟩ (fun _ => 2)).1 ∧
      ∀ v, degCount (greedy_dc_mst ⟨[0, 1], [(0, 1)], fun _ => 1⟩
        (fun _ => 2)).1 v ≤ 2) :=
  ⟨by unfold EdgesOn; decide,
   C10_greedy_invariant ⟨[0, 1], [(0, 1)], fun _ => 1⟩ (fun _ => 2)
     (by unfold EdgesOn; decide)⟩

end DCMST
